import Mathlib

/-!
# svg.js `Runner`: time/position model and stepping state machine

A shallow embedding of `src/animation/Runner.js`.

JavaScript numbers are modelled by `JSNum`: exact rationals extended with
`Infinity`, `-Infinity` and `NaN`.  The special values follow the IEEE rules
JavaScript uses (`Infinity - Infinity`, `0 * Infinity`, `Infinity % c` and
`x % 0` are `NaN`, every comparison with `NaN` is false, `NaN !== NaN`).
Finite arithmetic is exact, with one exception: the position getter subtracts
the small constant `1e-5` from the end time, and whether that constant survives
the rounding of the double subtraction decides the result for large end times,
so that subtraction is rounded to the 53 significant bits of a double
(`subDouble`; the exponent range of doubles is not modelled).  The two zeros
are not distinguished (a non-zero number divided by zero is the infinity with
the sign of the numerator).

The queue callbacks and the notifications are code outside the runner.  A
callback is a function on a `Scope`: the runner's `transforms` and the outside
world; it does not call back into the runner.  What a call of `step` makes
observable (notifications fired, callbacks called) is returned as a list of
`Event`s next to the new state.
-/

namespace SvgRunner

/-- A JavaScript number: a rational, `Infinity`, `-Infinity` or `NaN`. -/
inductive JSNum where
  | fin (q : ℚ)
  | pinf
  | ninf
  | nan
  deriving DecidableEq

namespace JSNum

/-- ToNumber of a boolean: `true` is 1 and `false` is 0. -/
def ofBool (b : Bool) : JSNum := fin (if b then 1 else 0)

/-- Unary minus. -/
def neg : JSNum → JSNum
  | fin a => fin (-a)
  | pinf => ninf
  | ninf => pinf
  | nan => nan

/-- The JavaScript `+` on numbers. -/
def add : JSNum → JSNum → JSNum
  | fin a, fin b => fin (a + b)
  | fin _, pinf => pinf
  | fin _, ninf => ninf
  | pinf, fin _ => pinf
  | pinf, pinf => pinf
  | ninf, fin _ => ninf
  | ninf, ninf => ninf
  | pinf, ninf => nan
  | ninf, pinf => nan
  | nan, _ => nan
  | _, nan => nan

/-- The JavaScript binary `-`, exact. -/
def sub (a b : JSNum) : JSNum := add a (neg b)

/-- The integer nearest to a rational, a tie going to the even one. -/
def nearestEven (m : ℚ) : ℤ :=
  if m - ⌊m⌋ < 1 / 2 then ⌊m⌋
  else if 1 / 2 < m - ⌊m⌋ then ⌊m⌋ + 1
  else if ⌊m⌋ % 2 = 0 then ⌊m⌋ else ⌊m⌋ + 1

/-- The rational with a significand of 53 bits nearest to `q`, a tie going to the even
significand: the rounding of a double operation.  With `2 ^ e ≤ |q| < 2 ^ (e + 1)` the
neighbours are `2 ^ (e - 52)` apart. -/
def roundDouble (q : ℚ) : ℚ :=
  if q = 0 then 0
  else
    let ulp : ℚ := 2 ^ (Int.log 2 |q| - 52)
    let a : ℚ := (nearestEven (|q| / ulp) : ℚ) * ulp
    if 0 < q then a else -a

/-- The JavaScript binary `-` with the rounding of the double result. -/
def subDouble (a b : JSNum) : JSNum :=
  match sub a b with
  | fin q => fin (roundDouble q)
  | x => x

/-- An infinity times (or divided by) a finite factor: the sign rule, with `0 * Infinity = NaN`. -/
def infTimes (positive : Bool) (b : ℚ) : JSNum :=
  if b = 0 then nan
  else if 0 < b then (if positive then pinf else ninf)
  else (if positive then ninf else pinf)

/-- The JavaScript `*`. -/
def mul : JSNum → JSNum → JSNum
  | fin a, fin b => fin (a * b)
  | fin a, pinf => infTimes true a
  | fin a, ninf => infTimes false a
  | pinf, fin b => infTimes true b
  | ninf, fin b => infTimes false b
  | pinf, pinf => pinf
  | ninf, ninf => pinf
  | pinf, ninf => ninf
  | ninf, pinf => ninf
  | nan, _ => nan
  | _, nan => nan

/-- The JavaScript `/`; the divisor zero is taken to be `+0`. -/
def div : JSNum → JSNum → JSNum
  | fin a, fin b =>
    if b = 0 then (if a = 0 then nan else if 0 < a then pinf else ninf) else fin (a / b)
  | fin _, pinf => fin 0
  | fin _, ninf => fin 0
  | pinf, fin b => if 0 ≤ b then pinf else ninf
  | ninf, fin b => if 0 ≤ b then ninf else pinf
  | pinf, pinf => nan
  | pinf, ninf => nan
  | ninf, pinf => nan
  | ninf, ninf => nan
  | nan, _ => nan
  | _, nan => nan

/-- Rounding towards zero, as the quotient of the JavaScript remainder does. -/
def trunc (q : ℚ) : ℤ := if 0 ≤ q then ⌊q⌋ else ⌈q⌉

/-- The JavaScript `%`: the remainder has the sign of the dividend. -/
def mod : JSNum → JSNum → JSNum
  | fin a, fin b => if b = 0 then nan else fin (a - b * (trunc (a / b) : ℚ))
  | fin a, pinf => fin a
  | fin a, ninf => fin a
  | pinf, _ => nan
  | ninf, _ => nan
  | nan, _ => nan
  | fin _, nan => nan

/-- The function `Math.floor`. -/
def floor : JSNum → JSNum
  | fin a => fin ((⌊a⌋ : ℤ) : ℚ)
  | x => x

/-- The function `Math.round`: nearest integer, ties towards `+Infinity`. -/
def round : JSNum → JSNum
  | fin a => fin ((⌊a + 1 / 2⌋ : ℤ) : ℚ)
  | x => x

/-- The JavaScript `<`. -/
def lt : JSNum → JSNum → Bool
  | fin a, fin b => decide (a < b)
  | fin _, pinf => true
  | ninf, fin _ => true
  | ninf, pinf => true
  | _, _ => false

/-- The JavaScript `<=`. -/
def le : JSNum → JSNum → Bool
  | fin a, fin b => decide (a ≤ b)
  | fin _, pinf => true
  | ninf, fin _ => true
  | ninf, pinf => true
  | pinf, pinf => true
  | ninf, ninf => true
  | _, _ => false

/-- The JavaScript `>`. -/
def gt (a b : JSNum) : Bool := lt b a

/-- The JavaScript `>=`. -/
def ge (a b : JSNum) : Bool := le b a

/-- The function `Math.min` of two arguments. -/
def min : JSNum → JSNum → JSNum
  | nan, _ => nan
  | _, nan => nan
  | a, b => if lt b a then b else a

/-- The function `Math.max` of two arguments. -/
def max : JSNum → JSNum → JSNum
  | nan, _ => nan
  | _, nan => nan
  | a, b => if lt a b then b else a

/-- ToBoolean of a number: `0` and `NaN` are falsy. -/
def truthy : JSNum → Bool
  | fin a => decide (a ≠ 0)
  | nan => false
  | _ => true

/-- The value of `Math.pow(-1, b)` for a boolean `b`. -/
def powNegOne (b : Bool) : JSNum := fin (if b then -1 else 1)

/-- The JavaScript `===` between two numbers. -/
def strictEq : JSNum → JSNum → Bool
  | nan, _ => false
  | _, nan => false
  | a, b => decide (a = b)

/-- The JavaScript `!==` between a possibly `undefined` value and a number. -/
def strictNe : Option JSNum → JSNum → Bool
  | none, _ => true
  | some nan, _ => true
  | some _, nan => true
  | some a, b => decide (a ≠ b)

end JSNum

open JSNum

/-- Modelled from the spec: the matrix type of `types/Matrix.js`, which is not part of the
sources at hand: an affine 2D matrix `[a c e; b d f; 0 0 1]`. -/
structure Matrix where
  a : ℚ
  b : ℚ
  c : ℚ
  d : ℚ
  e : ℚ
  f : ℚ
  deriving DecidableEq

/-- Modelled from the spec: `new Matrix()` is the identity matrix. -/
def Matrix.identity : Matrix := ⟨1, 0, 0, 1, 0, 0⟩

/-- Modelled from the spec: the matrix product `l · r` of `types/Matrix.js` (not part of the
sources at hand), for affine matrices `[a c e; b d f; 0 0 1]`. -/
def Matrix.multiply (l r : Matrix) : Matrix where
  a := l.a * r.a + l.c * r.b
  b := l.b * r.a + l.d * r.b
  c := l.a * r.c + l.c * r.d
  d := l.b * r.c + l.d * r.d
  e := l.e + l.a * r.e + l.c * r.f
  f := l.f + l.b * r.e + l.d * r.f

/-- Modelled from the spec: `this.lmultiply (matrix)` of `types/Matrix.js` (not part of the
sources at hand) is the given matrix left-multiplied onto this one, `matrix · this`. -/
def Matrix.lmultiply (self matrix : Matrix) : Matrix := Matrix.multiply matrix self

/-- The method `Array.prototype.splice (start, deleteCount, ...items)`: the array as it is
left, and the removed elements.  A negative `start` counts from the end, and a negative
`deleteCount` deletes nothing. -/
def splice {α : Type} (l : List α) (start deleteCount : Int) (items : List α) :
    List α × List α :=
  let len : Int := l.length
  let actualStart : Nat := if start < 0 then (len + start).toNat else Min.min start.toNat l.length
  let actualDelete : Nat := Min.min deleteCount.toNat (l.length - actualStart)
  (l.take actualStart ++ items ++ l.drop (actualStart + actualDelete),
    (l.drop actualStart).take actualDelete)

/-- The method `Array.prototype.indexOf` with a test for the element looked for: the first
index, or `-1`. -/
def indexOf {α : Type} (l : List α) (p : α → Bool) : Int :=
  match l.findIdx? p with
  | some i => (i : Int)
  | none => -1

/-- What a queue callback, called with the runner as `this`, works on: the runner's accumulated
`transforms` (through `addTransform` / `clearTransform`) and the world outside the runner
(element, morphers, controller), of type `σ`.  Callbacks do not re-enter the runner. -/
structure Scope (σ : Type) where
  transforms : Matrix
  env : σ

/-- A value passed to a runner method as an argument: a missing argument, a number, a string,
or an object (a morph target or a transform description), kept as its numeric fields. -/
inductive Value where
  | undefined
  | number (n : JSNum)
  | string (s : String)
  | object (fields : List (String × JSNum))
  deriving DecidableEq

/-- One entry of `_queue`, as pushed by `queue (initFn, runFn, retargetFn, isTransform)`.
The boolean a `runner` returns is `converged === true`.  `retarget`, when given, is called as
`retarget (target, extra)` and works on the state its closure captured, a part of the outside
world.  `key` stands for the identity of the entry object: `_history` refers to an entry by
it and `indexOf` looks for it. -/
structure QueueEntry (σ : Type) where
  initialiser : Scope σ → Scope σ
  runner : JSNum → Scope σ → Scope σ × Bool
  isTransform : Bool
  initialised : Bool
  finished : Bool
  retarget : Option (Value → Value → σ → σ) := none
  key : Nat := 0

/-- Modelled from the spec: the morpher of `Morphable.js`, which is not part of the sources at
hand, as far as the runner uses it, by its effect on the outside world: `to (target)`, the
initialiser `from (element[method] ())`, the write `element[method] (morpher.at (pos))` and
the reading `done ()`. -/
structure Morpher (σ : Type) where
  setTo : Value → σ → σ
  setFrom : σ → σ
  write : JSNum → σ → σ
  done : σ → Bool

/-- One value of `_history`: the morpher and the `caller`, the queue entry object, by its
key (`none` for `undefined`). -/
structure HistoryEntry (σ : Type) where
  morpher : Morpher σ
  caller : Option Nat

/-- Modelled from the spec: the ordering facility of `Timeline.js`, which is not part of the
sources at hand, as far as the runner reads it: the ids of the runners it keeps. -/
structure Timeline where
  _runnerIds : List Int
  deriving DecidableEq

/-- The state of a `Runner`.  `_duration` is a number or `false`; `false` behaves as `0` in
every arithmetic use and is stored as `fin 0`.  `_lastPosition` is `undefined` (`none`) until
the first step.  `done` may hold `undefined` in the source, which is stored as `false`.
`_history` is the object keyed by method name, as an association list.  `detached` holds the
entry objects that were taken out of `_queue` and may still be referred to by `_history`. -/
structure Runner (σ : Type) where
  id : Nat
  done : Bool
  _queue : List (QueueEntry σ)
  _duration : JSNum
  _isDeclarative : Bool
  enabled : Bool
  _time : JSNum
  _lastTime : JSNum
  _lastPosition : Option JSNum
  _reseted : Bool
  transforms : Matrix
  _reverse : Bool
  _swing : Bool
  _wait : JSNum
  _times : JSNum
  env : σ
  _history : List (String × HistoryEntry σ) := []
  _timeline : Option Timeline := none
  detached : List (QueueEntry σ) := []

/-- What a call makes observable, in order: the notifications fired, the queue callbacks
called (with the index of the entry in `_queue`), and the calls of the timeline's `play`,
`_continue` and `schedule`. -/
inductive Event where
  | start
  | step
  | finished
  | initialiser (i : Nat)
  | runner (i : Nat) (arg : JSNum)
  | play
  | _continue
  | schedule (timeline : Timeline) (id : Nat) (delay : Value) (when : Value)
  deriving DecidableEq

/-- The literal `1e-5` of the position getter. -/
def epsilon : JSNum := fin (1 / 100000)

namespace Runner

variable {σ : Type}

/-- The state the constructor leaves for a numeric `options` (a non-declarative runner) with
the given id and outside world. -/
def create (id : Nat) (duration : JSNum) (env : σ) : Runner σ where
  id := id
  done := false
  _queue := []
  _duration := duration
  _isDeclarative := false
  enabled := true
  _time := fin 0
  _lastTime := fin 0
  _lastPosition := none
  _reseted := true
  transforms := Matrix.identity
  _reverse := false
  _swing := false
  _wait := fin 0
  _times := fin 1
  env := env
  _history := []
  _timeline := none
  detached := []

/-- The method `duration ()`. -/
def duration (r : Runner σ) : JSNum :=
  sub (mul r._times (add r._wait r._duration)) r._wait

/-- The inner function `f` of the position getter, with the captured variables `s`, `r`, `w`,
`d` as parameters.  `backwards` is a boolean for every number `swinging`, as `r` is one. -/
def positionF (s r : Bool) (w d x : JSNum) : JSNum :=
  let swinging := mul (ofBool s) (floor (div (mod x (mul (fin 2) (add w d))) (add w d)))
  let backwards := (truthy swinging && !r) || (!truthy swinging && r)
  let uncliped := add (div (mul (powNegOne backwards) (mod x (add w d))) d) (ofBool backwards)
  let clipped := max (min uncliped (fin 1)) (fin 0)
  clipped

/-- The getter branch of `position (p)` (`p == null`).  The subtraction `endTime - 0.00001` is
rounded as the double subtraction is: for a large end time the result is the end time. -/
def position (r : Runner σ) : JSNum :=
  let x := r._time
  let d := r._duration
  let w := r._wait
  let t := r._times
  let s := r._swing
  let rv := r._reverse
  let endTime := sub (mul t (add w d)) w
  if le x (fin 0) then round (positionF s rv w d epsilon)
  else if lt x endTime then positionF s rv w d x
  else round (positionF s rv w d (subDouble endTime epsilon))

/-- Reading of the claims: the direction of cycle `k` is backwards exactly when
(swing is set and `k` is odd) XOR reverse is set. -/
def backwardsAt (s r : Bool) (k : ℤ) : Bool := xor (s && decide (k % 2 = 1)) r

/-- The loop of `_initialise (running)` from index `i` on: the entries as the loop leaves them,
the scope after the initialisers called, and the calls made. -/
def initialiseLoop (declarative : Bool) :
    Bool → Nat → List (QueueEntry σ) → Scope σ → List (QueueEntry σ) × Scope σ × List Event
  | _, _, [], sc => ([], sc, [])
  | running, i, current :: rest, sc =>
    let needsIt := declarative || (!current.initialised && running)
    let running := !current.finished
    if needsIt && running then
      let out := initialiseLoop declarative running (i + 1) rest (current.initialiser sc)
      ({ current with initialised := true } :: out.1, out.2.1, Event.initialiser i :: out.2.2)
    else
      let out := initialiseLoop declarative running (i + 1) rest sc
      (current :: out.1, out.2.1, out.2.2)

/-- The method `_initialise (running)`. -/
def _initialise (r : Runner σ) (running : Bool) : Runner σ × List Event :=
  if !running && !r._isDeclarative then (r, [])
  else
    let out := initialiseLoop r._isDeclarative running 0 r._queue ⟨r.transforms, r.env⟩
    ({ r with _queue := out.1, transforms := out.2.1.transforms, env := out.2.1.env }, out.2.2)

/-- The loop of `_run (positionOrDt)` from index `i` on, started with the value of
`allfinished` so far: the entries as the loop leaves them, the scope after the calls, the final
`allfinished`, and the calls made. -/
def runLoop (positionOrDt : JSNum) :
    Bool → Nat → List (QueueEntry σ) → Scope σ →
      List (QueueEntry σ) × Scope σ × Bool × List Event
  | allfinished, _, [], sc => ([], sc, allfinished, [])
  | allfinished, i, current :: rest, sc =>
    let res := current.runner positionOrDt sc
    let converged := res.2
    let current := { current with finished := current.finished || converged }
    let allfinished := allfinished && current.finished
    let out := runLoop positionOrDt allfinished (i + 1) rest res.1
    (current :: out.1, out.2.1, out.2.2.1, Event.runner i positionOrDt :: out.2.2.2)

/-- The method `_run (positionOrDt)`, with its return value. -/
def _run (r : Runner σ) (positionOrDt : JSNum) : Runner σ × Bool × List Event :=
  let out := runLoop positionOrDt true 0 r._queue ⟨r.transforms, r.env⟩
  ({ r with _queue := out.1, transforms := out.2.1.transforms, env := out.2.1.env },
    out.2.2.1, out.2.2.2)

/-- The method `step (dt)`; `none` is a missing (`null` or `undefined`) argument.  The second
component lists the notifications fired and the queue callbacks called, in order. -/
def step (r : Runner σ) (dt : Option JSNum) : Runner σ × List Event :=
  if !r.enabled then (r, [])
  else
    let dt := dt.getD (fin 16)
    let r := { r with _time := add r._time dt }
    let position := r.position
    let running := strictNe r._lastPosition position && ge r._time (fin 0)
    let r := { r with _lastPosition := some position }
    let duration := r.duration
    let justStarted := le r._lastTime (fin 0) && gt r._time (fin 0)
    let justFinished := lt r._lastTime duration && ge r._time duration
    let r := { r with _lastTime := r._time }
    let fired1 := if justStarted then [Event.start] else []
    let declarative := r._isDeclarative
    let r := { r with done := !declarative && !justFinished && ge r._time duration }
    let r := { r with _reseted := false }
    let worked : Runner σ × Bool × List Event :=
      if running || declarative then
        let ini := r._initialise running
        let r := { ini.1 with transforms := Matrix.identity }
        let ran := r._run (if declarative then dt else position)
        (ran.1, ran.2.1, ini.2 ++ ran.2.2 ++ [Event.step])
      else (r, false, [])
    let r := worked.1
    let converged := worked.2.1
    let r := { r with done := r.done || (converged && declarative) }
    let fired3 := if justFinished then [Event.finished] else []
    (r, fired1 ++ worked.2.2 ++ fired3)

/-- The value of `_time` a step of an enabled runner stores: `this._time += dt`. -/
def stepTime (r : Runner σ) (dt : Option JSNum) : JSNum :=
  add r._time (dt.getD (fin 16))

/-- The local variable `position` of `step`: the getter read at the new time. -/
def stepPosition (r : Runner σ) (dt : Option JSNum) : JSNum :=
  ({ r with _time := stepTime r dt } : Runner σ).position

/-- The local variable `running` of `step`. -/
def stepRunning (r : Runner σ) (dt : Option JSNum) : Bool :=
  strictNe r._lastPosition (stepPosition r dt) && ge (stepTime r dt) (fin 0)

/-- The local variable `justStarted` of `step`. -/
def justStarted (r : Runner σ) (dt : Option JSNum) : Bool :=
  le r._lastTime (fin 0) && gt (stepTime r dt) (fin 0)

/-- The local variable `justFinished` of `step`. -/
def justFinished (r : Runner σ) (dt : Option JSNum) : Bool :=
  lt r._lastTime r.duration && ge (stepTime r dt) r.duration

/-- The setter branch of `time (time)`. -/
def setTime (r : Runner σ) (time : JSNum) : Runner σ × List Event :=
  let dt := sub time r._time
  r.step (some dt)

/-- The getter branch of `progress (p)`. -/
def progress (r : Runner σ) : JSNum :=
  min (fin 1) (div r._time r.duration)

/-- The setter branch of `progress (p)`. -/
def setProgress (r : Runner σ) (p : JSNum) : Runner σ × List Event :=
  r.setTime (mul p r.duration)

/-- The method `finish ()`. -/
def finish (r : Runner σ) : Runner σ × List Event :=
  r.step (some pinf)

/-- The method `reset ()`. -/
def reset (r : Runner σ) : Runner σ × List Event :=
  if r._reseted then (r, [])
  else
    let out := r.setTime (fin 0)
    ({ out.1 with _reseted := true }, out.2)

/-- The method `reverse (reverse)`; `none` is a missing (`null` or `undefined`) argument. -/
def reverse (r : Runner σ) (reverse : Option Bool) : Runner σ :=
  { r with _reverse := reverse.getD (!r._reverse) }

/-- The getter branch of `loops (p)`. -/
def loops (r : Runner σ) : JSNum :=
  let loopDuration := add r._duration r._wait
  let loopsDone := floor (div r._time loopDuration)
  let relativeTime := sub r._time (mul loopsDone loopDuration)
  let position := div relativeTime r._duration
  min (add loopsDone position) r._times

/-- The setter branch of `loops (p)`; `part` is the local variable `partial`. -/
def setLoops (r : Runner σ) (p : JSNum) : Runner σ × List Event :=
  let loopDuration := add r._duration r._wait
  let whole := floor p
  let part := mod p (fin 1)
  let time := add (mul loopDuration whole) (mul r._duration part)
  r.setTime time

/-- The setter branch of `position (p)`. -/
def setPosition (r : Runner σ) (p : JSNum) : Runner σ × List Event :=
  let s := r._swing
  let rv := r._reverse
  let loopsDone := floor r.loops
  let swingForward := s && strictEq (mod loopsDone (fin 2)) (fin 0)
  let forwards := (swingForward && !rv) || (rv && swingForward)
  let position := add loopsDone (if forwards then p else sub (fin 1) p)
  r.setLoops position

/-- The method `schedule (timeline, delay, when)`.  The first argument is a `Timeline`
(`Sum.inl`) or any other value (`Sum.inr`).  An error carries the message thrown and the
state the runner is in at the throw.  The call `timeline.schedule (this, delay, when)` is
recorded as an event. -/
def schedule (r : Runner σ) (timeline : Timeline ⊕ Value) (delay when : Value) :
    Except (String × Runner σ) (Runner σ × List Event) :=
  let args : Option Timeline × Value × Value :=
    match timeline with
    | Sum.inl t => (some t, delay, when)
    | Sum.inr v => (r._timeline, v, delay)
  match args.1 with
  | none => Except.error ("Runner cannot be scheduled without timeline", r)
  | some t => Except.ok (r, [Event.schedule t r.id args.2.1 args.2.2])

/-- The entry object a key refers to: an entry of the queue, or one taken out of it. -/
def entryOf (r : Runner σ) (key : Nat) : Option (QueueEntry σ) :=
  (r._queue ++ r.detached).find? (fun e => e.key == key)

/-- A key no entry object of the runner has. -/
def freshKey (r : Runner σ) : Nat :=
  ((r._queue ++ r.detached).map (fun e => e.key)).foldr Max.max 0 + 1

/-- The assignment `entry.finished = value` on the entry object with the given key. -/
def setFinished (key : Nat) (value : Bool) (l : List (QueueEntry σ)) : List (QueueEntry σ) :=
  l.map (fun e => if e.key == key then { e with finished := value } else e)

/-- The calls `timeline && timeline.play ()` and `timeline && timeline._continue ()`. -/
def callTimeline (r : Runner σ) (call : Event) : List Event :=
  match r._timeline with
  | some _ => [call]
  | none => []

/-- The method `queue (initFn, runFn, retargetFn, isTransform)`; a missing function is
replaced by `noop`, which does nothing and returns `undefined`. -/
def queue (r : Runner σ) (initFn : Option (Scope σ → Scope σ))
    (runFn : Option (JSNum → Scope σ → Scope σ × Bool))
    (retargetFn : Option (Value → Value → σ → σ)) (isTransform : Bool) :
    Runner σ × List Event :=
  let entry : QueueEntry σ :=
    { initialiser := initFn.getD (fun sc => sc)
      runner := runFn.getD (fun _ sc => (sc, false))
      retarget := retargetFn
      isTransform := isTransform
      initialised := false
      finished := false
      key := r.freshKey }
  let r := { r with _queue := r._queue ++ [entry] }
  (r, r.callTimeline Event._continue)

/-- The assignment `this._history[method] = entry`. -/
def setHistory (h : List (String × HistoryEntry σ)) (method : String) (entry : HistoryEntry σ) :
    List (String × HistoryEntry σ) :=
  (method, entry) :: h.filter (fun kv => kv.1 != method)

/-- The method `_rememberMorpher (method, morpher)`. -/
def _rememberMorpher (r : Runner σ) (method : String) (morpher : Morpher σ) :
    Runner σ × List Event :=
  let caller := r._queue.getLast?.map (fun e => e.key)
  let r := { r with _history := setHistory r._history method ⟨morpher, caller⟩ }
  (r, if r._isDeclarative then r.callTimeline Event.play else [])

/-- The method `_tryRetarget (method, target, extra)`, with its return value.  Reading
`caller.initialised` of an `undefined` caller throws a `TypeError`. -/
def _tryRetarget (r : Runner σ) (method : String) (target extra : Value) :
    Except (String × Runner σ) (Runner σ × Bool × List Event) :=
  match r._history.lookup method with
  | none => Except.ok (r, false, [])
  | some h =>
    match h.caller.bind r.entryOf with
    | none => Except.error ("TypeError", r)
    | some caller =>
      if !caller.initialised then
        let index := indexOf r._queue (fun e => e.key == caller.key)
        let out := splice r._queue index 1 []
        Except.ok ({ r with _queue := out.1, detached := r.detached ++ out.2 }, false, [])
      else
        let env :=
          match caller.retarget with
          | some retarget => retarget target extra r.env
          | none => h.morpher.setTo target r.env
        let r := { r with
          env := env
          _queue := setFinished caller.key false r._queue
          detached := setFinished caller.key false r.detached }
        Except.ok (r, true, r.callTimeline Event.play)

/-- The method `_queueObject (method, to)`.  `morpher` is the object `new Morphable
(this._stepper)` makes, whose constructor is not part of the sources at hand. -/
def _queueObject (r : Runner σ) (method : String) (to_ : Value) (morpher : Morpher σ) :
    Except (String × Runner σ) (Runner σ × List Event) :=
  match r._tryRetarget method to_ Value.undefined with
  | Except.error e => Except.error e
  | Except.ok (r, true, fired) => Except.ok (r, fired)
  | Except.ok (r, false, fired) =>
    let r := { r with env := morpher.setTo to_ r.env }
    let queued := r.queue
      (some (fun sc => { sc with env := morpher.setFrom sc.env }))
      (some (fun pos sc => ({ sc with env := morpher.write pos sc.env },
        morpher.done (morpher.write pos sc.env))))
      none false
    let remembered := queued.1._rememberMorpher method morpher
    Except.ok (remembered.1, fired ++ queued.2 ++ remembered.2)

/-- The method `clearTransformsFromQueue ()` of `Runner`. -/
def clearTransformsFromQueue (r : Runner σ) : Runner σ :=
  let persisted :=
    match r._timeline with
    | some t => t._runnerIds.contains (r.id : Int)
    | none => false
  if !r.done || !persisted then
    { r with
      _queue := r._queue.filter (fun item => !item.isTransform)
      detached := r.detached ++ r._queue.filter (fun item => item.isTransform) }
  else r

/-- A queue entry whose step function always reports convergence. -/
def alwaysConverged : QueueEntry Unit where
  initialiser := fun sc => sc
  runner := fun _ sc => (sc, true)
  isTransform := false
  initialised := false
  finished := false

/-- A queue entry whose step function never reports convergence. -/
def neverConverged : QueueEntry Unit where
  initialiser := fun sc => sc
  runner := fun _ sc => (sc, false)
  isTransform := false
  initialised := false
  finished := false

/-- A fresh runner of duration 1000 with two queued entries that never finish. -/
def twoQueued : Runner Unit :=
  { create 0 (fin 1000) () with _queue := [neverConverged, { neverConverged with key := 1 }] }

/-- A morpher that leaves the outside world alone. -/
def idleMorpher : Morpher Unit where
  setTo := fun _ w => w
  setFrom := fun w => w
  write := fun _ w => w
  done := fun _ => true

/-- A finished runner on a timeline, on which `x` was queued through `_queueObject`: the
entry is initialised and finished and `done` is true. -/
def finishedWithX : Runner Unit :=
  { create 0 (fin 1000) () with
    done := true
    _queue := [{ alwaysConverged with initialised := true, finished := true, key := 1 }]
    _time := pinf
    _lastTime := pinf
    _lastPosition := some (fin 1)
    _reseted := false
    _history := [("x", ⟨idleMorpher, some 1⟩)]
    _timeline := some ⟨[0]⟩ }

/-- A declarative runner with a queued `x` (key 1) and a queued transform (key 2), the one
`_history` remembers under `transform`, neither of them initialised. -/
def withQueuedTransform : Runner Unit :=
  { create 0 (fin 0) () with
    _isDeclarative := true
    _queue := [{ neverConverged with key := 1 },
      { neverConverged with key := 2, isTransform := true }]
    _history := [("transform", ⟨idleMorpher, some 2⟩)] }

/-- A runner that loops without end (`loop ()` stores `Infinity` in `_times`) after
`finish ()`, which steps the time to `Infinity`. -/
def endlessFinished : Runner Unit :=
  { create 0 (fin 1000) () with _times := pinf, _time := pinf, _lastTime := pinf }

/-- An endless runner of base duration 1000 with one queued entry, as `loop ()` and `queue`
leave a fresh runner. -/
def endlessQueued : Runner Unit :=
  { create 0 (fin 1000) () with _times := pinf, _queue := [neverConverged] }

/-- The state `endlessQueued` is in after `finish ()` (with `done` false) and after any
further `step (0)` (with `done` true): time `Infinity`, last position `NaN`, the entry
initialised and not finished. -/
def endlessStuck (done : Bool) : Runner Unit :=
  { endlessQueued with
    done := done
    _queue := [{ neverConverged with initialised := true }]
    _time := pinf
    _lastTime := pinf
    _lastPosition := some nan
    _reseted := false }

end Runner

/-- The class `FakeRunner`: `new FakeRunner ()` has the identity matrix, id `-1` and `done`
true. -/
structure FakeRunner where
  transforms : Matrix := Matrix.identity
  id : Int := -1
  done : Bool := true
  deriving DecidableEq

/-- An element of a `RunnerArray`: a `Runner` or a `FakeRunner`. -/
inductive AnyRunner (σ : Type) where
  | runner (r : Runner σ)
  | fake (f : FakeRunner)

namespace AnyRunner

variable {σ : Type}

/-- The property `transforms`. -/
def transforms : AnyRunner σ → Matrix
  | runner r => r.transforms
  | fake f => f.transforms

/-- The property `id`. -/
def id : AnyRunner σ → Int
  | runner r => (r.id : Int)
  | fake f => f.id

/-- The property `done`. -/
def done : AnyRunner σ → Bool
  | runner r => r.done
  | fake f => f.done

/-- The test `runner._timeline && runner._timeline._runnerIds.includes (runner.id)`: the
runner is persisted on its timeline.  A `FakeRunner` has no `_timeline`. -/
def persisted : AnyRunner σ → Bool
  | runner r =>
    match r._timeline with
    | some t => t._runnerIds.contains (r.id : Int)
    | none => false
  | fake _ => false

/-- The method `mergeWith (runner)`, which `extend` gives to both classes. -/
def mergeWith (self runner : AnyRunner σ) : AnyRunner σ :=
  fake { transforms := runner.transforms.lmultiply self.transforms, id := runner.id, done := true }

/-- The method `clearTransformsFromQueue ()`, which does nothing on a `FakeRunner`. -/
def clearTransformsFromQueue : AnyRunner σ → AnyRunner σ
  | runner r => runner r.clearTransformsFromQueue
  | fake f => fake f

end AnyRunner

/-- The class `RunnerArray`: the parallel arrays `runners` and `ids`. -/
structure RunnerArray (σ : Type) where
  runners : List (AnyRunner σ)
  ids : List Int

namespace RunnerArray

variable {σ : Type}

/-- The method `remove (id)`. -/
def remove (arr : RunnerArray σ) (id : Int) : RunnerArray σ :=
  let index := indexOf arr.ids (fun x => x == id + 1)
  { ids := (splice arr.ids index 1 []).1
    runners := (splice arr.runners index 1 []).1 }

/-- The method `edit (id, newRunner)`. -/
def edit (arr : RunnerArray σ) (id : Int) (newRunner : AnyRunner σ) : RunnerArray σ :=
  let index := indexOf arr.ids (fun x => x == id + 1)
  { ids := (splice arr.ids index 1 [id + 1]).1
    runners := (splice arr.runners index 1 [newRunner]).1 }

/-- The method `length ()`. -/
def length (arr : RunnerArray σ) : Nat := arr.ids.length

/-- The callback of the `forEach` in `merge`, called for index `i`, with the variable
`lastRunner` as state.  `forEach` skips an index the array no longer has. -/
def mergeVisit (state : RunnerArray σ × Option (AnyRunner σ)) (i : Nat) :
    RunnerArray σ × Option (AnyRunner σ) :=
  match state.1.runners[i]? with
  | none => state
  | some runner =>
    match state.2 with
    | none => (state.1, some runner)
    | some lastRunner =>
      let condition := runner.done && lastRunner.done && !runner.persisted
        && !lastRunner.persisted
      if condition then
        (((state.1.remove runner.id).edit lastRunner.id (runner.mergeWith lastRunner)),
          some runner)
      else (state.1, some runner)

/-- The method `merge ()`: `forEach` visits the indices below the length the array had at the
start, in order, on the array as the callback has left it. -/
def merge (arr : RunnerArray σ) : RunnerArray σ :=
  ((List.range arr.runners.length).foldl mergeVisit (arr, none)).1

/-- The method `clearBefore (id)`: the array as it is left, and the removed runners after
their `clearTransformsFromQueue ()`. -/
def clearBefore (arr : RunnerArray σ) (id : Int) : RunnerArray σ × List (AnyRunner σ) :=
  let index := indexOf arr.ids (fun x => x == id + 1)
  let deleteCnt := if index = 0 then 1 else index
  let removed := (splice arr.runners 0 deleteCnt [AnyRunner.fake {}]).2
  ({ ids := (splice arr.ids 0 deleteCnt [0]).1
     runners := (splice arr.runners 0 deleteCnt [AnyRunner.fake {}]).1 },
    removed.map AnyRunner.clearTransformsFromQueue)

end RunnerArray

/-- A runner with id 1 that is done and persisted on its timeline, with one transform entry
and one other entry in its queue. -/
def persistedDone : Runner Unit :=
  { Runner.create 1 (fin 1000) () with
    done := true
    _timeline := some ⟨[1]⟩
    _queue := [{ Runner.neverConverged with isTransform := true, key := 1 },
      { Runner.neverConverged with key := 2 }] }

/-- The collection of an element: the placeholder, the runner `persistedDone` and a fresh
runner with id 2. -/
def threeRegistered : RunnerArray Unit :=
  { runners := [AnyRunner.fake {}, AnyRunner.runner persistedDone,
      AnyRunner.runner (Runner.create 2 (fin 1000) ())]
    ids := [0, 2, 3] }

/-- A JavaScript value as `sanitise` and the constructor tell them apart: `undefined`, `null`,
a boolean, a number, a string, a function, an instance of `Stepper` (which is a `Controller`
or not), or any other object with its properties. -/
inductive JSVal where
  | undefined
  | null
  | bool (b : Bool)
  | number (n : JSNum)
  | string (s : String)
  | function
  | stepper (isController : Bool)
  | object (fields : List (String × JSVal))

namespace JSVal

/-- ToBoolean: `undefined`, `null`, `false`, `0`, `NaN` and the empty string are falsy. -/
def truthy : JSVal → Bool
  | undefined => false
  | null => false
  | bool b => b
  | number n => n.truthy
  | string s => s != ""
  | _ => true

/-- The JavaScript `a || b`. -/
def or (a b : JSVal) : JSVal := if a.truthy then a else b

/-- The property access `value.name`, `undefined` for a property the value does not have. -/
def get (value : JSVal) (name : String) : JSVal :=
  match value with
  | object fields => (fields.lookup name).getD undefined
  | _ => undefined

/-- The test `typeof value === 'object'`. -/
def typeofObject : JSVal → Bool
  | null => true
  | stepper _ => true
  | object _ => true
  | _ => false

/-- The test `value instanceof Stepper`. -/
def instanceofStepper : JSVal → Bool
  | stepper _ => true
  | _ => false

end JSVal

/-- Modelled from the spec: the object `timeline` of `modules/core/defaults.js`, which is not
part of the sources at hand: the default duration and delay, two numbers. -/
structure Defaults where
  duration : JSNum
  delay : JSNum

/-- The object `Runner.sanitise` returns. -/
structure Sanitised where
  duration : JSVal
  delay : JSVal
  swing : JSVal
  times : JSVal
  wait : JSVal
  when : JSVal

namespace Runner

variable {σ : Type}

/-- The static method `sanitise (duration, delay, when)`; `timeline` is the defaults object. -/
def sanitise (timeline : Defaults) (duration delay when : JSVal) : Sanitised :=
  let times := JSVal.number (fin 1)
  let swing := JSVal.bool false
  let wait := JSVal.number (fin 0)
  let duration := duration.or (JSVal.number timeline.duration)
  let delay := delay.or (JSVal.number timeline.delay)
  let when := when.or (JSVal.string "last")
  if duration.typeofObject && !duration.instanceofStepper then
    { delay := (duration.get "delay").or delay
      when := (duration.get "when").or when
      swing := (duration.get "swing").or swing
      times := (duration.get "times").or times
      wait := (duration.get "wait").or wait
      duration := (duration.get "duration").or (JSVal.number timeline.duration) }
  else
    { duration := duration, delay := delay, swing := swing, times := times, wait := wait,
      when := when }

/-- The constructor, with the static counter `Runner.id` made explicit: the runner built and
the counter afterwards.  `timeline` is the defaults object. -/
def construct (counter : Nat) (timeline : Defaults) (options : JSVal) (env : σ) :
    Runner σ × Nat :=
  let id := counter
  let options :=
    match options with
    | JSVal.undefined => JSVal.number timeline.duration
    | JSVal.null => JSVal.number timeline.duration
    | o => o
  let options :=
    match options with
    | JSVal.function => JSVal.stepper true
    | o => o
  let duration :=
    match options with
    | JSVal.number n => n
    | _ => fin 0
  let declarative :=
    match options with
    | JSVal.stepper true => true
    | _ => false
  ({ create id duration env with _isDeclarative := declarative }, counter + 1)

/-- The value of the static counter `Runner.id` before any construction. -/
def initialId : Nat := 0

/-- Successive constructions, each with its `options`: the runners built, in order, and the
counter afterwards. -/
def constructAll (timeline : Defaults) (env : σ) : Nat → List JSVal → List (Runner σ) × Nat
  | counter, [] => ([], counter)
  | counter, options :: rest =>
    let built := construct counter timeline options env
    let others := constructAll timeline env built.2 rest
    (built.1 :: others.1, others.2)

end Runner

namespace RunnerArray

variable {σ : Type}

/-- The net transform `mergeTransforms` composes from the collection:
`runners.map (getRunnerTransform).reduce (lmultiply, new Matrix ())`. -/
def netTransform (arr : RunnerArray σ) : Matrix :=
  (arr.runners.map AnyRunner.transforms).foldl (fun last curr => last.lmultiply curr)
    Matrix.identity

end RunnerArray

/-- The translation by `x` along the first axis. -/
def translateX (x : ℚ) : Matrix := ⟨1, 0, 0, 1, x, 0⟩

/-- A runner on no timeline with the given id, `done` flag and translation as transforms. -/
def translating (id : Nat) (done : Bool) (x : ℚ) : AnyRunner Unit :=
  AnyRunner.runner { Runner.create id (fin 1000) () with done := done, transforms := translateX x }

/-- The collection of an element: the placeholder, then the runners 1 (done), 2 (not done)
and 3 (done), which translate by 1, 10 and 100. -/
def fourRegistered : RunnerArray Unit :=
  { runners := [AnyRunner.fake {}, translating 1 true 1, translating 2 false 10,
      translating 3 true 100]
    ids := [0, 2, 3, 4] }

namespace Runner

variable {σ : Type}

/-- Every entry object of the runner: those in the queue and those taken out of it. -/
def entries (r : Runner σ) : List (QueueEntry σ) := r._queue ++ r.detached

/-- The key and the `initialised` flag of every entry of a list. -/
def marks (l : List (QueueEntry σ)) : List (Nat × Bool) :=
  l.map (fun e => (e.key, e.initialised))

/-- The entry object with the given key has its `initialised` flag set. -/
def isInitialised (r : Runner σ) (key : Nat) : Prop :=
  ∃ e ∈ r.entries, e.key = key ∧ e.initialised = true

/-- The keys of the entries whose initialiser a list of events records as called, an index
being into the queue `q` the calls were made on. -/
def calledKeys (q : List (QueueEntry σ)) (events : List Event) : List Nat :=
  events.filterMap (fun ev =>
    match ev with
    | Event.initialiser i => (q[i]?).map (fun e => e.key)
    | _ => none)

/-- The keys of the entries the loop of `_initialise` initialises on a runner that is not
declarative, in order (`running` is the loop variable on arrival). -/
def initCalled : Bool → List (QueueEntry σ) → List Nat
  | _, [] => []
  | running, current :: rest =>
    if (!current.initialised && running) && !current.finished then
      current.key :: initCalled (!current.finished) rest
    else initCalled (!current.finished) rest

/-- A call on a runner: `step (dt)`, the setters `time (t)`, `progress (p)` and `loops (p)`,
`reset ()`, `finish ()`, and a retarget call, that is a property setter going through
`_queueObject (method, target)`. -/
inductive Call (σ : Type) where
  | step (dt : Option JSNum)
  | time (t : JSNum)
  | progress (p : JSNum)
  | loops (p : JSNum)
  | reset
  | finish
  | retarget (method : String) (target : Value) (morpher : Morpher σ)

/-- The runner and the events after one call.  A retarget call that throws leaves the runner
in the state of the throw. -/
def perform (r : Runner σ) : Call σ → Runner σ × List Event
  | Call.step dt => r.step dt
  | Call.time t => r.setTime t
  | Call.progress p => r.setProgress p
  | Call.loops p => r.setLoops p
  | Call.reset => r.reset
  | Call.finish => r.finish
  | Call.retarget method target morpher =>
    match r._queueObject method target morpher with
    | Except.ok out => out
    | Except.error e => (e.2, [])

/-- The runner after a sequence of calls, and the keys of the entries whose initialiser was
called, in order, over the whole sequence. -/
def performAll : Runner σ → List (Call σ) → Runner σ × List Nat
  | r, [] => (r, [])
  | r, call :: rest =>
    ((performAll (r.perform call).1 rest).1,
      calledKeys r._queue (r.perform call).2 ++ (performAll (r.perform call).1 rest).2)

/-- What a call that only steps the runner does to the entries: the queue keeps its keys, the
entries taken out and the mode are left alone, the entries initialised afterwards are those
initialised before and those whose initialiser was called, and the calls were made once each
on entries that were not initialised. -/
def StepsQueue (r : Runner σ) (out : Runner σ × List Event) : Prop :=
  out.1._queue.map (fun e => e.key) = r._queue.map (fun e => e.key)
  ∧ out.1.detached = r.detached
  ∧ out.1._isDeclarative = r._isDeclarative
  ∧ (∀ x, (x, true) ∈ marks out.1._queue ↔
      (x, true) ∈ marks r._queue ∨ x ∈ calledKeys r._queue out.2)
  ∧ (calledKeys r._queue out.2).Sublist (r._queue.map (fun e => e.key))
  ∧ (∀ x ∈ calledKeys r._queue out.2, ∃ e ∈ r._queue, e.key = x ∧ e.initialised = false)

end Runner

/-! ## Arithmetic of finite numbers -/

namespace JSNum

@[simp] theorem add_fin (a b : ℚ) : add (fin a) (fin b) = fin (a + b) := rfl

@[simp] theorem sub_fin (a b : ℚ) : sub (fin a) (fin b) = fin (a - b) := by
  simp [sub, neg, sub_eq_add_neg]

@[simp] theorem mul_fin (a b : ℚ) : mul (fin a) (fin b) = fin (a * b) := rfl

theorem div_fin (a b : ℚ) (hb : b ≠ 0) : div (fin a) (fin b) = fin (a / b) := by
  simp [div, hb]

@[simp] theorem floor_fin (a : ℚ) : floor (fin a) = fin ((⌊a⌋ : ℤ) : ℚ) := rfl

@[simp] theorem round_fin (a : ℚ) : round (fin a) = fin ((⌊a + 1 / 2⌋ : ℤ) : ℚ) := rfl

@[simp] theorem lt_fin (a b : ℚ) : lt (fin a) (fin b) = decide (a < b) := rfl

@[simp] theorem le_fin (a b : ℚ) : le (fin a) (fin b) = decide (a ≤ b) := rfl

@[simp] theorem truthy_fin (a : ℚ) : truthy (fin a) = decide (a ≠ 0) := rfl

theorem min_fin (a b : ℚ) : min (fin a) (fin b) = fin (Min.min a b) := by
  by_cases h : b < a
  · simp [min, h, min_eq_right h.le]
  · simp [min, h, min_eq_left (not_lt.mp h)]

theorem max_fin (a b : ℚ) : max (fin a) (fin b) = fin (Max.max a b) := by
  by_cases h : a < b
  · simp [max, h, max_eq_right h.le]
  · simp [max, h, max_eq_left (not_lt.mp h)]

theorem trunc_of_nonneg {q : ℚ} (h : 0 ≤ q) : trunc q = ⌊q⌋ := if_pos h

/-- For a non-negative dividend and a positive divisor `%` is the floored remainder. -/
theorem mod_fin_of_nonneg (a b : ℚ) (ha : 0 ≤ a) (hb : 0 < b) :
    mod (fin a) (fin b) = fin (a - b * ((⌊a / b⌋ : ℤ) : ℚ)) := by
  simp [mod, hb.ne', trunc_of_nonneg (div_nonneg ha hb.le)]

/-- The floored remainder lies in `[0, b)`. -/
theorem floorRem_bounds (a b : ℚ) (hb : 0 < b) :
    0 ≤ a - b * ((⌊a / b⌋ : ℤ) : ℚ) ∧ a - b * ((⌊a / b⌋ : ℤ) : ℚ) < b := by
  have h1 : ((⌊a / b⌋ : ℤ) : ℚ) ≤ a / b := Int.floor_le _
  have h2 : a / b < ((⌊a / b⌋ : ℤ) : ℚ) + 1 := Int.lt_floor_add_one _
  rw [le_div_iff₀ hb] at h1
  rw [div_lt_iff₀ hb] at h2
  constructor <;> nlinarith

/-- Which half of a swing pair a time is in: the parity of the cycle index. -/
theorem swingIndex (x c : ℚ) (hc : 0 < c) :
    ⌊(x - 2 * c * ((⌊x / (2 * c)⌋ : ℤ) : ℚ)) / c⌋ = ⌊x / c⌋ % 2 := by
  have e : (x - 2 * c * ((⌊x / (2 * c)⌋ : ℤ) : ℚ)) / c
      = x / c - ((2 * ⌊x / (2 * c)⌋ : ℤ) : ℚ) := by
    field_simp
    ring
  rw [e, Int.floor_sub_int]
  have h2c : (0 : ℚ) < 2 * c := by linarith
  have h1 : ((⌊x / (2 * c)⌋ : ℤ) : ℚ) ≤ x / (2 * c) := Int.floor_le _
  have h2 : x / (2 * c) < ((⌊x / (2 * c)⌋ : ℤ) : ℚ) + 1 := Int.lt_floor_add_one _
  generalize ⌊x / (2 * c)⌋ = m at h1 h2 ⊢
  rw [le_div_iff₀ h2c] at h1
  rw [div_lt_iff₀ h2c] at h2
  have h3 : 2 * m ≤ ⌊x / c⌋ := by
    apply Int.le_floor.mpr
    rw [le_div_iff₀ hc]
    push_cast
    linarith
  have h4 : ⌊x / c⌋ < 2 * m + 2 := by
    apply Int.floor_lt.mpr
    rw [div_lt_iff₀ hc]
    push_cast
    linarith
  omega

/-- The nearest integer is within a half. -/
theorem nearestEven_near (m : ℚ) : |(nearestEven m : ℚ) - m| ≤ 1 / 2 := by
  have h1 : ((⌊m⌋ : ℤ) : ℚ) ≤ m := Int.floor_le _
  have h2 : m < ((⌊m⌋ : ℤ) : ℚ) + 1 := Int.lt_floor_add_one _
  unfold nearestEven
  split
  · rw [abs_le]
    constructor <;> linarith
  · rename_i h
    split
    · push_cast
      rw [abs_le]
      constructor <;> linarith
    · rename_i h2
      have : m - ⌊m⌋ = 1 / 2 := le_antisymm (not_lt.mp h2) (not_lt.mp h)
      split
      · rw [abs_le]
        constructor <;> linarith
      · push_cast
        rw [abs_le]
        constructor <;> linarith

/-- An integer less than a half away is the nearest. -/
theorem nearestEven_of_near (m : ℚ) (n : ℤ) (h : |m - n| < 1 / 2) : nearestEven m = n := by
  rw [abs_lt] at h
  obtain ⟨h1, h2⟩ := h
  unfold nearestEven
  by_cases hc : (n : ℚ) ≤ m
  · have hf : ⌊m⌋ = n := by
      rw [Int.floor_eq_iff]
      constructor <;> linarith
    rw [hf, if_pos (by linarith)]
  · have hf : ⌊m⌋ = n - 1 := by
      rw [Int.floor_eq_iff]
      push_cast
      constructor <;> linarith
    rw [hf]
    push_cast
    rw [if_neg (by linarith), if_pos (by linarith)]
    ring

/-- The binary exponent of a positive rational. -/
theorem log_of_binade (q : ℚ) (e : ℤ) (h1 : 2 ^ e ≤ q) (h2 : q < 2 ^ (e + 1)) :
    Int.log 2 q = e := by
  have hq : 0 < q := lt_of_lt_of_le (by positivity) h1
  have a1 : e ≤ Int.log 2 q :=
    (Int.zpow_le_iff_le_log (by norm_num) hq).mp (by exact_mod_cast h1)
  have a2 : Int.log 2 q < e + 1 :=
    (Int.lt_zpow_iff_log_lt (by norm_num) hq).mp (by exact_mod_cast h2)
  omega

/-- The rounding of a positive rational with binary exponent `e` whose significand is less
than a half away from the integer `n`. -/
theorem roundDouble_of_near (q : ℚ) (e n : ℤ) (h1 : 2 ^ e ≤ q) (h2 : q < 2 ^ (e + 1))
    (hn : |q / 2 ^ (e - 52) - n| < 1 / 2) : roundDouble q = n * 2 ^ (e - 52) := by
  have hq : 0 < q := lt_of_lt_of_le (by positivity) h1
  simp only [roundDouble, hq.ne', if_false, abs_of_pos hq, log_of_binade q e h1 h2, hq, if_true,
    nearestEven_of_near _ n hn]

/-- The rounding error of a positive rational is at most `2 ^ -53` of it. -/
theorem roundDouble_near (q : ℚ) (hq : 0 < q) : |roundDouble q - q| ≤ q / 2 ^ 53 := by
  have h1 : (2 : ℚ) ^ Int.log 2 q ≤ q := by
    have := Int.zpow_log_le_self (R := ℚ) (b := 2) (by norm_num) hq
    exact_mod_cast this
  have hu : (0 : ℚ) < 2 ^ (Int.log 2 q - 52) := by positivity
  have hm := nearestEven_near (q / 2 ^ (Int.log 2 q - 52))
  have e1 : (2 : ℚ) ^ (Int.log 2 q - 52) = 2 ^ Int.log 2 q / 2 ^ 52 := by
    rw [zpow_sub₀ (by norm_num)]
    norm_num
  simp only [roundDouble, hq.ne', if_false, abs_of_pos hq, hq, if_true]
  generalize nearestEven (q / 2 ^ (Int.log 2 q - 52)) = n at hm
  have e2 : (n : ℚ) * 2 ^ (Int.log 2 q - 52) - q
      = ((n : ℚ) - q / 2 ^ (Int.log 2 q - 52)) * 2 ^ (Int.log 2 q - 52) := by
    field_simp
  rw [e2, abs_mul, abs_of_pos hu, e1]
  have h3 : |(n : ℚ) - q / (2 ^ Int.log 2 q / 2 ^ 52)| * (2 ^ Int.log 2 q / 2 ^ 52)
      ≤ 1 / 2 * (2 ^ Int.log 2 q / 2 ^ 52) := by
    rw [e1] at hm
    exact mul_le_mul_of_nonneg_right hm (by positivity)
  have h4 : (1 : ℚ) / 2 * (2 ^ Int.log 2 q / 2 ^ 52) = 2 ^ Int.log 2 q / 2 ^ 53 := by
    norm_num
    ring
  rw [h4] at h3
  exact h3.trans (div_le_div_of_nonneg_right h1 (by positivity))

/-- The rounded difference of two finite numbers. -/
theorem subDouble_fin (a b : ℚ) : subDouble (fin a) (fin b) = fin (roundDouble (a - b)) := by
  simp only [subDouble, sub_fin]

/-- Adding zero changes no number. -/
theorem add_zero_right (a : JSNum) : add a (fin 0) = a := by
  cases a <;> simp [add]

/-- Two numbers cannot be `a <= b` and `b < a` at once. -/
theorem le_and_lt_false (a b : JSNum) : (le a b && lt b a) = false := by
  cases a <;> cases b <;> simp [le, lt]

/-- Away from `NaN`, not `a < b` is `a >= b`. -/
theorem not_lt_eq_ge (a b : JSNum) (ha : a ≠ nan) (hb : b ≠ nan) : (!lt a b) = ge a b := by
  cases a with
  | fin x =>
    cases b with
    | fin y =>
      rcases lt_or_le x y with h | h
      · simp [lt, ge, le, h, not_le.mpr h]
      · simp [lt, ge, le, h, not_lt.mpr h]
    | pinf => rfl
    | ninf => rfl
    | nan => exact absurd rfl hb
  | pinf => cases b <;> simp_all [le, lt, ge]
  | ninf => cases b <;> simp_all [le, lt, ge]
  | nan => exact absurd rfl ha

/-- No number is `>=` or `<=` compared with `NaN`. -/
theorem le_nan_left (a : JSNum) : le nan a = false := by
  cases a <;> rfl

theorem le_nan_right (a : JSNum) : le a nan = false := by
  cases a <;> rfl

/-- A sum with `NaN` is `NaN`. -/
theorem add_nan_left (a : JSNum) : add nan a = nan := by
  cases a <;> rfl

/-- A value that is not `NaN` is not `!==` to itself. -/
theorem strictNe_self (p : JSNum) (hp : p ≠ nan) : strictNe (some p) p = false := by
  cases p <;> simp_all [strictNe]

end JSNum

/-! ## The position getter -/

namespace Runner

variable {σ : Type}

/-- The value of `f` at a finite non-negative time, for a positive base duration and a
non-negative wait: with `k` the cycle index and `u` the time into the cycle over the base
duration, `min u 1` forwards and `max (1 - u) 0` backwards. -/
theorem positionF_fin (s r : Bool) (w d x : ℚ) (hd : 0 < d) (hw : 0 ≤ w) (hx : 0 ≤ x) :
    positionF s r (fin w) (fin d) (fin x) =
      fin (if backwardsAt s r ⌊x / (w + d)⌋
        then Max.max (1 - (x - ((⌊x / (w + d)⌋ : ℤ) : ℚ) * (w + d)) / d) 0
        else Min.min ((x - ((⌊x / (w + d)⌋ : ℤ) : ℚ) * (w + d)) / d) 1) := by
  have hc : 0 < w + d := by linarith
  have h2c : 0 < 2 * (w + d) := by linarith
  obtain ⟨hr0, hr1⟩ := floorRem_bounds x (w + d) hc
  have hu : 0 ≤ (x - (w + d) * ((⌊x / (w + d)⌋ : ℤ) : ℚ)) / d := div_nonneg hr0 hd.le
  have hk : ⌊x / (w + d)⌋ % 2 = 0 ∨ ⌊x / (w + d)⌋ % 2 = 1 := by omega
  have key : ∀ (b : Bool) (u : ℚ), 0 ≤ u →
      max (min (add (div (mul (powNegOne b) (fin (u * d))) (fin d)) (ofBool b)) (fin 1)) (fin 0)
        = fin (if b then Max.max (1 - u) 0 else Min.min u 1) := by
    intro b u hu0
    cases b
    · have e : (1 : ℚ) * (u * d) / d + 0 = u := by field_simp
      simp only [powNegOne, ofBool, mul_fin, div_fin _ _ hd.ne', add_fin, min_fin, max_fin,
        Bool.false_eq_true, if_false, e]
      rw [max_eq_left (le_min hu0 zero_le_one)]
    · have e : (-1 : ℚ) * (u * d) / d + 1 = 1 - u := by field_simp; ring
      simp only [powNegOne, ofBool, mul_fin, div_fin _ _ hd.ne', add_fin, min_fin, max_fin,
        if_true, e]
      rw [min_eq_left (by linarith : 1 - u ≤ 1)]
  have hxu : x - (w + d) * ((⌊x / (w + d)⌋ : ℤ) : ℚ)
      = (x - ((⌊x / (w + d)⌋ : ℤ) : ℚ) * (w + d)) / d * d := by
    field_simp
    ring
  have hb : ((truthy (mul (ofBool s) (fin (((⌊x / (w + d)⌋ % 2 : ℤ) : ℚ)))) && !r)
      || (!truthy (mul (ofBool s) (fin (((⌊x / (w + d)⌋ % 2 : ℤ) : ℚ)))) && r))
      = backwardsAt s r ⌊x / (w + d)⌋ := by
    rcases hk with h | h <;> cases s <;> cases r <;> simp [backwardsAt, ofBool, h]
  have hu' : 0 ≤ (x - ((⌊x / (w + d)⌋ : ℤ) : ℚ) * (w + d)) / d := by
    rw [mul_comm]
    exact hu
  simp only [positionF, add_fin, mul_fin, mod_fin_of_nonneg x _ hx h2c,
    mod_fin_of_nonneg x _ hx hc, div_fin _ _ hc.ne', floor_fin, swingIndex x (w + d) hc]
  rw [hb, hxu]
  exact key _ _ hu'

/-- The value of `f` at time `k (w + d) + v` with `0 ≤ v < w + d`: cycle `k`, `v` into it. -/
theorem positionF_cycle (s r : Bool) (w d v : ℚ) (k : ℤ) (hd : 0 < d) (hw : 0 ≤ w)
    (hk : 0 ≤ k) (hv0 : 0 ≤ v) (hv1 : v < w + d) :
    positionF s r (fin w) (fin d) (fin ((k : ℚ) * (w + d) + v)) =
      fin (if backwardsAt s r k then Max.max (1 - v / d) 0 else Min.min (v / d) 1) := by
  have hc : 0 < w + d := by linarith
  have hkq : (0 : ℚ) ≤ (k : ℚ) := by exact_mod_cast hk
  have hx : 0 ≤ (k : ℚ) * (w + d) + v := by positivity
  have hfl : ⌊((k : ℚ) * (w + d) + v) / (w + d)⌋ = k := by
    rw [Int.floor_eq_iff, le_div_iff₀ hc, div_lt_iff₀ hc]
    constructor <;> nlinarith
  rw [positionF_fin s r w d _ hd hw hx, hfl]
  have e : (k : ℚ) * (w + d) + v - (k : ℚ) * (w + d) = v := by ring
  rw [e]

/-- Rounding the two values `f` takes a little after the start of a cycle. -/
theorem round_near_start (b : Bool) (u : ℚ) (h0 : 0 ≤ u) (h1 : u < 1 / 2) :
    round (fin (if b then Max.max (1 - u) 0 else Min.min u 1)) = fin (if b then 1 else 0) := by
  cases b
  · have e : Min.min u 1 = u := min_eq_left (by linarith)
    have hf : ⌊u + 1 / 2⌋ = 0 := by
      rw [Int.floor_eq_iff]
      constructor <;> norm_num <;> linarith
    simp only [Bool.false_eq_true, if_false, if_true, e, round_fin, hf, Int.cast_zero,
      Int.cast_one]
  · have e : Max.max (1 - u) 0 = 1 - u := max_eq_left (by linarith)
    have hf : ⌊1 - u + 1 / 2⌋ = 1 := by
      rw [Int.floor_eq_iff]
      constructor <;> norm_num <;> linarith
    simp only [Bool.false_eq_true, if_false, if_true, e, round_fin, hf, Int.cast_zero,
      Int.cast_one]

/-- Rounding the two values `f` takes a little before the end of the base duration. -/
theorem round_near_end (b : Bool) (u : ℚ) (h0 : 0 ≤ u) (h1 : u < 1 / 2) :
    round (fin (if b then Max.max (1 - (1 - u)) 0 else Min.min (1 - u) 1))
      = fin (if b then 0 else 1) := by
  cases b
  · have e : Min.min (1 - u) 1 = 1 - u := min_eq_left (by linarith)
    have hf : ⌊1 - u + 1 / 2⌋ = 1 := by
      rw [Int.floor_eq_iff]
      constructor <;> norm_num <;> linarith
    simp only [Bool.false_eq_true, if_false, if_true, e, round_fin, hf, Int.cast_zero,
      Int.cast_one]
  · have e : Max.max (1 - (1 - u)) 0 = u := by
      rw [max_eq_left (by linarith)]
      ring
    have hf : ⌊u + 1 / 2⌋ = 0 := by
      rw [Int.floor_eq_iff]
      constructor <;> norm_num <;> linarith
    simp only [Bool.false_eq_true, if_false, if_true, e, round_fin, hf, Int.cast_zero,
      Int.cast_one]

/-- The value the getter rounds at or before the start: `f (1e-5)` rounds to `1` when reverse
is set and to `0` otherwise, whatever the swing setting. -/
theorem round_positionF_epsilon (s r : Bool) (d w : ℚ) (hdbig : 1 / 50000 < d) (hwnn : 0 ≤ w) :
    round (positionF s r (fin w) (fin d) epsilon) = fin (if r then 1 else 0) := by
  have hdpos : 0 < d := by linarith
  have hF := positionF_cycle s r w d (1 / 100000) 0 hdpos hwnn le_rfl
    (by norm_num) (by linarith)
  have hu : (1 / 100000 : ℚ) / d < 1 / 2 := by
    rw [div_lt_iff₀ hdpos]
    linarith
  have hb : backwardsAt s r 0 = r := by
    simp [backwardsAt]
  simp only [Int.cast_zero, zero_mul, zero_add] at hF
  rw [epsilon, hF, hb]
  exact round_near_start _ _ (by positivity) hu

/-- The end branch of the getter: a time at or after a positive end time is neither `<= 0`
nor before the end. -/
theorem past_end_branch (x : JSNum) (e : ℚ) (he : 0 < e) (hx : le (fin e) x = true) :
    le x (fin 0) = false ∧ lt x (fin e) = false := by
  cases x with
  | fin q =>
    have hq : e ≤ q := by simpa using hx
    constructor
    · simpa using lt_of_lt_of_le he hq
    · simpa using hq
  | pinf => exact ⟨rfl, rfl⟩
  | ninf => simp [le] at hx
  | nan => simp [le] at hx

/-- The value of `f` rounded, at a time less than half a base duration before the end of
`n ≥ 1` cycles: `0` when cycle `n - 1` plays backwards and `1` otherwise. -/
theorem round_positionF_near_end (s r : Bool) (d w a : ℚ) (n : ℕ)
    (hdpos : 0 < d) (hwnn : 0 ≤ w) (hn : 1 ≤ n)
    (ha1 : a < (n : ℚ) * (w + d) - w) (ha2 : (n : ℚ) * (w + d) - w - a < d / 2) :
    round (positionF s r (fin w) (fin d) (fin a))
      = fin (if xor (s && decide (n % 2 = 0)) r then 0 else 1) := by
  have hx : (fin a : JSNum)
      = fin ((((n : ℤ) - 1 : ℤ) : ℚ) * (w + d) + (d - ((n : ℚ) * (w + d) - w - a))) := by
    congr 1
    push_cast
    ring
  have hF := positionF_cycle s r w d (d - ((n : ℚ) * (w + d) - w - a)) ((n : ℤ) - 1) hdpos hwnn
    (by omega) (by linarith) (by linarith)
  have hu : ((n : ℚ) * (w + d) - w - a) / d < 1 / 2 := by
    rw [div_lt_iff₀ hdpos]
    linarith
  have hu0 : 0 ≤ ((n : ℚ) * (w + d) - w - a) / d := div_nonneg (by linarith) hdpos.le
  have hb : backwardsAt s r ((n : ℤ) - 1) = xor (s && decide (n % 2 = 0)) r := by
    have : decide (((n : ℤ) - 1) % 2 = 1) = decide (n % 2 = 0) := by
      apply decide_eq_decide.mpr
      omega
    simp [backwardsAt, this]
  have e : (d - ((n : ℚ) * (w + d) - w - a)) / d = 1 - ((n : ℚ) * (w + d) - w - a) / d := by
    field_simp
  rw [hx, hF, hb, e]
  exact round_near_end _ _ hu0 hu

/-- The rounded difference `endTime - 1e-5` for an end time of at most `2 ^ 36`: it is before
the end time, by less than `2e-5`. -/
theorem roundDouble_before_end (E : ℚ) (h0 : 1 / 25000 ≤ E) (h1 : E ≤ 2 ^ 36) :
    roundDouble (E - 1 / 100000) < E ∧ E - roundDouble (E - 1 / 100000) < 1 / 50000 := by
  have hpos : 0 < E - 1 / 100000 := by linarith
  have h := roundDouble_near (E - 1 / 100000) hpos
  have hb : (E - 1 / 100000) / 2 ^ 53 ≤ 1 / 2 ^ 17 := by
    rw [div_le_iff₀ (by positivity)]
    have e : (1 : ℚ) / 2 ^ 17 * 2 ^ 53 = 2 ^ 36 := by norm_num
    rw [e]
    linarith
  have h2 := abs_le.mp (h.trans hb)
  have e17 : (1 : ℚ) / 2 ^ 17 = 1 / 131072 := by norm_num
  rw [e17] at h2
  constructor <;> linarith [h2.1, h2.2]

/-- The value the getter rounds at or after the end of `n ≥ 1` cycles, for an end time of at
most `2 ^ 36`: `f (endTime - 1e-5)` rounds to `0` when cycle `n - 1` plays backwards and to `1`
otherwise. -/
theorem round_positionF_before_end (s r : Bool) (d w : ℚ) (n : ℕ)
    (hdbig : 1 / 25000 ≤ d) (hwnn : 0 ≤ w) (hn : 1 ≤ n) (hE : (n : ℚ) * (w + d) - w ≤ 2 ^ 36) :
    round (positionF s r (fin w) (fin d) (subDouble (fin ((n : ℚ) * (w + d) - w)) epsilon))
      = fin (if xor (s && decide (n % 2 = 0)) r then 0 else 1) := by
  have hdpos : 0 < d := by linarith
  have hn1 : (1 : ℚ) ≤ (n : ℚ) := by exact_mod_cast hn
  have hEd : d ≤ (n : ℚ) * (w + d) - w := by nlinarith
  obtain ⟨h1, h2⟩ := roundDouble_before_end _ (by linarith) hE
  rw [epsilon, subDouble_fin]
  exact round_positionF_near_end s r d w _ n hdpos hwnn hn h1 (by linarith)

/-- The end time of the getter is `duration ()`; for finite parameters it is the rational
`times * (wait + duration) - wait`. -/
theorem duration_fin (r : Runner σ) (t w d : ℚ)
    (ht : r._times = fin t) (hw : r._wait = fin w) (hd : r._duration = fin d) :
    r.duration = fin (t * (w + d) - w) := by
  simp [duration, hd, hw, ht]

/-- C1. Position getter inside the animation: for base duration `d > 0`, wait `w ≥ 0` and a time
`0 < x < times * (w + d) - w`, with `k = ⌊x / (w + d)⌋` and `u = (x - k (w + d)) / d`, the
getter returns `min u 1` when cycle `k` plays forwards and `max (1 - u) 0` when it plays
backwards ((swing and `k` odd) XOR reverse); in the wait gap (`u ≥ 1`) that is `1` resp. `0`,
and a plain runner (times 1, no swing, no reverse, no wait) returns `x / d`. -/
theorem position_interior (r : Runner σ) (d w x : ℚ)
    (hd : r._duration = fin d) (hw : r._wait = fin w) (hx : r._time = fin x)
    (hdpos : 0 < d) (hwnn : 0 ≤ w) (hxpos : 0 < x) (hend : lt (fin x) r.duration = true) :
    (r.position = fin (if backwardsAt r._swing r._reverse ⌊x / (w + d)⌋
        then Max.max (1 - (x - ((⌊x / (w + d)⌋ : ℤ) : ℚ) * (w + d)) / d) 0
        else Min.min ((x - ((⌊x / (w + d)⌋ : ℤ) : ℚ) * (w + d)) / d) 1))
    ∧ (1 ≤ (x - ((⌊x / (w + d)⌋ : ℤ) : ℚ) * (w + d)) / d →
        r.position = fin (if backwardsAt r._swing r._reverse ⌊x / (w + d)⌋ then 0 else 1))
    ∧ (r._times = fin 1 → r._swing = false → r._reverse = false → w = 0 →
        r.position = fin (x / d)) := by
  have hpos : r.position = positionF r._swing r._reverse (fin w) (fin d) (fin x) := by
    have h0 : ¬ x ≤ 0 := not_le.mpr hxpos
    have hend2 : lt (fin x) (sub (mul r._times (add (fin w) (fin d))) (fin w)) = true := by
      simpa [duration, hd, hw] using hend
    simp only [position, hd, hw, hx, le_fin, h0, decide_False, Bool.false_eq_true, if_false]
    rw [if_pos hend2]
  rw [hpos, positionF_fin _ _ w d x hdpos hwnn hxpos.le]
  refine ⟨rfl, ?_, ?_⟩
  · intro hu
    congr 1
    split
    · exact max_eq_right (by linarith)
    · exact min_eq_right hu
  · intro ht hs hr hw0
    subst hw0
    have hlt : x < d := by
      simpa [duration, hd, hw, ht] using hend
    have hk : ⌊x / (0 + d)⌋ = 0 := by
      rw [Int.floor_eq_iff]
      constructor
      · simpa using div_nonneg hxpos.le hdpos.le
      · rw [zero_add, div_lt_iff₀ hdpos]
        simpa using hlt
    rw [hk, hs, hr]
    simp only [backwardsAt, Bool.false_and, Bool.xor_false, Bool.false_eq_true, if_false,
      Int.cast_zero, zero_mul, sub_zero]
    congr 1
    exact min_eq_left ((div_le_one hdpos).mpr hlt.le)

/-- Witness of C1: a plain runner of base duration 2 at time 1 is at position 1/2. -/
theorem position_interior_witness :
    ({ create 0 (fin 2) () with _time := fin 1 } : Runner Unit).position = fin (1 / 2) :=
  (position_interior ({ create 0 (fin 2) () with _time := fin 1 } : Runner Unit) 2 0 1
    rfl rfl rfl (by norm_num) le_rfl (by norm_num)
    (by simp [duration, create])).2.2 rfl rfl rfl rfl

/-- C2, as stated, fails: a runner with swing and reverse both set, base duration 1 and time 0,
is at position 1, not 0. -/
theorem position_at_start_swing_reverse :
    (({ create 0 (fin 1) () with _swing := true, _reverse := true } : Runner Unit).position
        = fin 1)
    ∧ ({ create 0 (fin 1) () with _swing := true, _reverse := true } : Runner Unit).position
        ≠ fin (if (true && !true) then 1 else 0) := by
  have h : ({ create 0 (fin 1) () with _swing := true, _reverse := true } :
      Runner Unit).position = fin 1 := by
    have hr := round_positionF_epsilon true true 1 0 (by norm_num) le_rfl
    simpa [position, create] using hr
  rw [h]
  simp

/-- C2, amended. Position getter at or before the start: for base duration above `2e-5` (so
for `d ≥ 1`), wait `≥ 0` and every time `x ≤ 0` (`-Infinity` included), the getter returns
exactly `1` if reverse is set, with or without swing, and exactly `0` otherwise. -/
theorem position_at_start (r : Runner σ) (d w : ℚ)
    (hd : r._duration = fin d) (hw : r._wait = fin w)
    (hdbig : 1 / 50000 < d) (hwnn : 0 ≤ w) (hx : le r._time (fin 0) = true) :
    r.position = fin (if r._reverse then 1 else 0) := by
  have hbranch : r.position
      = round (positionF r._swing r._reverse (fin w) (fin d) epsilon) := by
    simp only [position, hd, hw, hx, if_true]
  rw [hbranch]
  exact round_positionF_epsilon r._swing r._reverse d w hdbig hwnn

/-- Witness of C2 (amended): a reversed runner of base duration 1 with wait 1/2 at time -3 is
at position 1. -/
theorem position_at_start_witness :
    ({ create 0 (fin 1) () with _reverse := true, _wait := fin (1 / 2), _time := fin (-3) } :
      Runner Unit).position = fin 1 :=
  position_at_start
    ({ create 0 (fin 1) () with _reverse := true, _wait := fin (1 / 2), _time := fin (-3) } :
      Runner Unit) 1 (1 / 2) rfl rfl (by norm_num) (by norm_num) (by simp)

/-- The position getter at or after the end, for an end time of at most `2 ^ 36`
milliseconds: for base duration at least `4e-5` (so for `d ≥ 1`), wait `≥ 0`, times a natural
number `n ≥ 1` and every time `x ≥ n (w + d) - w` (`Infinity` included), the getter returns `0`
if the last cycle plays backwards ((swing and `n` even) XOR reverse) and `1` otherwise; it is
never strictly between the two. -/
theorem position_at_end (r : Runner σ) (d w : ℚ) (n : ℕ)
    (hd : r._duration = fin d) (hw : r._wait = fin w) (ht : r._times = fin (n : ℚ))
    (hdbig : 1 / 25000 ≤ d) (hwnn : 0 ≤ w) (hn : 1 ≤ n) (hE : (n : ℚ) * (w + d) - w ≤ 2 ^ 36)
    (hx : ge r._time r.duration = true) :
    r.position = fin (if xor (r._swing && decide (n % 2 = 0)) r._reverse then 0 else 1)
    ∧ (r.position = fin 0 ∨ r.position = fin 1) := by
  have hn1 : (1 : ℚ) ≤ (n : ℚ) := by exact_mod_cast hn
  have hepos : 0 < (n : ℚ) * (w + d) - w := by nlinarith
  rw [ge, duration_fin r _ w d ht hw hd] at hx
  obtain ⟨h1, h2⟩ := past_end_branch _ _ hepos hx
  have hbranch : r.position = round (positionF r._swing r._reverse (fin w) (fin d)
      (subDouble (fin ((n : ℚ) * (w + d) - w)) epsilon)) := by
    simp only [position, hd, hw, ht, add_fin, mul_fin, sub_fin, h1, h2, Bool.false_eq_true,
      if_false]
  have h := round_positionF_before_end r._swing r._reverse d w n hdbig hwnn hn hE
  rw [← hbranch] at h
  refine ⟨h, ?_⟩
  rw [h]
  split
  · exact Or.inl rfl
  · exact Or.inr rfl

/-- The getter at the end of a swinging runner with two cycles of base duration 1 and wait
1/2, at time `Infinity`: back at position 0. -/
theorem position_at_end_swinging :
    ({ create 0 (fin 1) () with
        _swing := true, _times := fin 2, _wait := fin (1 / 2), _time := pinf } :
      Runner Unit).position = fin 0 :=
  (position_at_end
    ({ create 0 (fin 1) () with
        _swing := true, _times := fin 2, _wait := fin (1 / 2), _time := pinf } : Runner Unit)
    1 (1 / 2) 2 rfl rfl (by simp) (by norm_num) (by norm_num) (by norm_num) (by norm_num)
    (by simp [duration, ge, le, create])).1

/-- The rounded difference `1e12 - 1e-5` is `1e12`: between `2 ^ 39` and `2 ^ 40` two
neighbouring doubles are `2 ^ -13` apart, more than twice `1e-5`. -/
theorem roundDouble_absorbs : roundDouble (10 ^ 12 - 1 / 100000) = 10 ^ 12 := by
  rw [roundDouble_of_near _ 39 (8192 * 10 ^ 12) (by norm_num) (by norm_num)
    (by rw [abs_lt]; constructor <;> norm_num)]
  norm_num

/-- For finite parameters with a non-zero cycle and base duration, `f` of a finite time is a
rational in `[0, 1]`. -/
theorem positionF_unit (s r : Bool) (w d x : ℚ) (hd : 0 < d) (hw : 0 ≤ w) :
    ∃ q, positionF s r (fin w) (fin d) (fin x) = fin q ∧ 0 ≤ q ∧ q ≤ 1 := by
  have hc : w + d ≠ 0 := by linarith
  have h2c : 2 * (w + d) ≠ 0 := by linarith
  simp only [positionF, add_fin, mul_fin, JSNum.mod, hc, h2c, if_false, div_fin _ _ hc,
    div_fin _ _ hd.ne', floor_fin, ofBool, powNegOne, min_fin, max_fin]
  exact ⟨_, rfl, le_max_right _ _, max_le (min_le_right _ _) zero_le_one⟩

/-- Rounding keeps a rational of `[0, 1]` in `[0, 1]`. -/
theorem round_unit (p : JSNum) (h : ∃ q, p = fin q ∧ 0 ≤ q ∧ q ≤ 1) :
    ∃ q, round p = fin q ∧ 0 ≤ q ∧ q ≤ 1 := by
  obtain ⟨q, rfl, h0, h1⟩ := h
  refine ⟨_, rfl, ?_, ?_⟩
  · have : (0 : ℤ) ≤ ⌊q + 1 / 2⌋ := Int.floor_nonneg.mpr (by linarith)
    exact_mod_cast this
  · have : ⌊q + 1 / 2⌋ < 2 := Int.floor_lt.mpr (by push_cast; linarith)
    have h2 : ⌊q + 1 / 2⌋ ≤ 1 := by omega
    exact_mod_cast h2

/-- The range of the getter away from the failing input of C4: for base duration `d > 0`, wait
`w ≥ 0` and times `>= 1`, the getter returns a rational in `[0, 1]` whenever times is finite
(for every time, `NaN` included) and, for times `Infinity`, whenever the time is finite or
`-Infinity`. -/
theorem position_unit (r : Runner σ) (d w : ℚ) (hd : r._duration = fin d) (hw : r._wait = fin w)
    (hdpos : 0 < d) (hwnn : 0 ≤ w) (ht : ge r._times (fin 1) = true)
    (hfin : r._times = pinf → r._time ≠ pinf ∧ r._time ≠ nan) :
    ∃ q, r.position = fin q ∧ 0 ≤ q ∧ q ≤ 1 := by
  have hstart := round_unit _ (positionF_unit r._swing r._reverse w d (1 / 100000) hdpos hwnn)
  have hc : 0 < w + d := by linarith
  have hmid : ∀ E : JSNum, le r._time (fin 0) = false → lt r._time E = true →
      ∃ q, positionF r._swing r._reverse (fin w) (fin d) r._time = fin q ∧ 0 ≤ q ∧ q ≤ 1 := by
    intro E h1 h2
    cases hx : r._time with
    | fin x => exact positionF_unit _ _ w d x hdpos hwnn
    | pinf => rw [hx] at h2; cases E <;> simp [JSNum.lt] at h2
    | ninf => rw [hx] at h1; simp [JSNum.le] at h1
    | nan => rw [hx] at h2; cases E <;> simp [JSNum.lt] at h2
  cases htimes : r._times with
  | fin t =>
    simp only [position, hd, hw, htimes, add_fin, mul_fin, sub_fin, epsilon]
    split
    · exact hstart
    · rename_i h1
      split
      · rename_i h2
        exact hmid _ (Bool.eq_false_iff.mpr h1) h2
      · exact round_unit _ (positionF_unit _ _ w d _ hdpos hwnn)
  | pinf =>
    obtain ⟨hne1, hne2⟩ := hfin htimes
    have hE : sub (mul pinf (add (fin w) (fin d))) (fin w) = pinf := by
      simp [JSNum.mul, infTimes, hc.ne', hc, JSNum.sub, JSNum.neg, JSNum.add]
    simp only [position, hd, hw, htimes, hE]
    split
    · exact hstart
    · rename_i h1
      have hlt : lt r._time pinf = true := by
        cases hx : r._time with
        | fin x => rfl
        | pinf => exact absurd hx hne1
        | ninf => rfl
        | nan => exact absurd hx hne2
      rw [if_pos hlt]
      exact hmid _ (Bool.eq_false_iff.mpr h1) hlt
  | ninf => rw [htimes] at ht; simp [ge, JSNum.le] at ht
  | nan => rw [htimes] at ht; simp [ge, JSNum.le] at ht

/-- C4, the failing input: for the endless runner after `finish ()` (base duration 1000, wait
0, times `Infinity >= 1`, time `Infinity`) the getter returns `NaN`, which is not in `[0, 1]`:
the end branch evaluates `f (Infinity)` and `Infinity % c` is `NaN`. -/
theorem position_endless_finished :
    ge endlessFinished._times (fin 1) = true
    ∧ endlessFinished.position = nan
    ∧ le (fin 0) endlessFinished.position = false
    ∧ le endlessFinished.position (fin 1) = false := by
  have h : endlessFinished.position = nan := by
    simp [endlessFinished, position, positionF, create, JSNum.le, JSNum.lt, JSNum.mul,
      JSNum.add, JSNum.sub, JSNum.subDouble, JSNum.neg, infTimes, JSNum.mod, JSNum.div,
      JSNum.floor, JSNum.min, JSNum.max, JSNum.round, epsilon, ofBool, truthy, powNegOne]
  rw [h]
  simp [endlessFinished, ge, le]

/-- C5. The method `duration ()` returns `times * (wait + baseDuration) - wait`, in JavaScript
arithmetic for every runner and as a rational for finite parameters; for times 3, wait 1/2
and base duration 2 it returns 7. -/
theorem duration_formula :
    (∀ r : Runner σ, r.duration = sub (mul r._times (add r._wait r._duration)) r._wait)
    ∧ (∀ (r : Runner σ) (t w d : ℚ),
        ({ r with _times := fin t, _wait := fin w, _duration := fin d } : Runner σ).duration
          = fin (t * (w + d) - w))
    ∧ ({ create 0 (fin 2) () with _times := fin 3, _wait := fin (1 / 2) } : Runner Unit).duration
        = fin 7 := by
  refine ⟨fun _ => rfl, fun r t w d => ?_, ?_⟩
  · simp [duration]
  · simp only [duration, create, add_fin, mul_fin, sub_fin]
    norm_num

/-! ## The stepping state machine -/

/-- The timing fields after a step of an enabled runner, and the parameters it leaves alone. -/
theorem step_enabled_fields (r : Runner σ) (dt : Option JSNum) (he : r.enabled = true) :
    (r.step dt).1._time = add r._time (dt.getD (fin 16))
    ∧ (r.step dt).1._lastTime = add r._time (dt.getD (fin 16))
    ∧ (r.step dt).1._lastPosition
        = some ({ r with _time := add r._time (dt.getD (fin 16)) } : Runner σ).position
    ∧ (r.step dt).1._reseted = false
    ∧ (r.step dt).1._duration = r._duration
    ∧ (r.step dt).1._wait = r._wait
    ∧ (r.step dt).1._times = r._times
    ∧ (r.step dt).1._swing = r._swing
    ∧ (r.step dt).1._reverse = r._reverse
    ∧ (r.step dt).1._isDeclarative = r._isDeclarative
    ∧ (r.step dt).1.enabled = true
    ∧ (r.step dt).1.id = r.id := by
  simp only [step, he, Bool.not_true, Bool.false_eq_true, if_false]
  split
  · simp only [_run, _initialise]
    split <;> simp
  · simp

/-- The `done` flag after a step of an enabled runner that is not declarative: the time has
reached `duration ()` and `_lastTime` was not before it. -/
theorem step_done_of_not_declarative (r : Runner σ) (dt : Option JSNum)
    (he : r.enabled = true) (hn : r._isDeclarative = false) :
    (r.step dt).1.done
      = (!(lt r._lastTime r.duration && ge (add r._time (dt.getD (fin 16))) r.duration)
          && ge (add r._time (dt.getD (fin 16))) r.duration) := by
  simp only [step, he, hn, Bool.not_true, Bool.false_eq_true, if_false, Bool.or_false,
    Bool.and_false, Bool.not_false, Bool.true_and]
  split
  · simp only [_run, _initialise]
    split <;> simp [duration]
  · simp [duration]

/-- A step does not change `duration ()`. -/
theorem step_duration (r : Runner σ) (dt : Option JSNum) :
    (r.step dt).1.duration = r.duration := by
  cases he : r.enabled
  · simp [step, he]
  · have h := step_enabled_fields r dt he
    simp only [duration, h.2.2.2.2.1, h.2.2.2.2.2.1, h.2.2.2.2.2.2.1]

/-- What `progress ()` reads after `progress (p)` on an enabled runner, in JavaScript
arithmetic: the time has moved by `p * duration () - time`. -/
theorem progress_setProgress (r : Runner σ) (p : JSNum) (he : r.enabled = true) :
    (r.setProgress p).1.progress
      = JSNum.min (fin 1) (div (add r._time (sub (mul p r.duration) r._time)) r.duration) := by
  have h := step_enabled_fields r (some (sub (mul p r.duration) r._time)) he
  rw [progress, setProgress, setTime, step_duration, h.1, Option.getD_some]

/-- C6, as stated, fails in three states: a disabled runner ignores `progress (1/2)` and
`progress ()` still returns 0; after `finish ()` (time `Infinity`) `progress (1/2)` leaves the
time `NaN`, and so is `progress ()`; and with `duration () = 0` (times 2, base duration 1, wait
-2) `progress ()` is `NaN`. -/
theorem progress_roundtrip_fails :
    ((({ create 0 (fin 1000) () with enabled := false } : Runner Unit).setProgress
        (fin (1 / 2))).1.progress = fin 0)
    ∧ ((({ create 0 (fin 1000) () with _time := pinf, _lastTime := pinf } :
        Runner Unit).setProgress (fin (1 / 2))).1.progress = nan)
    ∧ ((({ create 0 (fin 1) () with _times := fin 2, _wait := fin (-2) } :
        Runner Unit).setProgress (fin (1 / 2))).1.progress = nan) := by
  refine ⟨?_, ?_, ?_⟩
  · simp [setProgress, setTime, step, create, progress, duration, JSNum.div, JSNum.min]
  · rw [progress_setProgress _ _ rfl]
    simp [duration, create, JSNum.sub, JSNum.add, JSNum.neg, JSNum.div, JSNum.min]
  · rw [progress_setProgress _ _ rfl]
    norm_num [duration, create, JSNum.div, JSNum.min]

/-- C6, amended. Progress round trip: for every enabled runner whose time is finite, with
positive base duration, wait `≥ 0` and finite times `≥ 1`, with swing and reverse on or off,
and every `p` with `0 ≤ p ≤ 1`, `progress (p)` followed by `progress ()` returns `p`. -/
theorem progress_roundtrip (r : Runner σ) (d w t x p : ℚ) (he : r.enabled = true)
    (hd : r._duration = fin d) (hw : r._wait = fin w) (ht : r._times = fin t)
    (hx : r._time = fin x) (hdpos : 0 < d) (hwnn : 0 ≤ w) (ht1 : 1 ≤ t)
    (_hp0 : 0 ≤ p) (hp1 : p ≤ 1) :
    (r.setProgress (fin p)).1.progress = fin p := by
  have hD : r.duration = fin (t * (w + d) - w) := duration_fin r t w d ht hw hd
  have hDpos : 0 < t * (w + d) - w := by nlinarith
  have e : x + (p * (t * (w + d) - w) - x) = p * (t * (w + d) - w) := by ring
  rw [progress_setProgress r (fin p) he, hD, hx, mul_fin, sub_fin, add_fin, e,
    div_fin _ _ hDpos.ne', min_fin, mul_div_cancel_right₀ _ hDpos.ne', min_eq_right hp1]

/-- Witness of C6 (amended): a swinging, reversed runner of three cycles at time 5. -/
theorem progress_roundtrip_witness :
    (({ create 0 (fin 2) () with
        _swing := true, _reverse := true, _times := fin 3, _wait := fin (1 / 2),
        _time := fin 5, _lastTime := fin 5 } : Runner Unit).setProgress (fin (1 / 4))).1.progress
      = fin (1 / 4) :=
  progress_roundtrip _ 2 (1 / 2) 3 5 (1 / 4) rfl rfl rfl rfl rfl
    (by norm_num) (by norm_num) (by norm_num) (by norm_num) (by norm_num)

/-- The states the claims on `step` are about: `_lastTime` is the time.  The constructor
leaves such a state and every step, of an enabled or a disabled runner, keeps it. -/
theorem lastTime_eq_time_invariant :
    (∀ (id : Nat) (d : JSNum) (env : σ), (create id d env)._lastTime = (create id d env)._time)
    ∧ (∀ (r : Runner σ) (dt : Option JSNum), r._lastTime = r._time →
        (r.step dt).1._lastTime = (r.step dt).1._time) := by
  refine ⟨fun _ _ _ => rfl, fun r dt h => ?_⟩
  cases he : r.enabled
  · simpa [step, he] using h
  · have f := step_enabled_fields r dt he
    rw [f.1, f.2.1]

/-- C7. The `done` flag of an enabled runner that is not declarative, in a state where
`_lastTime` is the time (every state left by the constructor or by a step): after
`step (dt)`, `done` is true exactly when the new time is `>= duration ()` and the time before
the step was already `>= duration ()`.  So `done` is false when the step leaves the time
before the duration, and false after the step that first reaches it, `finish ()` included. -/
theorem done_of_not_declarative (r : Runner σ) (dt : Option JSNum)
    (he : r.enabled = true) (hn : r._isDeclarative = false) (hinv : r._lastTime = r._time) :
    ((r.step dt).1.done = (ge (r.step dt).1._time r.duration && ge r._time r.duration))
    ∧ (ge (r.step dt).1._time r.duration = false → (r.step dt).1.done = false)
    ∧ (lt r._time r.duration = true → (r.step dt).1.done = false)
    ∧ (lt r._time r.duration = true → r.finish.1.done = false) := by
  have key : ∀ dt : Option JSNum,
      (r.step dt).1.done = (ge (r.step dt).1._time r.duration && ge r._time r.duration) := by
    intro dt
    rw [step_done_of_not_declarative r dt he hn, (step_enabled_fields r dt he).1, hinv]
    generalize r.duration = D
    generalize dt.getD (fin 16) = delta
    by_cases hD : D = nan
    · subst hD
      simp [ge, le_nan_left]
    by_cases hT : r._time = nan
    · rw [hT, add_nan_left]
      simp [ge, le_nan_right]
    rw [Bool.not_and, Bool.and_or_distrib_right, Bool.not_and_self, Bool.or_false,
      not_lt_eq_ge _ _ hT hD, Bool.and_comm]
  have hlt : lt r._time r.duration = true → ge r._time r.duration = false := by
    intro h
    have h2 := le_and_lt_false r.duration r._time
    rw [h, Bool.and_true] at h2
    exact h2
  refine ⟨key dt, ?_, ?_, ?_⟩
  · intro h
    rw [key dt, h, Bool.false_and]
  · intro h
    rw [key dt, hlt h, Bool.and_false]
  · intro h
    rw [finish, key (some pinf), hlt h, Bool.and_false]

/-- Witness of C7: `finish ()` on a fresh runner of duration 1000 leaves `done` false. -/
theorem done_of_not_declarative_witness :
    ((create 0 (fin 1000) () : Runner Unit).finish).1.done = false :=
  (done_of_not_declarative (create 0 (fin 1000) () : Runner Unit) none rfl rfl rfl).2.2.2
    (by simp [duration, create])

/-- The value `_run` returns: the starting `allfinished` and every entry finished afterwards. -/
theorem runLoop_allfinished (arg : JSNum) (q : List (QueueEntry σ)) :
    ∀ (b : Bool) (i : Nat) (sc : Scope σ),
      (runLoop arg b i q sc).2.2.1
        = (b && (runLoop arg b i q sc).1.all (fun e => e.finished)) := by
  induction q with
  | nil => intro b i sc; simp [runLoop]
  | cons c rest ih =>
    intro b i sc
    simp only [runLoop, List.all_cons]
    rw [ih, Bool.and_assoc]

/-- A run pass over step functions that all return `true` leaves every entry finished. -/
theorem runLoop_all_finished_of_converged (arg : JSNum) (q : List (QueueEntry σ))
    (h : ∀ e ∈ q, ∀ (a : JSNum) (sc : Scope σ), (e.runner a sc).2 = true) :
    ∀ (b : Bool) (i : Nat) (sc : Scope σ),
      (runLoop arg b i q sc).1.all (fun e => e.finished) = true := by
  induction q with
  | nil => intro b i sc; simp [runLoop]
  | cons c rest ih =>
    intro b i sc
    simp only [runLoop, List.all_cons]
    rw [ih (fun e he => h e (List.mem_cons_of_mem _ he)), h c (List.mem_cons_self _ _)]
    simp

/-- The initialisation pass changes no step function. -/
theorem initialiseLoop_runner (decl : Bool) (q : List (QueueEntry σ)) :
    ∀ (b : Bool) (i : Nat) (sc : Scope σ),
      ∀ e ∈ (initialiseLoop decl b i q sc).1, ∃ e0 ∈ q, e.runner = e0.runner := by
  induction q with
  | nil => intro b i sc e he; simp [initialiseLoop] at he
  | cons c rest ih =>
    intro b i sc e he
    simp only [initialiseLoop] at he
    split at he
    · rcases List.mem_cons.mp he with h | h
      · exact ⟨c, List.mem_cons_self _ _, by rw [h]⟩
      · obtain ⟨e0, h0, h1⟩ := ih _ _ _ e h
        exact ⟨e0, List.mem_cons_of_mem _ h0, h1⟩
    · rcases List.mem_cons.mp he with h | h
      · exact ⟨c, List.mem_cons_self _ _, by rw [h]⟩
      · obtain ⟨e0, h0, h1⟩ := ih _ _ _ e h
        exact ⟨e0, List.mem_cons_of_mem _ h0, h1⟩

/-- A step of an enabled declarative runner always works the queue: its queue and its `done`
flag are those of a run pass, with the raw `dt`, over the queue the initialisation pass left. -/
theorem step_of_declarative (r : Runner σ) (dt : Option JSNum)
    (he : r.enabled = true) (hd : r._isDeclarative = true) :
    ∃ (q1 : List (QueueEntry σ)) (sc : Scope σ),
      (∀ e ∈ q1, ∃ e0 ∈ r._queue, e.runner = e0.runner)
      ∧ (r.step dt).1._queue = (runLoop (dt.getD (fin 16)) true 0 q1 sc).1
      ∧ (r.step dt).1.done = (runLoop (dt.getD (fin 16)) true 0 q1 sc).2.2.1 := by
  simp only [step, he, hd, Bool.not_true, Bool.false_eq_true, if_false, Bool.or_true, if_true,
    _run, _initialise, Bool.and_false, Bool.false_and, Bool.false_or, Bool.and_true]
  exact ⟨_, _, initialiseLoop_runner _ _ _ _ _, rfl, rfl⟩

/-- C8. The `done` flag of an enabled declarative runner: after every step, `done` is true
exactly when every queue entry is finished after that step's run pass, whatever the time and
the duration; so a declarative runner whose queued step functions all return `true` is done
after one step. -/
theorem done_of_declarative (r : Runner σ) (dt : Option JSNum)
    (he : r.enabled = true) (hd : r._isDeclarative = true) :
    ((r.step dt).1.done = (r.step dt).1._queue.all (fun e => e.finished))
    ∧ ((∀ e ∈ r._queue, ∀ (a : JSNum) (sc : Scope σ), (e.runner a sc).2 = true) →
        (r.step dt).1.done = true) := by
  obtain ⟨q1, sc, hq1, hq, hdone⟩ := step_of_declarative r dt he hd
  rw [hdone, hq, runLoop_allfinished, Bool.true_and]
  refine ⟨rfl, fun h => ?_⟩
  apply runLoop_all_finished_of_converged
  intro e hmem a sc2
  obtain ⟨e0, h0, h1⟩ := hq1 e hmem
  rw [h1]
  exact h e0 h0 a sc2

/-- Witness of C8: a declarative runner with one queued entry that converges at once is done
after a single default step. -/
theorem done_of_declarative_witness :
    (({ create 0 (fin 0) () with _isDeclarative := true, _queue := [alwaysConverged] } :
      Runner Unit).step none).1.done = true :=
  (done_of_declarative
    ({ create 0 (fin 0) () with _isDeclarative := true, _queue := [alwaysConverged] } :
      Runner Unit) none rfl rfl).2
    (by simp [create, alwaysConverged])

/-- C9. Disabled runner: whatever `dt` is (missing and `Infinity` included), `step (dt)`
returns the runner with its whole state unchanged, calls no initialiser or step function and
fires no notification. -/
theorem step_disabled (r : Runner σ) (dt : Option JSNum) (h : r.enabled = false) :
    r.step dt = (r, []) := by
  simp [step, h]

/-- Witness of C9: `finish ()` on a disabled runner with a queued entry. -/
theorem step_disabled_witness :
    ({ endlessQueued with enabled := false } : Runner Unit).step (some pinf)
      = ({ endlessQueued with enabled := false }, []) :=
  step_disabled _ _ rfl

/-- A step of an enabled runner that is not declarative and not running: only the timing
fields and the flags change, the queue is not touched, and at most `start` and `finished`
are fired. -/
theorem step_idle (r : Runner σ) (dt : Option JSNum) (he : r.enabled = true)
    (hn : r._isDeclarative = false) (hrun : stepRunning r dt = false) :
    r.step dt =
      ({ r with
          _time := stepTime r dt
          _lastPosition := some (stepPosition r dt)
          _lastTime := stepTime r dt
          done := !justFinished r dt && ge (stepTime r dt) r.duration
          _reseted := false },
        (if justStarted r dt then [Event.start] else [])
          ++ (if justFinished r dt then [Event.finished] else [])) := by
  simp only [stepRunning, stepPosition, stepTime, he, hn] at hrun
  simp only [step, he, hn, hrun, Bool.not_true, Bool.false_eq_true, if_false, Bool.or_false,
    Bool.and_false, Bool.not_false, Bool.true_and, List.append_nil, justStarted, justFinished,
    stepTime, stepPosition]
  rfl

/-- A step of an enabled runner that is not declarative and running: the initialisation pass,
the run pass at the new position, and the `step` notification. -/
theorem step_running (r : Runner σ) (dt : Option JSNum) (he : r.enabled = true)
    (hn : r._isDeclarative = false) (hrun : stepRunning r dt = true) :
    r.step dt =
      ({ r with
          _time := stepTime r dt
          _lastPosition := some (stepPosition r dt)
          _lastTime := stepTime r dt
          done := !justFinished r dt && ge (stepTime r dt) r.duration
          _reseted := false
          _queue := (runLoop (stepPosition r dt) true 0
            (initialiseLoop false true 0 r._queue ⟨r.transforms, r.env⟩).1
            ⟨Matrix.identity, (initialiseLoop false true 0 r._queue
              ⟨r.transforms, r.env⟩).2.1.env⟩).1
          transforms := (runLoop (stepPosition r dt) true 0
            (initialiseLoop false true 0 r._queue ⟨r.transforms, r.env⟩).1
            ⟨Matrix.identity, (initialiseLoop false true 0 r._queue
              ⟨r.transforms, r.env⟩).2.1.env⟩).2.1.transforms
          env := (runLoop (stepPosition r dt) true 0
            (initialiseLoop false true 0 r._queue ⟨r.transforms, r.env⟩).1
            ⟨Matrix.identity, (initialiseLoop false true 0 r._queue
              ⟨r.transforms, r.env⟩).2.1.env⟩).2.1.env },
        (if justStarted r dt then [Event.start] else [])
          ++ ((initialiseLoop false true 0 r._queue ⟨r.transforms, r.env⟩).2.2
            ++ (runLoop (stepPosition r dt) true 0
              (initialiseLoop false true 0 r._queue ⟨r.transforms, r.env⟩).1
              ⟨Matrix.identity, (initialiseLoop false true 0 r._queue
                ⟨r.transforms, r.env⟩).2.1.env⟩).2.2.2
            ++ [Event.step])
          ++ (if justFinished r dt then [Event.finished] else [])) := by
  simp only [stepRunning, stepPosition, stepTime, he, hn] at hrun
  simp only [step, he, hn, hrun, Bool.not_true, Bool.false_eq_true, if_false, Bool.or_false,
    Bool.and_false, Bool.not_false, Bool.true_and, justStarted, justFinished,
    stepTime, stepPosition, if_true, _initialise, _run]
  rfl

/-- The getter reads only the time and the looping parameters. -/
theorem position_congr (a b : Runner σ) (h1 : a._time = b._time)
    (h2 : a._duration = b._duration) (h3 : a._wait = b._wait) (h4 : a._times = b._times)
    (h5 : a._swing = b._swing) (h6 : a._reverse = b._reverse) : a.position = b.position := by
  simp only [position, h1, h2, h3, h4, h5, h6]

/-- C3, the failing input: a plain runner of base duration `1e12` (wait 0, times 1, no swing,
no reverse) after `finish ()`.  The time is `Infinity`, at or after the end time `1e12`, and
the getter returns `0`, not the terminal value `1` of the forward cycle: `1e12 - 1e-5` rounds
to `1e12`, so the end branch evaluates `f (endTime)`, the start of a cycle that is not played. -/
theorem position_at_end_large :
    ((create 0 (fin (10 ^ 12)) () : Runner Unit).finish.1._time = pinf)
    ∧ (ge (create 0 (fin (10 ^ 12)) () : Runner Unit).finish.1._time
        (create 0 (fin (10 ^ 12)) () : Runner Unit).finish.1.duration = true)
    ∧ ((create 0 (fin (10 ^ 12)) () : Runner Unit).finish.1.position = fin 0)
    ∧ ((create 0 (fin (10 ^ 12)) () : Runner Unit).finish.1.position
        ≠ fin (if xor ((create 0 (fin (10 ^ 12)) () : Runner Unit).finish.1._swing
            && decide (1 % 2 = 0)) (create 0 (fin (10 ^ 12)) () : Runner Unit).finish.1._reverse
          then 0 else 1)) := by
  obtain ⟨f1, -, -, -, f5, f6, f7, f8, f9, -, -, -⟩ :=
    step_enabled_fields (create 0 (fin (10 ^ 12)) () : Runner Unit) (some pinf) rfl
  have hT : (create 0 (fin (10 ^ 12)) () : Runner Unit).finish.1._time = pinf := by
    rw [finish, f1]
    rfl
  have hP : (create 0 (fin (10 ^ 12)) () : Runner Unit).finish.1.position = fin 0 := by
    have hc : (create 0 (fin (10 ^ 12)) () : Runner Unit).finish.1.position
        = ({ create 0 (fin (10 ^ 12)) () with _time := pinf } : Runner Unit).position :=
      position_congr _ _ hT f5 f6 f7 f8 f9
    have hF := positionF_cycle false false 0 (10 ^ 12) 0 1 (by norm_num) le_rfl (by norm_num)
      le_rfl (by norm_num)
    have e1 : ((1 : ℤ) : ℚ) * (0 + 10 ^ 12) + 0 = 10 ^ 12 := by norm_num
    have e2 : (1 : ℚ) * (0 + 10 ^ 12) - 0 = 10 ^ 12 := by norm_num
    rw [e1] at hF
    rw [hc]
    simp only [position, create, add_fin, mul_fin, sub_fin, e2, epsilon, subDouble_fin,
      roundDouble_absorbs, hF]
    simp [JSNum.le, JSNum.lt, backwardsAt, JSNum.round]
    norm_num
  refine ⟨hT, ?_, hP, ?_⟩
  · rw [hT, finish, step_duration]
    simp [duration, create, ge, JSNum.le]
  · rw [hP, finish, f8, f9]
    simp [create]

/-- Zero steps away from the failing input of C10: for an enabled runner that is not
declarative, when the position read at the first `step (0)` is not `NaN`, the second
`step (0)` fires nothing, calls nothing and leaves the queue as it is. -/
theorem step_zero_twice_quiet (r : Runner σ) (he : r.enabled = true)
    (hn : r._isDeclarative = false) (hp : stepPosition r (some (fin 0)) ≠ nan) :
    ((r.step (some (fin 0))).1.step (some (fin 0))).2 = []
    ∧ ((r.step (some (fin 0))).1.step (some (fin 0))).1._queue
        = (r.step (some (fin 0))).1._queue := by
  have f := step_enabled_fields r (some (fin 0)) he
  obtain ⟨f1, f2, f3, -, f5, f6, f7, f8, f9, f10, f11, -⟩ := f
  have hT : stepTime (r.step (some (fin 0))).1 (some (fin 0)) = (r.step (some (fin 0))).1._time := by
    simp only [stepTime, Option.getD_some, add_zero_right]
  have hP : stepPosition (r.step (some (fin 0))).1 (some (fin 0))
      = stepPosition r (some (fin 0)) := by
    unfold stepPosition
    apply position_congr
    · show stepTime (r.step (some (fin 0))).1 (some (fin 0)) = stepTime r (some (fin 0))
      rw [hT, f1]
      rfl
    · exact f5
    · exact f6
    · exact f7
    · exact f8
    · exact f9
  have hrun : stepRunning (r.step (some (fin 0))).1 (some (fin 0)) = false := by
    have h3 : (r.step (some (fin 0))).1._lastPosition = some (stepPosition r (some (fin 0))) := f3
    rw [stepRunning, hP, h3, strictNe_self _ hp, Bool.false_and]
  have hs : justStarted (r.step (some (fin 0))).1 (some (fin 0)) = false := by
    rw [justStarted, hT, f2, f1, gt]
    exact le_and_lt_false _ _
  have hf : justFinished (r.step (some (fin 0))).1 (some (fin 0)) = false := by
    rw [justFinished, hT, f2, f1, ge, Bool.and_comm]
    exact le_and_lt_false _ _
  rw [step_idle _ _ f11 (f10.trans hn) hrun, hs, hf]
  exact ⟨rfl, rfl⟩

/-- C10, the failing input: the endless runner with one queued entry, after `finish ()` and a
first `step (0)`, is enabled, not declarative and of base duration 1000; a second `step (0)`
calls the entry's step function with `NaN` and fires `step` again.  The position is `NaN`
there and `NaN !== NaN`, so the runner counts as running on every step. -/
theorem step_zero_refires :
    ((endlessQueued.finish.1.step (some (fin 0))).1.enabled = true)
    ∧ ((endlessQueued.finish.1.step (some (fin 0))).1._isDeclarative = false)
    ∧ ((endlessQueued.finish.1.step (some (fin 0))).1._duration = fin 1000)
    ∧ (((endlessQueued.finish.1.step (some (fin 0))).1.step (some (fin 0))).2
        = [Event.runner 0 nan, Event.step]) := by
  have hpos : ∀ r : Runner Unit, r._time = pinf → r._times = pinf → r._wait = fin 0 →
      r._duration = fin 1000 → r._swing = false → r._reverse = false → r.position = nan := by
    intro r h1 h2 h3 h4 h5 h6
    simp [position, positionF, h1, h2, h3, h4, h5, h6, JSNum.le, JSNum.lt, JSNum.mul,
      JSNum.add, JSNum.sub, JSNum.subDouble, JSNum.neg, infTimes, JSNum.mod, JSNum.div,
      JSNum.floor, JSNum.min, JSNum.max, JSNum.round, epsilon, ofBool, truthy, powNegOne]
  have hfinish : endlessQueued.finish.1 = endlessStuck false := by
    have hp : stepPosition endlessQueued (some pinf) = nan :=
      hpos _ rfl rfl rfl rfl rfl rfl
    have hrun : stepRunning endlessQueued (some pinf) = true := by
      simp [stepRunning, hp, strictNe, endlessQueued, create, stepTime, JSNum.add, ge, JSNum.le]
    rw [finish, step_running _ _ rfl rfl hrun, hp]
    simp [endlessStuck, endlessQueued, create, stepTime, justFinished, duration, JSNum.add,
      JSNum.sub, JSNum.mul, JSNum.neg, infTimes, ge, JSNum.le, JSNum.lt, initialiseLoop, runLoop,
      neverConverged]
  have hzero : ∀ b : Bool, (endlessStuck b).step (some (fin 0))
      = (endlessStuck true, [Event.runner 0 nan, Event.step]) := by
    intro b
    have hp : stepPosition (endlessStuck b) (some (fin 0)) = nan :=
      hpos _ rfl rfl rfl rfl rfl rfl
    have hrun : stepRunning (endlessStuck b) (some (fin 0)) = true := by
      simp [stepRunning, hp, strictNe, endlessStuck, stepTime, JSNum.add, ge, JSNum.le]
    rw [step_running _ _ rfl rfl hrun, hp]
    simp [endlessStuck, endlessQueued, create, stepTime, justFinished, justStarted, duration,
      JSNum.add, JSNum.sub, JSNum.mul, JSNum.neg, infTimes, ge, gt, JSNum.le, JSNum.lt,
      initialiseLoop, runLoop, neverConverged]
  rw [hfinish, hzero false, hzero true]
  exact ⟨rfl, rfl, rfl, rfl⟩

/-! ## Re-entry: zero steps and reset -/

/-- What a `step (0)` does to an enabled runner that is not declarative and was left by a step
whose position was not `NaN`: nothing is fired or called, and only `done` is written, with
`time >= duration ()`. -/
theorem step_zero_after_step (r : Runner σ) (dt : Option JSNum) (he : r.enabled = true)
    (hn : r._isDeclarative = false) (hp : stepPosition r dt ≠ nan) :
    (r.step dt).1.step (some (fin 0))
      = ({ (r.step dt).1 with done := ge (r.step dt).1._time r.duration }, []) := by
  obtain ⟨f1, f2, f3, f4, f5, f6, f7, f8, f9, f10, f11, -⟩ := step_enabled_fields r dt he
  have hT : stepTime (r.step dt).1 (some (fin 0)) = (r.step dt).1._time := by
    simp only [stepTime, Option.getD_some, add_zero_right]
  have hP : stepPosition (r.step dt).1 (some (fin 0)) = stepPosition r dt := by
    unfold stepPosition
    apply position_congr
    · show stepTime (r.step dt).1 (some (fin 0)) = stepTime r dt
      rw [hT, f1]
      rfl
    · exact f5
    · exact f6
    · exact f7
    · exact f8
    · exact f9
  have hrun : stepRunning (r.step dt).1 (some (fin 0)) = false := by
    have h3 : (r.step dt).1._lastPosition = some (stepPosition r dt) := f3
    rw [stepRunning, hP, h3, strictNe_self _ hp, Bool.false_and]
  have hs : justStarted (r.step dt).1 (some (fin 0)) = false := by
    rw [justStarted, hT, f2, f1, gt]
    exact le_and_lt_false _ _
  have hf : justFinished (r.step dt).1 (some (fin 0)) = false := by
    rw [justFinished, hT, f2, f1, ge, Bool.and_comm]
    exact le_and_lt_false _ _
  rw [step_idle _ _ f11 (f10.trans hn) hrun, hs, hf, hT, hP, step_duration]
  simp only [Bool.not_false, Bool.true_and, Bool.false_eq_true, if_false, List.append_nil]
  congr 1
  have e3 : (r.step dt).1._lastPosition = some (stepPosition r dt) := f3
  have e2 : (r.step dt).1._lastTime = (r.step dt).1._time := f2.trans f1.symm
  rw [← e3, ← f4]
  nth_rewrite 3 [← e2]
  rfl

/-- A position in `[0, 1]` is not `NaN`. -/
theorem ne_nan_of_unit (p : JSNum) (h : ∃ q, p = fin q ∧ 0 ≤ q ∧ q ≤ 1) : p ≠ nan := by
  obtain ⟨q, rfl, -, -⟩ := h
  exact fun h => JSNum.noConfusion h

/-- The position a fresh runner of finite positive duration reads at its first step. -/
theorem stepPosition_create_ne_nan (d : ℚ) (hd : 0 < d) (dt : Option JSNum) :
    stepPosition (create 0 (fin d) () : Runner Unit) dt ≠ nan :=
  ne_nan_of_unit _ (position_unit _ d 0 rfl rfl hd le_rfl (by simp [create, ge])
    (fun h => by simp [create] at h))

/-- C11, as stated, fails: `finish ()` on a fresh runner of duration 1000 leaves `done` false
(the step that crosses the end), and the `step (0)` that follows sets `done` to true. -/
theorem step_zero_sets_done :
    ((create 0 (fin 1000) () : Runner Unit).finish.1.done = false)
    ∧ (((create 0 (fin 1000) () : Runner Unit).finish.1.step (some (fin 0))).1.done = true) := by
  have hp := stepPosition_create_ne_nan 1000 (by norm_num) (some pinf)
  constructor
  · rw [finish, step_done_of_not_declarative _ _ rfl rfl]
    simp [create, duration, ge]
  · rw [finish, step_zero_after_step _ _ rfl rfl hp]
    have f := step_enabled_fields (create 0 (fin 1000) () : Runner Unit) (some pinf) rfl
    show ge ((create 0 (fin 1000) () : Runner Unit).step (some pinf)).1._time
      (create 0 (fin 1000) () : Runner Unit).duration = true
    rw [f.1]
    simp [create, duration, ge, JSNum.add, JSNum.le]

/-- The state a step leaves an enabled runner in: enabled, in the same mode, `_lastTime` the
time, `_lastPosition` the position the getter returns (the one the step read), and the reset
flag false. -/
theorem step_leaves_settled (r : Runner σ) (dt : Option JSNum) (he : r.enabled = true) :
    (r.step dt).1.enabled = true
    ∧ (r.step dt).1._isDeclarative = r._isDeclarative
    ∧ (r.step dt).1._lastTime = (r.step dt).1._time
    ∧ (r.step dt).1._lastPosition = some (r.step dt).1.position
    ∧ (r.step dt).1.position = stepPosition r dt
    ∧ (r.step dt).1._reseted = false := by
  obtain ⟨f1, f2, f3, f4, f5, f6, f7, f8, f9, f10, f11, -⟩ := step_enabled_fields r dt he
  have hP : (r.step dt).1.position = stepPosition r dt := by
    unfold stepPosition
    exact position_congr _ _ f1 f5 f6 f7 f8 f9
  refine ⟨f11, f10, f2.trans f1.symm, ?_, hP, f4⟩
  rw [hP]
  exact f3

/-- What a `step (0)` does to an enabled runner that is not declarative, in a state where
`_lastTime` is the time, `_lastPosition` is the position the getter returns, not `NaN`, and
the reset flag is false: nothing is fired or called, and only `done` is written, with
`time >= duration ()`. -/
theorem step_zero_settled (r : Runner σ) (he : r.enabled = true)
    (hn : r._isDeclarative = false) (hlt : r._lastTime = r._time)
    (hlp : r._lastPosition = some r.position) (hp : r.position ≠ nan)
    (hr : r._reseted = false) :
    r.step (some (fin 0)) = ({ r with done := ge r._time r.duration }, []) := by
  have hT : stepTime r (some (fin 0)) = r._time := by
    simp only [stepTime, Option.getD_some, add_zero_right]
  have hP : stepPosition r (some (fin 0)) = r.position := by
    unfold stepPosition
    exact position_congr _ _ hT rfl rfl rfl rfl rfl
  have hrun : stepRunning r (some (fin 0)) = false := by
    rw [stepRunning, hP, hlp, strictNe_self _ hp, Bool.false_and]
  have hs : justStarted r (some (fin 0)) = false := by
    rw [justStarted, hT, hlt, gt]
    exact le_and_lt_false _ _
  have hf : justFinished r (some (fin 0)) = false := by
    rw [justFinished, hT, hlt, ge, Bool.and_comm]
    exact le_and_lt_false _ _
  rw [step_idle _ _ he hn hrun, hs, hf, hT, hP]
  simp only [Bool.not_false, Bool.true_and, Bool.false_eq_true, if_false, List.append_nil]
  congr 1
  rw [← hlp, ← hr]
  nth_rewrite 3 [← hlt]
  rfl

/-- After `reset ()` a `step (0)` is not a no-op, on any enabled runner: `reset ()` leaves
the reset flag true and the `step (0)` that follows sets it to false. -/
theorem step_zero_after_reset (r : Runner σ) (he : r.enabled = true) :
    r.reset.1._reseted = true ∧ (r.reset.1.step (some (fin 0))).1._reseted = false := by
  have h1 : r.reset.1._reseted = true := by
    cases hr : r._reseted
    · simp [reset, hr]
    · simp [reset, hr]
  have h2 : r.reset.1.enabled = true := by
    cases hr : r._reseted
    · simp only [reset, hr, Bool.false_eq_true, if_false]
      exact (step_enabled_fields r _ he).2.2.2.2.2.2.2.2.2.2.1
    · simpa [reset, hr] using he
  exact ⟨h1, (step_enabled_fields _ _ h2).2.2.2.1⟩

/-- After `reverse ()` a `step (0)` is not a no-op: a fresh runner of duration 1000 is stepped
(to time 16, position 2/125), then reversed; the position the getter returns is now 123/125,
not `_lastPosition`, and the `step (0)` that follows works the queue and fires `step`. -/
theorem step_zero_after_reverse :
    ((((create 0 (fin 1000) () : Runner Unit).step none).1.reverse none).step
      (some (fin 0))).2 = [Event.step] := by
  obtain ⟨f1, f2, f3, -, f5, f6, f7, f8, f9, f10, f11, -⟩ :=
    step_enabled_fields (create 0 (fin 1000) () : Runner Unit) none rfl
  have hq : ((create 0 (fin 1000) () : Runner Unit).step none).1._queue = [] := by
    have hrun0 : stepRunning (create 0 (fin 1000) () : Runner Unit) none = true := by
      simp [stepRunning, create, strictNe, stepTime, ge, JSNum.le]
    rw [step_running _ _ rfl rfl hrun0]
    rfl
  have hpos : ∀ b : Bool, ({ create 0 (fin 1000) () with _time := fin 16, _reverse := b } :
      Runner Unit).position = fin (if b then 123 / 125 else 2 / 125) := by
    intro b
    have hF := positionF_cycle false b 0 1000 16 0 (by norm_num) le_rfl le_rfl (by norm_num)
      (by norm_num)
    simp only [Int.cast_zero, zero_mul, zero_add] at hF
    simp only [position, create, add_fin, mul_fin, sub_fin, le_fin, lt_fin, hF]
    cases b <;> norm_num [backwardsAt]
  have hposT := hpos true
  have hposF := hpos false
  simp only [if_true, Bool.false_eq_true, if_false] at hposT hposF
  have hT : stepTime (((create 0 (fin 1000) () : Runner Unit).step none).1.reverse none)
      (some (fin 0)) = fin 16 := by
    simp only [stepTime, reverse, Option.getD_some, add_zero_right, f1]
    simp [create]
  have hP : stepPosition (((create 0 (fin 1000) () : Runner Unit).step none).1.reverse none)
      (some (fin 0)) = fin (123 / 125) := by
    rw [← hposT]
    unfold stepPosition
    apply position_congr
    · exact hT
    · exact f5
    · exact f6
    · exact f7
    · exact f8
    · simp only [reverse, Option.getD_none, f9]
      rfl
  have hL : (((create 0 (fin 1000) () : Runner Unit).step none).1.reverse none)._lastPosition
      = some (fin (2 / 125)) := by
    rw [← hposF]
    exact f3.trans (congrArg some (position_congr _ _ (by simp [create]) rfl rfl rfl rfl rfl))
  have hrun : stepRunning (((create 0 (fin 1000) () : Runner Unit).step none).1.reverse none)
      (some (fin 0)) = true := by
    rw [stepRunning, hP, hL, hT]
    norm_num [strictNe, ge, JSNum.le]
  have hlast : (((create 0 (fin 1000) () : Runner Unit).step none).1.reverse none)._lastTime
      = fin 16 := by
    simp only [reverse, f2]
    simp [create]
  have hs : justStarted (((create 0 (fin 1000) () : Runner Unit).step none).1.reverse none)
      (some (fin 0)) = false := by
    rw [justStarted, hT, hlast]
    norm_num [gt, JSNum.le, JSNum.lt]
  have hf : justFinished (((create 0 (fin 1000) () : Runner Unit).step none).1.reverse none)
      (some (fin 0)) = false := by
    have hd : (((create 0 (fin 1000) () : Runner Unit).step none).1.reverse none).duration
        = fin 1000 := by
      simp only [duration, reverse, f5, f6, f7]
      simp [create]
    rw [justFinished, hT, hlast, hd]
    norm_num [ge, JSNum.le, JSNum.lt]
  rw [step_running _ _
    (show (((create 0 (fin 1000) () : Runner Unit).step none).1.reverse none).enabled = true
      from f11)
    (show (((create 0 (fin 1000) () : Runner Unit).step none).1.reverse none)._isDeclarative
      = false from f10) hrun, hs, hf]
  simp only [reverse, hq, initialiseLoop, runLoop]
  rfl

/-- C11, amended. Stepping by zero: for every enabled runner that is not declarative and is
in the state a step leaves (`_lastTime` is the time, `_lastPosition` is the position the getter
returns, which is not `NaN`, and the reset flag is false: nothing has changed the time, the
looping parameters or the reset flag since the last step), `step (0)` fires and calls nothing
and leaves the time, `_lastTime`, `_lastPosition`, the reset flag, the transforms and the queue
unchanged; it writes `done` with `time >= duration ()`, so the whole state is unchanged when
`done` has that value already, as it has after every step but the one that crossed the end. -/
theorem step_zero_noop (r : Runner σ) (he : r.enabled = true) (hn : r._isDeclarative = false)
    (hlt : r._lastTime = r._time) (hlp : r._lastPosition = some r.position)
    (hp : r.position ≠ nan) (hr : r._reseted = false) :
    ((r.step (some (fin 0))).2 = [])
    ∧ ((r.step (some (fin 0))).1 = { r with done := ge r._time r.duration })
    ∧ (r.done = ge r._time r.duration → r.step (some (fin 0)) = (r, []))
    ∧ (∀ (r0 : Runner σ) (dt : Option JSNum), r = (r0.step dt).1 → r0.enabled = true →
        justFinished r0 dt = false → r.step (some (fin 0)) = (r, [])) := by
  have h := step_zero_settled r he hn hlt hlp hp hr
  have hdone : r.done = ge r._time r.duration → r.step (some (fin 0)) = (r, []) := by
    intro hd
    rw [h, ← hd]
  refine ⟨by rw [h], by rw [h], hdone, fun r0 dt hr0 he0 hjf => hdone ?_⟩
  subst hr0
  have hn0 : r0._isDeclarative = false :=
    ((step_enabled_fields r0 dt he0).2.2.2.2.2.2.2.2.2.1).symm.trans hn
  rw [step_done_of_not_declarative r0 dt he0 hn0, (step_enabled_fields r0 dt he0).1,
    step_duration]
  have hjf2 : (lt r0._lastTime r0.duration && ge (add r0._time (dt.getD (fin 16))) r0.duration)
      = false := hjf
  rw [hjf2, Bool.not_false, Bool.true_and]

/-- Witness of C11 (amended): after a first default step of a fresh runner of duration 1000, a
`step (0)` returns the same state and no event. -/
theorem step_zero_noop_witness :
    ((create 0 (fin 1000) () : Runner Unit).step none).1.step (some (fin 0))
      = (((create 0 (fin 1000) () : Runner Unit).step none).1, []) :=
  (step_zero_noop ((create 0 (fin 1000) () : Runner Unit).step none).1
    (step_leaves_settled _ none rfl).1
    (step_leaves_settled _ none rfl).2.1
    (step_leaves_settled _ none rfl).2.2.1
    (step_leaves_settled _ none rfl).2.2.2.1
    (by
      rw [(step_leaves_settled (create 0 (fin 1000) () : Runner Unit) none rfl).2.2.2.2.1]
      exact stepPosition_create_ne_nan 1000 (by norm_num) none)
    (step_leaves_settled _ none rfl).2.2.2.2.2).2.2.2
    (create 0 (fin 1000) () : Runner Unit) none rfl rfl
    (by norm_num [justFinished, stepTime, duration, create, ge])

/-- C12. `reset` is idempotent: a second `reset ()` right after a first returns the state the
first left and calls nothing, and `reset ()` on a runner whose reset flag is set (a fresh
runner, say) returns it unchanged and calls nothing. -/
theorem reset_idempotent (r : Runner σ) :
    (r.reset.1.reset = (r.reset.1, []))
    ∧ (r._reseted = true → r.reset = (r, [])) := by
  have h2 : ∀ x : Runner σ, x._reseted = true → x.reset = (x, []) := by
    intro x hx
    simp [reset, hx]
  refine ⟨h2 _ ?_, h2 r⟩
  cases hr : r._reseted
  · simp [reset, hr]
  · rw [h2 r hr]
    exact hr

/-- Witness of C12: `reset ()` on a fresh runner. -/
theorem reset_idempotent_witness :
    (create 0 (fin 1000) () : Runner Unit).reset = (create 0 (fin 1000) (), []) :=
  (reset_idempotent (create 0 (fin 1000) () : Runner Unit)).2 rfl

/-! ## The initialisation pass -/

/-- Which initialisers the loop of `_initialise` calls on a runner that is not declarative:
that of an entry neither initialised nor finished, when the loop variable `running` is true on
arrival, that is, for the first entry the argument and for a later one that the entry
directly before it is not finished. -/
theorem initialiseLoop_calls (q : List (QueueEntry σ)) :
    ∀ (b : Bool) (k : Nat) (sc : Scope σ) (j : Nat),
      Event.initialiser j ∈ (initialiseLoop false b k q sc).2.2 ↔
        ∃ i e, j = k + i ∧ q[i]? = some e ∧ e.initialised = false ∧ e.finished = false
          ∧ (if i = 0 then b = true else ∃ p, q[i - 1]? = some p ∧ p.finished = false) := by
  induction q with
  | nil =>
    intro b k sc j
    simp [initialiseLoop]
  | cons c rest ih =>
    intro b k sc j
    have tail : ∀ sc2 : Scope σ,
        Event.initialiser j ∈ (initialiseLoop false (!c.finished) (k + 1) rest sc2).2.2 ↔
          ∃ i e, j = k + (i + 1) ∧ (c :: rest)[i + 1]? = some e ∧ e.initialised = false
            ∧ e.finished = false
            ∧ ∃ p, (c :: rest)[i]? = some p ∧ p.finished = false := by
      intro sc2
      rw [ih]
      constructor
      · rintro ⟨i, e, hj, he, h1, h2, h3⟩
        refine ⟨i, e, by omega, by simpa using he, h1, h2, ?_⟩
        cases i with
        | zero => exact ⟨c, by simp, by simpa using h3⟩
        | succ n => simpa using h3
      · rintro ⟨i, e, hj, he, h1, h2, p, hp, hpf⟩
        refine ⟨i, e, by omega, by simpa using he, h1, h2, ?_⟩
        cases i with
        | zero =>
          simp only [List.getElem?_cons_zero, Option.some.injEq] at hp
          subst hp
          simpa using hpf
        | succ n =>
          have hp2 : rest[n]? = some p := by simpa using hp
          simpa using ⟨p, hp2, hpf⟩
    have split : (∃ i e, j = k + i ∧ (c :: rest)[i]? = some e ∧ e.initialised = false
          ∧ e.finished = false
          ∧ (if i = 0 then b = true else ∃ p, (c :: rest)[i - 1]? = some p ∧ p.finished = false))
        ↔ (j = k ∧ c.initialised = false ∧ c.finished = false ∧ b = true)
          ∨ (∃ i e, j = k + (i + 1) ∧ (c :: rest)[i + 1]? = some e ∧ e.initialised = false
            ∧ e.finished = false ∧ ∃ p, (c :: rest)[i]? = some p ∧ p.finished = false) := by
      constructor
      · rintro ⟨i, e, hj, he, h1, h2, h3⟩
        cases i with
        | zero =>
          simp only [List.getElem?_cons_zero, Option.some.injEq] at he
          subst he
          exact Or.inl ⟨by omega, h1, h2, by simpa using h3⟩
        | succ n => exact Or.inr ⟨n, e, hj, he, h1, h2, by simpa using h3⟩
      · rintro (⟨hj, h1, h2, hb⟩ | ⟨i, e, hj, he, h1, h2, h3⟩)
        · exact ⟨0, c, by omega, by simp, h1, h2, by simpa using hb⟩
        · exact ⟨i + 1, e, hj, he, h1, h2, by simpa using h3⟩
    refine Iff.trans ?_ split.symm
    simp only [initialiseLoop, Bool.false_or]
    split
    · rename_i hcond
      simp only [Bool.and_eq_true, Bool.not_eq_true'] at hcond
      rw [List.mem_cons]
      refine or_congr ?_ (tail _)
      simp only [Event.initialiser.injEq]
      exact ⟨fun h => ⟨h, hcond.1.1, hcond.2, hcond.1.2⟩, fun h => h.1⟩
    · rename_i hcond
      refine Iff.trans (tail sc) ?_
      constructor
      · exact Or.inr
      · rintro (⟨-, h1, h2, hb⟩ | h)
        · exact absurd (by simp [h1, h2, hb]) hcond
        · exact h

/-- The run pass calls step functions only. -/
theorem runLoop_events (arg : JSNum) (q : List (QueueEntry σ)) :
    ∀ (b : Bool) (k : Nat) (sc : Scope σ) (j : Nat),
      Event.initialiser j ∉ (runLoop arg b k q sc).2.2.2 := by
  induction q with
  | nil => intro b k sc j; simp [runLoop]
  | cons c rest ih =>
    intro b k sc j
    simp only [runLoop, List.mem_cons, not_or]
    exact ⟨fun h => Event.noConfusion h, ih _ _ _ _⟩

/-- C15, as stated, fails: on a fresh queue of two entries the initialisation pass of a
runner that is not declarative calls both initialisers, the second one although the first
entry is not finished. -/
theorem initialise_calls_past_unfinished :
    (twoQueued._isDeclarative = false)
    ∧ (∀ e ∈ twoQueued._queue, e.finished = false)
    ∧ ((twoQueued._initialise true).2 = [Event.initialiser 0, Event.initialiser 1]) := by
  refine ⟨rfl, ?_, ?_⟩
  · simp [twoQueued, neverConverged]
  · simp [twoQueued, create, _initialise, initialiseLoop, neverConverged]

/-- C15, amended. The initialisation pass of an enabled runner that is not declarative, as
run by `step`: the initialiser of entry `j` is called exactly when the step is running, the
entry is neither initialised nor finished, and the entry directly before it, if there is one,
is not finished.  It does not wait for the earlier entries to finish: on a fresh queue every
entry is initialised by the first running step. -/
theorem initialise_sequencing (r : Runner σ) (dt : Option JSNum) (he : r.enabled = true)
    (hn : r._isDeclarative = false) (j : Nat) :
    Event.initialiser j ∈ (r.step dt).2 ↔
      stepRunning r dt = true
        ∧ ∃ e, r._queue[j]? = some e ∧ e.initialised = false ∧ e.finished = false
          ∧ (j = 0 ∨ ∃ p, r._queue[j - 1]? = some p ∧ p.finished = false) := by
  have hcalls := initialiseLoop_calls r._queue true 0 ⟨r.transforms, r.env⟩ j
  have hshape : (∃ i e, j = 0 + i ∧ r._queue[i]? = some e ∧ e.initialised = false
        ∧ e.finished = false
        ∧ (if i = 0 then true = true else ∃ p, r._queue[i - 1]? = some p ∧ p.finished = false))
      ↔ ∃ e, r._queue[j]? = some e ∧ e.initialised = false ∧ e.finished = false
          ∧ (j = 0 ∨ ∃ p, r._queue[j - 1]? = some p ∧ p.finished = false) := by
    constructor
    · rintro ⟨i, e, hj, he2, h1, h2, h3⟩
      have hji : j = i := by omega
      subst hji
      refine ⟨e, he2, h1, h2, ?_⟩
      by_cases h0 : j = 0
      · exact Or.inl h0
      · exact Or.inr (by simpa [h0] using h3)
    · rintro ⟨e, he2, h1, h2, h3⟩
      refine ⟨j, e, by omega, he2, h1, h2, ?_⟩
      by_cases h0 : j = 0
      · simp [h0]
      · rcases h3 with h3 | h3
        · exact absurd h3 h0
        · simpa [h0] using h3
  cases hrun : stepRunning r dt
  · rw [step_idle r dt he hn hrun]
    simp only [Bool.false_eq_true, false_and, iff_false, List.mem_append, not_or]
    constructor <;> split <;> simp
  · rw [step_running r dt he hn hrun]
    simp only [List.mem_append, true_and]
    rw [← hshape, ← hcalls]
    constructor
    · rintro ((h | (h | h) | h) | h)
      · split at h <;> simp at h
      · exact h
      · exact absurd h (runLoop_events _ _ _ _ _ _)
      · simp at h
      · split at h <;> simp at h
    · intro h
      exact Or.inl (Or.inr (Or.inl (Or.inl h)))

/-- Witness of C15 (amended): the first default step of the fresh runner with two entries
that never finish calls the second initialiser. -/
theorem initialise_sequencing_witness : Event.initialiser 1 ∈ (twoQueued.step none).2 :=
  (initialise_sequencing twoQueued none rfl rfl 1).mpr
    ⟨by simp [stepRunning, stepTime, twoQueued, create, strictNe, ge],
      ⟨{ neverConverged with key := 1 }, by simp [twoQueued], rfl, rfl,
        Or.inr ⟨neverConverged, by simp [twoQueued], rfl⟩⟩⟩

/-! ## The setters of `loops` and `position` -/

/-- The time an enabled runner has after the time setter, in JavaScript arithmetic. -/
theorem setTime_time (r : Runner σ) (t : JSNum) (he : r.enabled = true) :
    (r.setTime t).1._time = add r._time (sub t r._time) := by
  rw [setTime, (step_enabled_fields r _ he).1, Option.getD_some]

/-- From a finite time the time setter of an enabled runner stores the time it is given. -/
theorem setTime_time_of_finite (r : Runner σ) (x t : ℚ) (he : r.enabled = true)
    (hx : r._time = fin x) : (r.setTime (fin t)).1._time = fin t := by
  rw [setTime_time r _ he, hx, sub_fin, add_fin]
  congr 1
  ring

/-- The getter of `loops` reads only the time and the looping parameters. -/
theorem loops_congr (a b : Runner σ) (h1 : a._time = b._time)
    (h2 : a._duration = b._duration) (h3 : a._wait = b._wait) (h4 : a._times = b._times) :
    a.loops = b.loops := by
  simp only [loops, h1, h2, h3, h4]

/-- `Math.min (a, b)` is `a` when `a <= b`. -/
theorem min_eq_left_of_le (a b : JSNum) (h : le a b = true) : JSNum.min a b = a := by
  cases a with
  | fin x =>
    cases b with
    | fin y =>
      have hxy : x ≤ y := by simpa using h
      simp [JSNum.min, not_lt.mpr hxy]
    | pinf => rfl
    | ninf => simp [JSNum.le] at h
    | nan => simp [JSNum.le] at h
  | pinf => cases b <;> first | rfl | simp [JSNum.le] at h
  | ninf => cases b <;> first | rfl | simp [JSNum.le] at h
  | nan => simp [JSNum.le] at h

/-- The loops round trip away from the failing input of C19: for an enabled runner whose time
is finite, with base duration `d > 0`, wait `w ≥ 0` and `0 ≤ p ≤ times`, `loops (p)` sets the
time to `(d + w) ⌊p⌋ + d (p - ⌊p⌋)` and `loops ()` then returns `p`. -/
theorem loops_roundtrip_of_finite (r : Runner σ) (d w x p : ℚ) (he : r.enabled = true)
    (hd : r._duration = fin d) (hw : r._wait = fin w) (hx : r._time = fin x)
    (hdpos : 0 < d) (hwnn : 0 ≤ w) (hp0 : 0 ≤ p) (hpt : le (fin p) r._times = true) :
    (r.setLoops (fin p)).1._time = fin ((d + w) * ((⌊p⌋ : ℤ) : ℚ) + d * (p - ((⌊p⌋ : ℤ) : ℚ)))
    ∧ (r.setLoops (fin p)).1.loops = fin p := by
  have hc : 0 < d + w := by linarith
  have hmod : mod (fin p) (fin 1) = fin (p - ((⌊p⌋ : ℤ) : ℚ)) := by
    rw [mod_fin_of_nonneg p 1 hp0 one_pos]
    simp
  have hf0 : 0 ≤ p - ((⌊p⌋ : ℤ) : ℚ) := by linarith [Int.floor_le p]
  have hf1 : p - ((⌊p⌋ : ℤ) : ℚ) < 1 := by linarith [Int.lt_floor_add_one p]
  have htime : (r.setLoops (fin p)).1._time
      = fin ((d + w) * ((⌊p⌋ : ℤ) : ℚ) + d * (p - ((⌊p⌋ : ℤ) : ℚ))) := by
    rw [setLoops, hd, hw, hmod, floor_fin, add_fin, mul_fin, mul_fin, add_fin]
    exact setTime_time_of_finite r x _ he hx
  refine ⟨htime, ?_⟩
  have f := step_enabled_fields r
    (some (sub (add (mul (add r._duration r._wait) (floor (fin p)))
      (mul r._duration (mod (fin p) (fin 1)))) r._time)) he
  have hd2 : (r.setLoops (fin p)).1._duration = fin d := f.2.2.2.2.1.trans hd
  have hw2 : (r.setLoops (fin p)).1._wait = fin w := f.2.2.2.2.2.1.trans hw
  have ht2 : (r.setLoops (fin p)).1._times = r._times := f.2.2.2.2.2.2.1
  have hfl : ⌊((d + w) * ((⌊p⌋ : ℤ) : ℚ) + d * (p - ((⌊p⌋ : ℤ) : ℚ))) / (d + w)⌋ = ⌊p⌋ := by
    rw [Int.floor_eq_iff, le_div_iff₀ hc, div_lt_iff₀ hc]
    constructor
    · nlinarith [mul_nonneg hdpos.le hf0]
    · nlinarith [mul_lt_mul_of_pos_left hf1 hdpos]
  have hval : ((⌊p⌋ : ℤ) : ℚ)
      + ((d + w) * ((⌊p⌋ : ℤ) : ℚ) + d * (p - ((⌊p⌋ : ℤ) : ℚ))
          - ((⌊p⌋ : ℤ) : ℚ) * (d + w)) / d = p := by
    have e : (d + w) * ((⌊p⌋ : ℤ) : ℚ) + d * (p - ((⌊p⌋ : ℤ) : ℚ))
        - ((⌊p⌋ : ℤ) : ℚ) * (d + w) = d * (p - ((⌊p⌋ : ℤ) : ℚ)) := by ring
    rw [e, mul_div_cancel_left₀ _ hdpos.ne']
    ring
  rw [loops, htime, hd2, hw2, ht2, add_fin, div_fin _ _ hc.ne', floor_fin, hfl, mul_fin, sub_fin,
    div_fin _ _ hdpos.ne', add_fin, hval]
  exact min_eq_left_of_le _ _ hpt

/-- C19, the failing input: after `finish ()` a fresh runner of duration 1000 is enabled and
at time `Infinity`; `loops (1/2)` then leaves the time `NaN` instead of 500, and `loops ()`
returns `NaN` instead of 1/2.  The time setter steps by `time - this._time`, and
`Infinity + (500 - Infinity)` is `NaN`. -/
theorem loops_after_finish :
    ((create 0 (fin 1000) () : Runner Unit).finish.1.enabled = true)
    ∧ (((create 0 (fin 1000) () : Runner Unit).finish.1.setLoops (fin (1 / 2))).1._time = nan)
    ∧ (((create 0 (fin 1000) () : Runner Unit).finish.1.setLoops (fin (1 / 2))).1.loops = nan) := by
  have f := step_enabled_fields (create 0 (fin 1000) () : Runner Unit) (some pinf) rfl
  have he : (create 0 (fin 1000) () : Runner Unit).finish.1.enabled = true := f.2.2.2.2.2.2.2.2.2.2.1
  have ht : (create 0 (fin 1000) () : Runner Unit).finish.1._time = pinf := by
    rw [finish, f.1]
    rfl
  have hsum : ∀ x : JSNum, add pinf (sub x pinf) = nan := by
    intro x
    cases x <;> rfl
  have hdiv : ∀ x : JSNum, div nan x = nan := by
    intro x
    cases x <;> rfl
  have hmin : ∀ x : JSNum, JSNum.min nan x = nan := by
    intro x
    cases x <;> rfl
  have hfloor : floor nan = nan := rfl
  have htime : ((create 0 (fin 1000) () : Runner Unit).finish.1.setLoops (fin (1 / 2))).1._time
      = nan := by
    rw [setLoops, setTime_time _ _ he, ht]
    exact hsum _
  refine ⟨he, htime, ?_⟩
  rw [loops, htime]
  simp only [hdiv, hfloor, sub, add_nan_left, hmin]

/-- What the position setter followed by the getter returns for an enabled runner at time 0
with one cycle and no wait, for `0 < p < 1`: `p` when exactly one of swing and reverse is set,
and `1 - p` when both or neither are. -/
theorem position_setPosition_at_start (r : Runner σ) (d p : ℚ) (he : r.enabled = true)
    (hd : r._duration = fin d) (hw : r._wait = fin 0) (ht : r._times = fin 1)
    (hx : r._time = fin 0) (hdpos : 0 < d) (hp0 : 0 < p) (hp1 : p < 1) :
    (r.setPosition (fin p)).1.position = fin (if r._swing = r._reverse then 1 - p else p) := by
  have hloops : r.loops = fin 0 := by
    have hd0 : d + 0 ≠ 0 := by simpa using hdpos.ne'
    simp [loops, hd, hw, ht, hx, div_fin _ _ hd0, div_fin _ _ hdpos.ne', min_fin]
  have hmod : mod (fin 0) (fin 2) = fin 0 := by
    simp [JSNum.mod, trunc]
  have hq : ∃ q : ℚ, 0 < q ∧ q < 1 ∧ (r._swing = true → q = p) ∧ (r._swing = false → q = 1 - p)
      ∧ r.setPosition (fin p) = r.setLoops (fin q) := by
    refine ⟨if r._swing then p else 1 - p, ?_, ?_, ?_, ?_, ?_⟩
    · split <;> linarith
    · split <;> linarith
    · intro h; simp [h]
    · intro h; simp [h]
    · simp only [setPosition, hloops, floor_fin, Int.floor_zero, Int.cast_zero, hmod]
      cases r._swing <;> cases r._reverse <;> simp [strictEq]
  obtain ⟨q, hq0, hq1, hqs, hqn, hset⟩ := hq
  have hfloor : ⌊q⌋ = 0 := by
    rw [Int.floor_eq_iff]
    constructor <;> simp <;> linarith
  have htime : (r.setLoops (fin q)).1._time = fin (d * q) := by
    rw [(loops_roundtrip_of_finite r d 0 0 q he hd hw hx hdpos le_rfl hq0.le
      (by simpa [ht] using hq1.le)).1, hfloor]
    congr 1
    simp
  have f := step_enabled_fields r
    (some (sub (add (mul (add r._duration r._wait) (floor (fin q)))
      (mul r._duration (mod (fin q) (fin 1)))) r._time)) he
  have hd2 : (r.setLoops (fin q)).1._duration = fin d := f.2.2.2.2.1.trans hd
  have hw2 : (r.setLoops (fin q)).1._wait = fin 0 := f.2.2.2.2.2.1.trans hw
  have ht2 : (r.setLoops (fin q)).1._times = fin 1 := f.2.2.2.2.2.2.1.trans ht
  have hs2 : (r.setLoops (fin q)).1._swing = r._swing := f.2.2.2.2.2.2.2.1
  have hr2 : (r.setLoops (fin q)).1._reverse = r._reverse := f.2.2.2.2.2.2.2.2.1
  have hdq0 : 0 < d * q := mul_pos hdpos hq0
  have hdq1 : d * q < d := by nlinarith
  have hF := positionF_cycle r._swing r._reverse 0 d (d * q) 0 hdpos le_rfl le_rfl hdq0.le
    (by linarith)
  simp only [Int.cast_zero, zero_mul, zero_add, mul_div_cancel_left₀ _ hdpos.ne'] at hF
  have hb : backwardsAt r._swing r._reverse 0 = r._reverse := by
    simp [backwardsAt]
  rw [hset, position, htime, hd2, hw2, ht2, hs2, hr2]
  have h0 : ¬ d * q ≤ 0 := not_le.mpr hdq0
  simp only [le_fin, h0, decide_False, Bool.false_eq_true, if_false, add_fin, mul_fin, sub_fin,
    lt_fin, zero_add, one_mul, sub_zero, hdq1, decide_True, if_true, hF, hb]
  congr 1
  cases hs : r._swing <;> cases hr : r._reverse <;> simp [hs, hr] at hqs hqn ⊢
  · rw [min_eq_left hq1.le, hqn]
  · rw [max_eq_left (by linarith), hqn]; ring
  · rw [min_eq_left hq1.le, hqs]
  · rw [max_eq_left (by linarith), hqs]

/-- C20, the failing input: on a fresh plain runner of duration 1000 (time 0, times 1, wait 0,
no swing, no reverse) `position (1/4)` followed by `position ()` returns `3/4`, not `1/4`.
The setter takes `forwards = (swingForward && !r) || (r && swingForward)`, which is false
whenever swing is off, and so stores `1 - p`. -/
theorem position_setter_not_inverse :
    ((create 0 (fin 1000) () : Runner Unit).setPosition (fin (1 / 4))).1.position
      = fin (3 / 4) := by
  rw [position_setPosition_at_start (create 0 (fin 1000) () : Runner Unit) 1000 (1 / 4)
    rfl rfl rfl rfl rfl (by norm_num) (by norm_num) (by norm_num)]
  norm_num [create]

/-! ## Scheduling -/

/-- C18. `schedule` fails fast without a timeline: it throws exactly when the first argument
is not a `Timeline` and the runner has none of its own, and the runner is then in the state it
was in; otherwise it throws nothing, calls the `schedule` of the timeline (the one passed,
else its own) once with this runner and the delay and `when` it was given, and returns the
runner. -/
theorem schedule_fails_fast (r : Runner σ) (timeline : Timeline ⊕ Value) (delay when : Value) :
    ((∃ e, r.schedule timeline delay when = Except.error e)
        ↔ ((∃ v, timeline = Sum.inr v) ∧ r._timeline = none))
    ∧ (∀ v, ({ r with _timeline := none } : Runner σ).schedule (Sum.inr v) delay when
        = Except.error ("Runner cannot be scheduled without timeline",
            { r with _timeline := none }))
    ∧ (∀ t, r.schedule (Sum.inl t) delay when
        = Except.ok (r, [Event.schedule t r.id delay when]))
    ∧ (∀ v t, ({ r with _timeline := some t } : Runner σ).schedule (Sum.inr v) delay when
        = Except.ok ({ r with _timeline := some t }, [Event.schedule t r.id v delay])) := by
  refine ⟨?_, fun _ => rfl, fun _ => rfl, fun _ _ => rfl⟩
  cases timeline with
  | inl t => simp [schedule]
  | inr v =>
    cases h : r._timeline with
    | none => simp [schedule, h]
    | some t => simp [schedule, h]

end Runner

/-! ## Arrays -/

/-- The index `indexOf` finds: that of the first element passing the test. -/
theorem indexOf_append_cons {α : Type} (pre post : List α) (e : α) (p : α → Bool)
    (hpre : ∀ x ∈ pre, p x = false) (he : p e = true) :
    indexOf (pre ++ e :: post) p = (pre.length : Int) := by
  simp [indexOf, List.findIdx?_append, List.findIdx?_eq_none_iff.mpr hpre, he]

/-- When no element passes the test `indexOf` returns `-1`. -/
theorem indexOf_of_absent {α : Type} (l : List α) (p : α → Bool)
    (h : ∀ x ∈ l, p x = false) : indexOf l p = -1 := by
  simp [indexOf, List.findIdx?_eq_none_iff.mpr h]

/-- Replacing the one element at an index of the array. -/
theorem splice_one_at {α : Type} (pre post items : List α) (e : α) :
    splice (pre ++ e :: post) (pre.length : Int) 1 items = (pre ++ items ++ post, [e]) := by
  have h1 : ¬ ((pre.length : Int) < 0) := by omega
  simp [splice, h1]

/-- With start `-1` the element replaced is the last one. -/
theorem splice_one_at_minus_one {α : Type} (l items : List α) (x : α) :
    splice (l ++ [x]) (-1) 1 items = (l ++ items, [x]) := by
  have h : ((((l ++ [x]).length : Nat) : Int) + -1).toNat = l.length := by
    simp
  simp only [splice, h]
  simp

/-- Replacing the first `k` elements of the array. -/
theorem splice_first {α : Type} (l items : List α) (k : Nat) :
    splice l 0 (k : Int) items = (items ++ l.drop k, l.take k) := by
  simp only [splice, lt_self_iff_false, if_false, Int.toNat_zero, Nat.zero_le, min_eq_left,
    List.take_zero, List.nil_append, Nat.sub_zero, Int.toNat_ofNat, Nat.zero_add, List.drop_zero]
  rcases Nat.le_total k l.length with h | h
  · rw [min_eq_left h]
  · rw [min_eq_right h, List.drop_of_length_le h, List.drop_of_length_le le_rfl,
      List.take_of_length_le h, List.take_of_length_le le_rfl]

namespace Runner

variable {σ : Type}

/-! ## Retargeting -/

/-- The entry object a key refers to, when it is in the queue. -/
theorem entryOf_of_mem_queue (r : Runner σ) (key : Nat) (pre post : List (QueueEntry σ))
    (e : QueueEntry σ) (hq : r._queue = pre ++ e :: post) (hpre : ∀ x ∈ pre, x.key ≠ key)
    (hk : e.key = key) : r.entryOf key = some e := by
  have h1 : pre.find? (fun x => x.key == key) = none := by
    rw [List.find?_eq_none]
    intro x hx
    simpa using hpre x hx
  simp [entryOf, hq, List.find?_append, h1, hk]

/-- What `_tryRetarget` does when the property has a history entry whose caller is in the
queue and was never initialised: it takes exactly that entry out of the queue, fires nothing
and returns `false`. -/
theorem _tryRetarget_of_uninitialised (r : Runner σ) (method : String) (target extra : Value)
    (h : HistoryEntry σ) (key : Nat) (pre post : List (QueueEntry σ)) (e : QueueEntry σ)
    (hh : r._history.lookup method = some h) (hc : h.caller = some key)
    (hq : r._queue = pre ++ e :: post) (hpre : ∀ x ∈ pre, x.key ≠ key) (hk : e.key = key)
    (hi : e.initialised = false) :
    r._tryRetarget method target extra
      = Except.ok ({ r with _queue := pre ++ post, detached := r.detached ++ [e] }, false, []) := by
  have hidx : indexOf r._queue (fun x => x.key == e.key) = (pre.length : Int) := by
    rw [hq]
    apply indexOf_append_cons
    · intro x hx
      simpa [hk] using hpre x hx
    · simp
  have hsp : splice r._queue (pre.length : Int) 1 [] = (pre ++ post, [e]) := by
    rw [hq, splice_one_at]
    simp
  simp only [_tryRetarget, hh, hc, Option.some_bind, entryOf_of_mem_queue r key pre post e hq hpre hk,
    hi, Bool.not_false, if_true, hidx, hsp]

/-- What `_tryRetarget` does when the property has a history entry whose caller is in the
queue and was initialised: no entry is added or removed, the caller is marked unfinished, the
timeline, if any, is told to play, `done` is left alone, and `true` is returned. -/
theorem _tryRetarget_of_initialised (r : Runner σ) (method : String) (target extra : Value)
    (h : HistoryEntry σ) (key : Nat) (pre post : List (QueueEntry σ)) (e : QueueEntry σ)
    (hh : r._history.lookup method = some h) (hc : h.caller = some key)
    (hq : r._queue = pre ++ e :: post) (hpre : ∀ x ∈ pre, x.key ≠ key) (hk : e.key = key)
    (hi : e.initialised = true) :
    ∃ r2 : Runner σ, r._tryRetarget method target extra
        = Except.ok (r2, true, r.callTimeline Event.play)
      ∧ r2._queue = setFinished key false r._queue
      ∧ r2.done = r.done := by
  simp only [_tryRetarget, hh, hc, Option.some_bind, entryOf_of_mem_queue r key pre post e hq hpre hk,
    hi, Bool.not_true, Bool.false_eq_true, if_false, hk]
  exact ⟨_, rfl, rfl, rfl⟩

/-- Without a history entry `_tryRetarget` returns `false` and changes nothing. -/
theorem _tryRetarget_of_no_history (r : Runner σ) (method : String) (target extra : Value)
    (hh : r._history.lookup method = none) :
    r._tryRetarget method target extra = Except.ok (r, false, []) := by
  simp only [_tryRetarget, hh]

/-- The entry `caller.finished = false` writes to, in the queue. -/
theorem setFinished_at (key : Nat) (pre post : List (QueueEntry σ)) (e : QueueEntry σ)
    (hk : e.key = key) :
    (setFinished key false (pre ++ e :: post))[pre.length]? = some { e with finished := false } := by
  unfold setFinished
  rw [List.map_append, List.map_cons, List.getElem?_append_right (by simp)]
  simp [hk]

/-- C13, as stated, fails: on the finished runner with `x` queued, calling the setter of `x`
again adds no entry, marks the entry unfinished and tells the timeline to play, but `done`
is still true afterwards. -/
theorem retarget_keeps_done :
    finishedWithX.done = true
    ∧ ∃ r2 : Runner Unit,
        finishedWithX._queueObject "x" (Value.number (fin 5)) idleMorpher
          = Except.ok (r2, [Event.play])
        ∧ r2._queue.map (fun e => e.finished) = [false]
        ∧ r2.done = true := by
  refine ⟨rfl, ?_⟩
  obtain ⟨r2, h1, h2, h3⟩ := _tryRetarget_of_initialised finishedWithX "x"
    (Value.number (fin 5)) Value.undefined ⟨idleMorpher, some 1⟩ 1 []
    [] { alwaysConverged with initialised := true, finished := true, key := 1 }
    rfl rfl rfl (by simp) rfl rfl
  refine ⟨r2, ?_, ?_, h3⟩
  · simp only [_queueObject, h1]
    rfl
  · rw [h2]
    rfl

/-- C13, amended. Retarget of a finished animation: for every runner, declarative or not, on
which a property was queued (its history entry refers to an entry of the queue) and whose
entry has been initialised, calling the same property setter again with a new target adds no
queue entry, sets that entry's `finished` flag to false, invokes the timeline's `play` when a
timeline is attached, and leaves the runner's `done` flag as it is (true stays true). -/
theorem retarget_finished (r : Runner σ) (method : String) (target : Value)
    (morpher : Morpher σ) (h : HistoryEntry σ) (key : Nat) (pre post : List (QueueEntry σ))
    (e : QueueEntry σ) (hh : r._history.lookup method = some h) (hc : h.caller = some key)
    (hq : r._queue = pre ++ e :: post) (hpre : ∀ x ∈ pre, x.key ≠ key) (hk : e.key = key)
    (hi : e.initialised = true) :
    ∃ r2 : Runner σ,
      r._queueObject method target morpher = Except.ok (r2, r.callTimeline Event.play)
      ∧ r2._queue.length = r._queue.length
      ∧ r2._queue = setFinished key false r._queue
      ∧ r2._queue[pre.length]? = some { e with finished := false }
      ∧ r2.done = r.done
      ∧ (r._timeline ≠ none → r.callTimeline Event.play = [Event.play]) := by
  obtain ⟨r2, h1, h2, h3⟩ := _tryRetarget_of_initialised r method target Value.undefined h key
    pre post e hh hc hq hpre hk hi
  refine ⟨r2, ?_, ?_, h2, ?_, h3, ?_⟩
  · simp only [_queueObject, h1]
  · rw [h2, setFinished, List.length_map]
  · rw [h2, hq]
    exact setFinished_at key pre post e hk
  · intro ht
    cases htl : r._timeline with
    | none => exact absurd htl ht
    | some t => simp [callTimeline, htl]

/-- Witness of C13 (amended): the finished runner with `x` queued. -/
theorem retarget_finished_witness :
    ∃ r2 : Runner Unit,
      finishedWithX._queueObject "x" (Value.number (fin 5)) idleMorpher
        = Except.ok (r2, finishedWithX.callTimeline Event.play)
      ∧ r2._queue.length = finishedWithX._queue.length
      ∧ r2._queue = setFinished 1 false finishedWithX._queue
      ∧ r2._queue[0]?
          = some { alwaysConverged with initialised := true, finished := false, key := 1 }
      ∧ r2.done = finishedWithX.done
      ∧ (finishedWithX._timeline ≠ none → finishedWithX.callTimeline Event.play = [Event.play]) :=
  retarget_finished finishedWithX "x" (Value.number (fin 5)) idleMorpher
    ⟨idleMorpher, some 1⟩ 1 [] []
    { alwaysConverged with initialised := true, finished := true, key := 1 }
    rfl rfl rfl (by simp) rfl rfl

/-- C14, the failing input: the declarative runner with a queued `x` and a queued transform
that `_history` remembers, after `clearTransformsFromQueue ()` has dropped the transform from
the queue (as `clearBefore` does for a runner registered before an absolute transform).  The
queue holds `x` alone; `_tryRetarget ('transform', ...)` finds the remembered entry not
initialised, `indexOf` returns `-1`, and `splice (-1, 1)` removes `x`, the last entry. -/
theorem retarget_removes_other_entry :
    (withQueuedTransform.clearTransformsFromQueue._queue.map (fun e => e.key) = [1])
    ∧ ∃ r2 : Runner Unit,
        withQueuedTransform.clearTransformsFromQueue._tryRetarget "transform"
            (Value.object [("rotate", fin 90)]) Value.undefined
          = Except.ok (r2, false, [])
        ∧ r2._queue = [] := by
  refine ⟨?_, _, rfl, ?_⟩
  · simp [withQueuedTransform, clearTransformsFromQueue, create, neverConverged]
  · rfl

end Runner

namespace RunnerArray

variable {σ : Type}

/-! ## The runner collection -/

/-- C16. Merge of two finished runners: for a collection holding exactly two runners `A`
(registered first) and `B`, both done and neither persisted on a timeline, `merge ()` leaves
one entry (the length goes from 2 to 1), which is done, keeps the id of `A` and carries the
matrix `B.transforms · A.transforms`. -/
theorem merge_two_finished (A B : AnyRunner σ) (hA : A.done = true) (hB : B.done = true)
    (hpA : A.persisted = false) (hpB : B.persisted = false) :
    (merge ⟨[A, B], [A.id + 1, B.id + 1]⟩
        = ⟨[AnyRunner.fake ⟨Matrix.multiply B.transforms A.transforms, A.id, true⟩], [A.id + 1]⟩)
    ∧ (length (⟨[A, B], [A.id + 1, B.id + 1]⟩ : RunnerArray σ) = 2)
    ∧ (length (merge ⟨[A, B], [A.id + 1, B.id + 1]⟩) = 1) := by
  have hm : merge ⟨[A, B], [A.id + 1, B.id + 1]⟩
      = ⟨[AnyRunner.fake ⟨Matrix.multiply B.transforms A.transforms, A.id, true⟩],
          [A.id + 1]⟩ := by
    have hr : List.range 2 = [0, 1] := rfl
    simp only [merge, List.length_cons, List.length_nil, hr, List.foldl_cons, List.foldl_nil,
      mergeVisit, List.getElem?_cons_zero, List.getElem?_cons_succ, hA, hB, hpA, hpB,
      Bool.not_false, Bool.and_self, if_true, AnyRunner.mergeWith, Matrix.lmultiply]
    by_cases hid : A.id = B.id
    · simp [remove, edit, indexOf, splice, hid]
    · have hne : ¬ (A.id + 1 = B.id + 1) := fun h => hid (by omega)
      simp [remove, edit, indexOf, splice, hne]
  refine ⟨hm, rfl, ?_⟩
  rw [hm]
  rfl

/-- Witness of C16: the placeholder and a finished runner with id 5 that is on no timeline. -/
theorem merge_two_finished_witness :
    length (merge (⟨[AnyRunner.fake {},
        AnyRunner.runner { Runner.create 5 (fin 1000) () with done := true }],
      [(AnyRunner.fake {} : AnyRunner Unit).id + 1,
        (AnyRunner.runner { Runner.create 5 (fin 1000) () with done := true } :
          AnyRunner Unit).id + 1]⟩ : RunnerArray Unit)) = 1 :=
  (merge_two_finished (AnyRunner.fake {})
    (AnyRunner.runner { Runner.create 5 (fin 1000) () with done := true }) rfl rfl rfl rfl).2.2

/-- C17, as stated, fails: `clearBefore` for the runner with id 2 removes the placeholder and
the runner `persistedDone`, which is done and persisted on its timeline and therefore keeps
its transform entry. -/
theorem clearBefore_keeps_persisted_queue :
    (indexOf threeRegistered.ids (fun x => x == 2 + 1) = 2)
    ∧ ((threeRegistered.clearBefore 2).2
        = [AnyRunner.fake {}, AnyRunner.runner persistedDone])
    ∧ (persistedDone._queue.map (fun e => e.isTransform) = [true, false]) := by
  refine ⟨rfl, ?_, rfl⟩
  rfl

/-- C17, amended. Absolute-transform pruning: when the runner with the given id sits at index
`k ≥ 1`, `clearBefore (id)` leaves one identity placeholder followed by the runners from
index `k` on in their order, and every runner before it is removed after its
`clearTransformsFromQueue ()`: a removed runner that is not done, or not persisted on its
timeline, has exactly its `isTransform` entries dropped and keeps the others in order, and a
removed runner that is done and persisted keeps its whole queue. -/
theorem clearBefore_prunes (arr : RunnerArray σ) (id : Int) (k : Nat)
    (hk : indexOf arr.ids (fun x => x == id + 1) = (k : Int)) (hk1 : 1 ≤ k) :
    ((arr.clearBefore id).1.runners = AnyRunner.fake {} :: arr.runners.drop k)
    ∧ ((arr.clearBefore id).1.ids = 0 :: arr.ids.drop k)
    ∧ ((arr.clearBefore id).2 = (arr.runners.take k).map AnyRunner.clearTransformsFromQueue)
    ∧ (∀ r : Runner σ, (r.done && (AnyRunner.runner r).persisted) = false →
        r.clearTransformsFromQueue._queue = r._queue.filter (fun e => !e.isTransform))
    ∧ (∀ r : Runner σ, (r.done && (AnyRunner.runner r).persisted) = true →
        r.clearTransformsFromQueue = r) := by
  have hk0 : ¬ ((k : Int) = 0) := by omega
  refine ⟨?_, ?_, ?_, ?_, ?_⟩
  · simp only [clearBefore, hk, hk0, if_false, splice_first]
    rfl
  · simp only [clearBefore, hk, hk0, if_false, splice_first]
    rfl
  · simp only [clearBefore, hk, hk0, if_false, splice_first]
  · intro r h
    simp only [AnyRunner.persisted] at h
    simp only [Runner.clearTransformsFromQueue]
    cases hd : r.done <;> simp_all
  · intro r h
    simp only [AnyRunner.persisted] at h
    simp only [Runner.clearTransformsFromQueue]
    cases hd : r.done <;> simp_all

/-- Witness of C17 (amended): `clearBefore` for the runner with id 2 of `threeRegistered`. -/
theorem clearBefore_prunes_witness :
    (threeRegistered.clearBefore 2).1.ids = [0, 3] :=
  (clearBefore_prunes threeRegistered 2 2 rfl (by decide)).2.1

end RunnerArray

namespace Runner

variable {σ : Type}

/-! ## The run pass -/

/-- The run pass calls the step function of every entry once, in the order of the queue. -/
theorem runLoop_calls (arg : JSNum) (q : List (QueueEntry σ)) :
    ∀ (b : Bool) (k : Nat) (sc : Scope σ),
      (runLoop arg b k q sc).2.2.2 = (List.range' k q.length).map (fun i => Event.runner i arg) := by
  induction q with
  | nil => intro b k sc; simp [runLoop]
  | cons c rest ih =>
    intro b k sc
    simp only [runLoop, List.length_cons, List.range'_succ, List.map_cons, ih]

/-- The run pass keeps the number of entries. -/
theorem runLoop_length (arg : JSNum) (q : List (QueueEntry σ)) :
    ∀ (b : Bool) (k : Nat) (sc : Scope σ), (runLoop arg b k q sc).1.length = q.length := by
  induction q with
  | nil => intro b k sc; simp [runLoop]
  | cons c rest ih =>
    intro b k sc
    simp only [runLoop, List.length_cons, ih]

/-- The entries the run pass leaves for a queue in two parts: the second part is run on the
scope the first part left. -/
theorem runLoop_append (arg : JSNum) (pre post : List (QueueEntry σ)) :
    ∀ (b : Bool) (k : Nat) (sc : Scope σ),
      (runLoop arg b k (pre ++ post) sc).1
        = (runLoop arg b k pre sc).1
          ++ (runLoop arg (runLoop arg b k pre sc).2.2.1 (k + pre.length) post
              (runLoop arg b k pre sc).2.1).1 := by
  induction pre with
  | nil => intro b k sc; simp [runLoop]
  | cons c rest ih =>
    intro b k sc
    have e : k + 1 + rest.length = k + (rest.length + 1) := by omega
    rw [List.cons_append]
    simp only [runLoop, List.length_cons]
    rw [ih, e, List.cons_append]

/-- C25. Run pass of the queue: for every queue and argument, `_run` calls every entry's step
function exactly once, in insertion order, finished or not; afterwards each entry is the
entry it was with `finished` set to (finished before, or its step function returned `true`
on the scope the calls before it left), so `finished` never goes from true to false; and
`_run` returns true exactly when every entry is finished afterwards (true for the empty
queue). -/
theorem run_pass (r : Runner σ) (arg : JSNum) :
    ((r._run arg).2.2 = (List.range r._queue.length).map (fun i => Event.runner i arg))
    ∧ ((r._run arg).1._queue.length = r._queue.length)
    ∧ (∀ (pre post : List (QueueEntry σ)) (e : QueueEntry σ), r._queue = pre ++ e :: post →
        (r._run arg).1._queue[pre.length]?
          = some { e with finished := e.finished
              || (e.runner arg (runLoop arg true 0 pre ⟨r.transforms, r.env⟩).2.1).2 })
    ∧ ((r._run arg).2.1 = (r._run arg).1._queue.all (fun e => e.finished))
    ∧ (r._queue = [] → (r._run arg).2.1 = true) := by
  refine ⟨?_, ?_, ?_, ?_, ?_⟩
  · simp only [_run, runLoop_calls, List.range_eq_range']
  · simp only [_run, runLoop_length]
  · intro pre post e hq
    simp only [_run, hq, runLoop_append]
    rw [List.getElem?_append_right (by rw [runLoop_length])]
    simp [runLoop_length, runLoop]
  · simp only [_run]
    rw [runLoop_allfinished, Bool.true_and]
  · intro hq
    simp [_run, hq, runLoop]

/-- Witness of C25: the run pass over a queue of one entry that converges at once leaves it
finished. -/
theorem run_pass_witness :
    (({ create 0 (fin 1000) () with _queue := [alwaysConverged] } : Runner Unit)._run
        (fin 0)).1._queue[0]?
      = some { alwaysConverged with finished := true } :=
  (run_pass ({ create 0 (fin 1000) () with _queue := [alwaysConverged] } : Runner Unit)
    (fin 0)).2.2.1 [] [] alwaysConverged rfl

/-! ## Construction -/

/-- C21. `sanitise` defaults each option independently: for an options object as first
argument, each of `duration`, `delay`, `when`, `swing`, `times` and `wait` of the result is
the object's property of that name when it is truthy, and otherwise the default of that field
alone: the timeline default duration; the positional delay if truthy, else the timeline
default delay; the positional `when` if truthy, else `'last'`; `false`; `1`; `0`. -/
theorem sanitise_defaults (timeline : Defaults) (fields : List (String × JSVal))
    (delay when : JSVal) :
    sanitise timeline (JSVal.object fields) delay when =
      { duration :=
          if ((JSVal.object fields).get "duration").truthy
          then (JSVal.object fields).get "duration" else JSVal.number timeline.duration
        delay :=
          if ((JSVal.object fields).get "delay").truthy then (JSVal.object fields).get "delay"
          else if delay.truthy then delay else JSVal.number timeline.delay
        when :=
          if ((JSVal.object fields).get "when").truthy then (JSVal.object fields).get "when"
          else if when.truthy then when else JSVal.string "last"
        swing :=
          if ((JSVal.object fields).get "swing").truthy then (JSVal.object fields).get "swing"
          else JSVal.bool false
        times :=
          if ((JSVal.object fields).get "times").truthy then (JSVal.object fields).get "times"
          else JSVal.number (fin 1)
        wait :=
          if ((JSVal.object fields).get "wait").truthy then (JSVal.object fields).get "wait"
          else JSVal.number (fin 0) } := by
  have h1 : (JSVal.object fields).or (JSVal.number timeline.duration) = JSVal.object fields := rfl
  simp only [sanitise, h1, JSVal.typeofObject, JSVal.instanceofStepper, Bool.not_false,
    Bool.and_self, if_true]
  simp only [JSVal.or]

/-- The ids successive constructions assign, from any value of the counter. -/
theorem constructAll_ids (timeline : Defaults) (env : σ) (args : List JSVal) :
    ∀ counter : Nat,
      ((constructAll timeline env counter args).1.map (fun r => r.id)
        = List.range' counter args.length)
      ∧ (constructAll timeline env counter args).2 = counter + args.length := by
  induction args with
  | nil => intro counter; simp [constructAll]
  | cons o rest ih =>
    intro counter
    have h := ih (counter + 1)
    simp only [constructAll, construct, List.map_cons, List.length_cons, List.range'_succ, h.1,
      h.2]
    exact ⟨rfl, by omega⟩

/-- C22, as stated, fails: the first runner constructed has id 0. -/
theorem first_runner_id_zero :
    ((construct initialId ⟨fin 400, fin 0⟩ (JSVal.number (fin 1000)) ()).1 : Runner Unit).id
      = 0 := rfl

/-- C22, amended. Runner identity: the ids assigned by successive constructions are the
counter values `0, 1, 2, ...`: strictly increasing integers, hence pairwise distinct, the
first runner constructed having id 0. -/
theorem construct_ids (timeline : Defaults) (env : σ) (args : List JSVal) :
    ((constructAll timeline env initialId args).1.map (fun r => r.id) = List.range args.length)
    ∧ ((constructAll timeline env initialId args).1.map (fun r => r.id)).Pairwise (· < ·)
    ∧ ((constructAll timeline env initialId args).1.map (fun r => r.id)).Nodup := by
  have h : (constructAll timeline env initialId args).1.map (fun r => r.id)
      = List.range args.length := by
    rw [(constructAll_ids timeline env args initialId).1, List.range_eq_range']
    rfl
  rw [h]
  exact ⟨rfl, List.pairwise_lt_range _, List.nodup_range _⟩

end Runner

namespace RunnerArray

variable {σ : Type}

/-! ## Merging and the net transform -/

/-- The matrix product is associative. -/
theorem multiply_assoc (a b c : Matrix) :
    Matrix.multiply (Matrix.multiply a b) c = Matrix.multiply a (Matrix.multiply b c) := by
  simp only [Matrix.multiply, Matrix.mk.injEq]
  refine ⟨?_, ?_, ?_, ?_, ?_, ?_⟩ <;> ring

/-- What a merge is meant to do: replacing two neighbours by the placeholder `mergeWith`
makes of them leaves the net transform as it is. -/
theorem netTransform_merge_neighbours (pre post : List (AnyRunner σ)) (l r : AnyRunner σ)
    (ids ids2 : List Int) :
    netTransform ⟨pre ++ l :: r :: post, ids⟩ = netTransform ⟨pre ++ r.mergeWith l :: post, ids2⟩ := by
  simp only [netTransform, List.map_append, List.map_cons, List.foldl_append, List.foldl_cons,
    AnyRunner.mergeWith, AnyRunner.transforms, Matrix.lmultiply, multiply_assoc]

/-- C23, the failing input: the placeholder followed by the runners 1 (done), 2 (not done)
and 3 (done), none persisted, with ids pairwise distinct, translating by 1, 10 and 100.
The net transform is the translation by 111 before `merge ()` and by 102 after it, and the
runner 2, which is not done, is no longer in the collection: what is left is the placeholder
merged with runner 1 and a placeholder for runner 3 merged with runner 1 again. -/
theorem merge_loses_runner :
    (fourRegistered.ids.Nodup)
    ∧ (netTransform fourRegistered = translateX 111)
    ∧ (netTransform (merge fourRegistered) = translateX 102)
    ∧ ((merge fourRegistered).runners.map AnyRunner.transforms = [translateX 1, translateX 101])
    ∧ ((merge fourRegistered).runners.map AnyRunner.id = [-1, 1])
    ∧ ((translating 2 false 10).done = false) := by
  have hr : List.range 4 = [0, 1, 2, 3] := rfl
  have hm : merge fourRegistered
      = ⟨[AnyRunner.fake ⟨translateX 1, -1, true⟩, AnyRunner.fake ⟨translateX 101, 1, true⟩],
          [0, 2]⟩ := by
    simp [merge, fourRegistered, hr, mergeVisit, translating, AnyRunner.done, AnyRunner.persisted,
      AnyRunner.id, AnyRunner.transforms, AnyRunner.mergeWith, Runner.create, remove, edit,
      indexOf, splice, Matrix.lmultiply, Matrix.multiply, translateX, Matrix.identity]
    norm_num
  refine ⟨by decide, ?_, ?_, ?_, ?_, rfl⟩
  · simp [netTransform, fourRegistered, translating, AnyRunner.transforms, Matrix.lmultiply,
      Matrix.multiply, translateX, Matrix.identity, Runner.create]
    norm_num
  · rw [hm]
    simp [netTransform, AnyRunner.transforms, Matrix.lmultiply, Matrix.multiply, translateX,
      Matrix.identity]
    norm_num
  · rw [hm]
    rfl
  · rw [hm]
    rfl

end RunnerArray

namespace Runner

variable {σ : Type}

/-! ## Initialisers over a sequence of calls -/

/-- The initialisation pass keeps the keys of the queue. -/
theorem initialiseLoop_keys (decl : Bool) (q : List (QueueEntry σ)) :
    ∀ (b : Bool) (k : Nat) (sc : Scope σ),
      (initialiseLoop decl b k q sc).1.map (fun e => e.key) = q.map (fun e => e.key) := by
  induction q with
  | nil => intro b k sc; simp [initialiseLoop]
  | cons c rest ih =>
    intro b k sc
    simp only [initialiseLoop]
    split <;> simp [ih]

/-- The keys of the entries the initialisation pass calls, read off its events. -/
theorem initialiseLoop_calledKeys (q : List (QueueEntry σ)) :
    ∀ (pre : List (QueueEntry σ)) (b : Bool) (sc : Scope σ),
      calledKeys (pre ++ q) (initialiseLoop false b pre.length q sc).2.2 = initCalled b q := by
  induction q with
  | nil => intro pre b sc; simp [initialiseLoop, initCalled, calledKeys]
  | cons c rest ih =>
    intro pre b sc
    have hpre : ∀ sc2 : Scope σ, calledKeys (pre ++ c :: rest)
        (initialiseLoop false (!c.finished) (pre.length + 1) rest sc2).2.2
        = initCalled (!c.finished) rest := by
      intro sc2
      have h := ih (pre ++ [c]) (!c.finished) sc2
      simpa using h
    simp only [initialiseLoop, initCalled, Bool.false_or]
    split
    · rw [← hpre (c.initialiser sc)]
      have hget : (pre ++ c :: rest)[pre.length]? = some c := by
        rw [List.getElem?_append_right (le_refl _)]
        simp
      simp only [calledKeys, List.filterMap_cons, hget, Option.map_some']
    · exact hpre sc

/-- The entries initialised after the initialisation pass: those initialised before and
those it calls. -/
theorem initialiseLoop_marks (q : List (QueueEntry σ)) :
    ∀ (b : Bool) (k : Nat) (sc : Scope σ) (x : Nat),
      (x, true) ∈ marks (initialiseLoop false b k q sc).1 ↔
        (x, true) ∈ marks q ∨ x ∈ initCalled b q := by
  induction q with
  | nil => intro b k sc x; simp [initialiseLoop, initCalled, marks]
  | cons c rest ih =>
    intro b k sc x
    simp only [initialiseLoop, initCalled, Bool.false_or]
    split
    · rename_i hcond
      simp only [Bool.and_eq_true, Bool.not_eq_true'] at hcond
      have h := ih (!c.finished) (k + 1) (c.initialiser sc) x
      simp only [marks, List.map_cons, List.mem_cons, Prod.mk.injEq] at h ⊢
      rw [h, hcond.1.1]
      constructor
      · rintro (⟨h1, -⟩ | h2 | h3)
        · exact Or.inr (Or.inl h1)
        · exact Or.inl (Or.inr h2)
        · exact Or.inr (Or.inr h3)
      · rintro ((⟨-, h1⟩ | h2) | h1 | h3)
        · exact absurd h1 (by simp)
        · exact Or.inr (Or.inl h2)
        · exact Or.inl ⟨h1, trivial⟩
        · exact Or.inr (Or.inr h3)
    · have h := ih (!c.finished) (k + 1) sc x
      simp only [marks, List.map_cons, List.mem_cons] at h ⊢
      rw [h]
      tauto

/-- The initialisation pass calls entries of the queue, each at most once, in order. -/
theorem initCalled_sublist (q : List (QueueEntry σ)) :
    ∀ b : Bool, (initCalled b q).Sublist (q.map (fun e => e.key)) := by
  induction q with
  | nil => intro b; simp [initCalled]
  | cons c rest ih =>
    intro b
    simp only [initCalled, List.map_cons]
    split
    · exact (ih _).cons₂ _
    · exact (ih _).cons _

/-- The initialisation pass calls only entries that are not initialised. -/
theorem initCalled_uninitialised (q : List (QueueEntry σ)) :
    ∀ (b : Bool) (x : Nat), x ∈ initCalled b q →
      ∃ e ∈ q, e.key = x ∧ e.initialised = false := by
  induction q with
  | nil => intro b x hx; simp [initCalled] at hx
  | cons c rest ih =>
    intro b x hx
    simp only [initCalled] at hx
    split at hx
    · rename_i hcond
      simp only [Bool.and_eq_true, Bool.not_eq_true'] at hcond
      rcases List.mem_cons.mp hx with h | h
      · exact ⟨c, List.mem_cons_self _ _, h.symm, hcond.1.1⟩
      · obtain ⟨e, he, h1, h2⟩ := ih _ x h
        exact ⟨e, List.mem_cons_of_mem _ he, h1, h2⟩
    · obtain ⟨e, he, h1, h2⟩ := ih _ x hx
      exact ⟨e, List.mem_cons_of_mem _ he, h1, h2⟩

/-- The run pass changes neither a key nor an `initialised` flag. -/
theorem runLoop_marks (arg : JSNum) (q : List (QueueEntry σ)) :
    ∀ (b : Bool) (k : Nat) (sc : Scope σ), marks (runLoop arg b k q sc).1 = marks q := by
  induction q with
  | nil => intro b k sc; simp [runLoop, marks]
  | cons c rest ih =>
    intro b k sc
    have h := ih (b && (c.finished || (c.runner arg sc).2)) (k + 1) (c.runner arg sc).1
    simp only [marks] at h
    simp only [runLoop, marks, List.map_cons, h]

/-- The run pass calls no initialiser. -/
theorem calledKeys_runLoop (arg : JSNum) (q0 q : List (QueueEntry σ)) (b : Bool) (k : Nat)
    (sc : Scope σ) : calledKeys q0 (runLoop arg b k q sc).2.2.2 = [] := by
  rw [runLoop_calls]
  simp [calledKeys]

/-- The called keys of events in two parts. -/
theorem calledKeys_append (q : List (QueueEntry σ)) (a b : List Event) :
    calledKeys q (a ++ b) = calledKeys q a ++ calledKeys q b := by
  simp only [calledKeys, List.filterMap_append]

/-- A call that changes nothing and fires nothing only steps the runner. -/
theorem stepsQueue_refl (r : Runner σ) : StepsQueue r (r, []) := by
  refine ⟨rfl, rfl, rfl, fun x => ?_, ?_, ?_⟩
  · simp [calledKeys]
  · simp [calledKeys]
  · intro x hx
    simp [calledKeys] at hx

/-- Setting the reset flag after a call changes nothing for the entries. -/
theorem stepsQueue_reseted (r : Runner σ) (out : Runner σ × List Event) (h : StepsQueue r out) :
    StepsQueue r ({ out.1 with _reseted := true }, out.2) := h

/-- A step of a runner that is not declarative only steps the runner. -/
theorem stepsQueue_step (r : Runner σ) (dt : Option JSNum) (hn : r._isDeclarative = false) :
    StepsQueue r (r.step dt) := by
  cases he : r.enabled
  · have h : r.step dt = (r, []) := by simp [step, he]
    rw [h]
    exact stepsQueue_refl r
  · cases hrun : stepRunning r dt
    · rw [step_idle r dt he hn hrun]
      have hcalled : calledKeys r._queue ((if justStarted r dt then [Event.start] else [])
          ++ (if justFinished r dt then [Event.finished] else [])) = [] := by
        split <;> split <;> simp [calledKeys]
      refine ⟨rfl, rfl, rfl, fun x => ?_, ?_, ?_⟩
      · simp only [hcalled, List.not_mem_nil, or_false]
      · simp only [hcalled, List.nil_sublist]
      · intro x hx
        simp only [hcalled, List.not_mem_nil] at hx
    · rw [step_running r dt he hn hrun]
      have hini := initialiseLoop_calledKeys r._queue [] true ⟨r.transforms, r.env⟩
      simp only [List.nil_append, List.length_nil] at hini
      have hcalled : calledKeys r._queue ((if justStarted r dt then [Event.start] else [])
          ++ ((initialiseLoop false true 0 r._queue ⟨r.transforms, r.env⟩).2.2
            ++ (runLoop (stepPosition r dt) true 0
              (initialiseLoop false true 0 r._queue ⟨r.transforms, r.env⟩).1
              ⟨Matrix.identity, (initialiseLoop false true 0 r._queue
                ⟨r.transforms, r.env⟩).2.1.env⟩).2.2.2
            ++ [Event.step])
          ++ (if justFinished r dt then [Event.finished] else []))
          = initCalled true r._queue := by
        simp only [calledKeys_append, hini, calledKeys_runLoop]
        split <;> split <;> simp [calledKeys]
      have hmarks := runLoop_marks (stepPosition r dt) (initialiseLoop false true 0 r._queue
        ⟨r.transforms, r.env⟩).1 true 0 ⟨Matrix.identity, (initialiseLoop false true 0 r._queue
          ⟨r.transforms, r.env⟩).2.1.env⟩
      have hkeys : (runLoop (stepPosition r dt) true 0 (initialiseLoop false true 0 r._queue
          ⟨r.transforms, r.env⟩).1 ⟨Matrix.identity, (initialiseLoop false true 0 r._queue
            ⟨r.transforms, r.env⟩).2.1.env⟩).1.map (fun e => e.key)
          = r._queue.map (fun e => e.key) := by
        have h1 := congrArg (List.map Prod.fst) hmarks
        simp only [marks, List.map_map] at h1
        rw [← initialiseLoop_keys false r._queue true 0 ⟨r.transforms, r.env⟩]
        exact h1
      refine ⟨hkeys, rfl, rfl, fun x => ?_, ?_, ?_⟩
      · rw [hcalled]
        show (x, true) ∈ marks (runLoop _ _ _ _ _).1 ↔ _
        rw [hmarks]
        exact initialiseLoop_marks r._queue true 0 _ x
      · rw [hcalled]
        exact initCalled_sublist r._queue true
      · rw [hcalled]
        exact initCalled_uninitialised r._queue true

/-- Every call but a retarget call only steps the runner, when it is not declarative. -/
theorem stepsQueue_perform (r : Runner σ) (hn : r._isDeclarative = false) (call : Call σ)
    (hcall : ∀ method target morpher, call ≠ Call.retarget method target morpher) :
    StepsQueue r (r.perform call) := by
  cases call with
  | step dt => exact stepsQueue_step r dt hn
  | time t => exact stepsQueue_step r _ hn
  | progress p => exact stepsQueue_step r _ hn
  | loops p => exact stepsQueue_step r _ hn
  | reset =>
    simp only [perform, reset]
    split
    · exact stepsQueue_refl r
    · exact stepsQueue_reseted r _ (stepsQueue_step r _ hn)
  | finish => exact stepsQueue_step r _ hn
  | retarget method target morpher => exact absurd rfl (hcall method target morpher)

/-- What `splice` leaves and what it removes make up the array it was called on. -/
theorem splice_perm {α : Type} (l : List α) (start deleteCount : Int) :
    ((splice l start deleteCount []).1 ++ (splice l start deleteCount []).2).Perm l := by
  simp only [splice, List.append_nil]
  generalize (if start < 0 then ((l.length : Int) + start).toNat
    else Min.min start.toNat l.length) = a
  generalize Min.min deleteCount.toNat (l.length - a) = n
  have h1 : l.take a ++ ((l.drop a).take n ++ l.drop (a + n)) = l := by
    rw [← List.drop_drop, List.take_append_drop, List.take_append_drop]
  have h2 : (l.take a ++ l.drop (a + n) ++ (l.drop a).take n).Perm
      (l.take a ++ ((l.drop a).take n ++ l.drop (a + n))) := by
    rw [List.append_assoc]
    exact List.Perm.append_left _ List.perm_append_comm
  rw [h1] at h2
  exact h2

/-- The assignment `entry.finished = value` changes neither a key nor an `initialised`
flag. -/
theorem marks_setFinished (key : Nat) (value : Bool) (l : List (QueueEntry σ)) :
    marks (setFinished key value l) = marks l := by
  simp only [marks, setFinished, List.map_map]
  apply List.map_congr_left
  intro e _
  simp only [Function.comp_apply]
  split <;> rfl

/-- The marks of a list in two parts. -/
theorem marks_append (a b : List (QueueEntry σ)) : marks (a ++ b) = marks a ++ marks b := by
  simp only [marks, List.map_append]

/-- The keys of a list, read off its marks. -/
theorem keys_of_marks (l : List (QueueEntry σ)) :
    (marks l).map Prod.fst = l.map (fun e => e.key) := by
  simp only [marks, List.map_map]
  rfl

/-- The timeline calls are no initialiser calls. -/
theorem calledKeys_callTimeline (q : List (QueueEntry σ)) (r : Runner σ) (call : Event)
    (hcall : ∀ i, call ≠ Event.initialiser i) : calledKeys q (r.callTimeline call) = [] := by
  unfold callTimeline
  split
  · cases call <;> first | rfl | exact absurd rfl (hcall _)
  · rfl

/-- A `_tryRetarget` that throws leaves the runner as it was. -/
theorem _tryRetarget_error (r : Runner σ) (method : String) (target extra : Value)
    (e : String × Runner σ) (h : r._tryRetarget method target extra = Except.error e) :
    e.2 = r := by
  simp only [_tryRetarget] at h
  split at h
  · cases h
  · split at h
    · cases h
      rfl
    · split at h <;> cases h

/-- A `_tryRetarget` that returns keeps every entry object with its key and its
`initialised` flag, in the queue or out of it, keeps the mode, and calls no initialiser. -/
theorem _tryRetarget_marks (r r2 : Runner σ) (method : String) (target extra : Value)
    (b : Bool) (fired : List Event)
    (h : r._tryRetarget method target extra = Except.ok (r2, b, fired)) :
    (marks r2.entries).Perm (marks r.entries)
    ∧ r2._isDeclarative = r._isDeclarative
    ∧ (∀ q : List (QueueEntry σ), calledKeys q fired = []) := by
  simp only [_tryRetarget] at h
  split at h
  · cases h
    exact ⟨List.Perm.refl _, rfl, fun _ => rfl⟩
  · split at h
    · cases h
    · split at h
      · cases h
        refine ⟨?_, rfl, fun _ => rfl⟩
        simp only [entries]
        rename_i caller _ _
        have hp := splice_perm r._queue (indexOf r._queue (fun e => e.key == caller.key)) 1
        have h2 : ((splice r._queue (indexOf r._queue (fun e => e.key == caller.key)) 1 []).1
            ++ (r.detached ++ (splice r._queue
              (indexOf r._queue (fun e => e.key == caller.key)) 1 []).2)).Perm
            (r._queue ++ r.detached) := by
          refine List.Perm.trans ?_ (List.Perm.append_right r.detached hp)
          rw [List.append_assoc]
          exact List.Perm.append_left _ List.perm_append_comm
        exact h2.map _
      · cases h
        refine ⟨?_, rfl, fun q => calledKeys_callTimeline q _ _ (fun _ h => Event.noConfusion h)⟩
        simp only [entries, marks_append, marks_setFinished]
        exact List.Perm.refl _

/-- No key of a list is above the greatest. -/
theorem le_foldr_max (l : List Nat) : ∀ x ∈ l, x ≤ l.foldr Max.max 0 := by
  induction l with
  | nil => intro x hx; simp at hx
  | cons a rest ih =>
    intro x hx
    rcases List.mem_cons.mp hx with h | h
    · rw [h]
      exact le_max_left _ _
    · exact le_trans (ih x h) (le_max_right _ _)

/-- The key `queue` gives a new entry is the key of no entry object of the runner. -/
theorem freshKey_not_mem (r : Runner σ) : r.freshKey ∉ r.entries.map (fun e => e.key) := by
  intro h
  have h2 := le_foldr_max _ _ h
  simp only [freshKey, entries] at h2
  omega

/-- A `_queueObject` that throws leaves the runner as it was. -/
theorem _queueObject_error (r : Runner σ) (method : String) (target : Value)
    (morpher : Morpher σ) (e : String × Runner σ)
    (h : r._queueObject method target morpher = Except.error e) : e.2 = r := by
  cases hT : r._tryRetarget method target Value.undefined with
  | error e2 =>
    simp only [_queueObject, hT, Except.error.injEq] at h
    rw [← h]
    exact _tryRetarget_error r method target Value.undefined e2 hT
  | ok res =>
    obtain ⟨r2, b, fired⟩ := res
    cases b <;> simp [_queueObject, hT] at h

/-- A `_queueObject` that returns keeps every entry object with its key and its
`initialised` flag, adds at most one entry, with a new key and not initialised, keeps the mode
and calls no initialiser. -/
theorem _queueObject_marks (r r3 : Runner σ) (method : String) (target : Value)
    (morpher : Morpher σ) (fired : List Event)
    (h : r._queueObject method target morpher = Except.ok (r3, fired)) :
    ((marks r3.entries).Perm (marks r.entries)
      ∨ ∃ k, k ∉ r.entries.map (fun e => e.key)
          ∧ (marks r3.entries).Perm ((k, false) :: marks r.entries))
    ∧ r3._isDeclarative = r._isDeclarative
    ∧ (∀ q : List (QueueEntry σ), calledKeys q fired = []) := by
  cases hT : r._tryRetarget method target Value.undefined with
  | error e2 => simp [_queueObject, hT] at h
  | ok res =>
    obtain ⟨r2, b, fired2⟩ := res
    obtain ⟨hperm, hdecl, hfired⟩ := _tryRetarget_marks r r2 method target Value.undefined b
      fired2 hT
    cases b
    · simp only [_queueObject, hT, Except.ok.injEq, Prod.mk.injEq] at h
      obtain ⟨h1, h2⟩ := h
      subst h1
      subst h2
      refine ⟨Or.inr ⟨r2.freshKey, ?_, ?_⟩, hdecl, fun q => ?_⟩
      · intro hmem
        apply freshKey_not_mem r2
        rw [← keys_of_marks] at hmem ⊢
        exact (hperm.map Prod.fst).mem_iff.mpr hmem
      · have e1 : marks (_rememberMorpher
            (queue { r2 with env := morpher.setTo target r2.env }
              (some (fun sc => { sc with env := morpher.setFrom sc.env }))
              (some (fun pos sc => ({ sc with env := morpher.write pos sc.env },
                morpher.done (morpher.write pos sc.env)))) none false).1 method morpher).1.entries
            = marks r2._queue ++ (r2.freshKey, false) :: marks r2.detached := by
          simp [_rememberMorpher, queue, entries, marks, freshKey]
        rw [e1]
        refine List.Perm.trans List.perm_middle ?_
        refine List.Perm.cons _ ?_
        rw [← marks_append]
        exact hperm
      · simp only [calledKeys_append, hfired]
        simp only [queue, _rememberMorpher, List.nil_append]
        rw [calledKeys_callTimeline _ _ _ (fun _ h => Event.noConfusion h)]
        split
        · rw [calledKeys_callTimeline _ _ _ (fun _ h => Event.noConfusion h)]
          rfl
        · rfl
    · simp only [_queueObject, hT, Except.ok.injEq, Prod.mk.injEq] at h
      obtain ⟨h1, h2⟩ := h
      subst h1
      subst h2
      exact ⟨Or.inl hperm, hdecl, hfired⟩

/-- An entry is initialised when its key stands with `true` among the marks. -/
theorem isInitialised_iff (r : Runner σ) (k : Nat) :
    r.isInitialised k ↔ (k, true) ∈ marks r.entries := by
  simp only [isInitialised, marks, List.mem_map, Prod.mk.injEq]

/-- What one call that only steps the runner does to the entry objects, when they are
distinct. -/
theorem good_of_stepsQueue (r : Runner σ) (out : Runner σ × List Event)
    (hn : r._isDeclarative = false) (hk : (r.entries.map (fun e => e.key)).Nodup)
    (h : StepsQueue r out) :
    out.1._isDeclarative = false
    ∧ (out.1.entries.map (fun e => e.key)).Nodup
    ∧ (calledKeys r._queue out.2).Nodup
    ∧ (∀ x ∈ calledKeys r._queue out.2, (x, true) ∉ marks r.entries)
    ∧ (∀ x, (x, true) ∈ marks out.1.entries ↔
        (x, true) ∈ marks r.entries ∨ x ∈ calledKeys r._queue out.2) := by
  obtain ⟨h1, h2, h3, h4, h5, h6⟩ := h
  have hk2 : (r._queue.map (fun e => e.key) ++ r.detached.map (fun e => e.key)).Nodup := by
    rw [← List.map_append]
    exact hk
  have hq : (r._queue.map (fun e => e.key)).Nodup := (List.nodup_append.mp hk2).1
  refine ⟨h3.trans hn, ?_, List.Nodup.sublist h5 hq, ?_, ?_⟩
  · simp only [entries, List.map_append, h1, h2]
    exact hk2
  · intro x hx hmem
    obtain ⟨e, he, hek, hei⟩ := h6 x hx
    obtain ⟨e2, he2, hek2, hei2⟩ := (isInitialised_iff r x).mpr hmem
    have hmem1 : e ∈ r.entries := List.mem_append_left _ he
    have heq : e = e2 := List.inj_on_of_nodup_map hk hmem1 he2 (hek.trans hek2.symm)
    rw [heq, hei2] at hei
    exact Bool.noConfusion hei
  · intro x
    simp only [entries, marks_append, List.mem_append, h2]
    rw [h4 x]
    tauto

/-- What one call does to the entry objects of a runner that is not declarative: the mode and
the distinctness of the entries are kept, the initialisers called are called once each, on
entries that were not initialised, and the entries initialised afterwards are those initialised
before and those whose initialiser was called. -/
theorem perform_good (r : Runner σ) (hn : r._isDeclarative = false)
    (hk : (r.entries.map (fun e => e.key)).Nodup) (call : Call σ) :
    (r.perform call).1._isDeclarative = false
    ∧ ((r.perform call).1.entries.map (fun e => e.key)).Nodup
    ∧ (calledKeys r._queue (r.perform call).2).Nodup
    ∧ (∀ x ∈ calledKeys r._queue (r.perform call).2, (x, true) ∉ marks r.entries)
    ∧ (∀ x, (x, true) ∈ marks (r.perform call).1.entries ↔
        (x, true) ∈ marks r.entries ∨ x ∈ calledKeys r._queue (r.perform call).2) := by
  by_cases hcall : ∀ method target morpher, call ≠ Call.retarget method target morpher
  · exact good_of_stepsQueue r _ hn hk (stepsQueue_perform r hn call hcall)
  · push_neg at hcall
    obtain ⟨method, target, morpher, hc⟩ := hcall
    subst hc
    simp only [perform]
    cases hQ : r._queueObject method target morpher with
    | error e =>
      have he := _queueObject_error r method target morpher e hQ
      simp only [he]
      refine ⟨hn, hk, List.nodup_nil, fun x hx => ?_, fun x => ?_⟩
      · exact absurd hx (List.not_mem_nil x)
      · constructor
        · exact fun h => Or.inl h
        · rintro (h | h)
          · exact h
          · exact absurd h (List.not_mem_nil x)
    | ok out =>
      obtain ⟨r3, ev⟩ := out
      obtain ⟨hp, hd, hc⟩ := _queueObject_marks r r3 method target morpher ev hQ
      simp only [hc]
      refine ⟨hd.trans hn, ?_, List.nodup_nil, fun x hx => absurd hx (List.not_mem_nil x),
        fun x => ?_⟩
      · rcases hp with hp | ⟨k, hk1, hp⟩
        · rw [← keys_of_marks]
          refine ((hp.map Prod.fst).nodup_iff).mpr ?_
          rw [keys_of_marks]
          exact hk
        · rw [← keys_of_marks]
          refine ((hp.map Prod.fst).nodup_iff).mpr ?_
          rw [List.map_cons, keys_of_marks]
          exact List.nodup_cons.mpr ⟨hk1, hk⟩
      · rcases hp with hp | ⟨k, hk1, hp⟩
        · rw [hp.mem_iff]
          simp only [List.not_mem_nil, or_false]
        · rw [hp.mem_iff]
          simp only [List.mem_cons, Prod.mk.injEq, Bool.true_eq_false, and_false, false_or,
            List.not_mem_nil, or_false]

/-- What a sequence of calls does to the entry objects of a runner that is not declarative. -/
theorem performAll_inv (calls : List (Call σ)) : ∀ r : Runner σ, r._isDeclarative = false →
    (r.entries.map (fun e => e.key)).Nodup →
    (performAll r calls).1._isDeclarative = false
    ∧ ((performAll r calls).1.entries.map (fun e => e.key)).Nodup
    ∧ (performAll r calls).2.Nodup
    ∧ (∀ x ∈ (performAll r calls).2, (x, true) ∉ marks r.entries)
    ∧ (∀ x, (x, true) ∈ marks (performAll r calls).1.entries ↔
        (x, true) ∈ marks r.entries ∨ x ∈ (performAll r calls).2) := by
  induction calls with
  | nil =>
    intro r hn hk
    refine ⟨hn, hk, List.nodup_nil, fun x hx => absurd hx (List.not_mem_nil x), fun x => ?_⟩
    simp only [performAll, List.not_mem_nil, or_false]
  | cons call rest ih =>
    intro r hn hk
    obtain ⟨g1, g2, g3, g4, g5⟩ := perform_good r hn hk call
    obtain ⟨i1, i2, i3, i4, i5⟩ := ih (r.perform call).1 g1 g2
    simp only [performAll]
    refine ⟨i1, i2, ?_, ?_, ?_⟩
    · refine List.nodup_append.mpr ⟨g3, i3, ?_⟩
      intro x hx hx2
      exact i4 x hx2 ((g5 x).mpr (Or.inr hx))
    · intro x hx hmem
      rcases List.mem_append.mp hx with h | h
      · exact g4 x h hmem
      · exact i4 x h ((g5 x).mpr (Or.inl hmem))
    · intro x
      rw [i5 x, g5 x, List.mem_append, or_assoc]

/-- The runner after two sequences of calls, one after the other. -/
theorem performAll_append (pre post : List (Call σ)) : ∀ r : Runner σ,
    (performAll r (pre ++ post)).1 = (performAll (performAll r pre).1 post).1 := by
  induction pre with
  | nil => intro r; rfl
  | cons call rest ih =>
    intro r
    simp only [List.cons_append, performAll]
    exact ih _

/-- Claim C24: on a runner that is not declarative and whose entry objects are distinct, over
every sequence of `step`, `time`, `progress`, `loops`, `reset`, `finish` and retarget calls no
initialiser is called twice, the initialiser of an entry that is initialised is not called, an
entry that is initialised after a part of the sequence is initialised at its end, and the
entries initialised at the end are those initialised at the beginning and those whose
initialiser was called; the entry objects stay distinct, so that a key names one entry all
along. -/
theorem initialisers_once (r : Runner σ) (calls : List (Call σ))
    (hn : r._isDeclarative = false) (hk : (r.entries.map (fun e => e.key)).Nodup) :
    (performAll r calls).2.Nodup
    ∧ (∀ k, r.isInitialised k → k ∉ (performAll r calls).2)
    ∧ (∀ pre post, calls = pre ++ post → ∀ k, (performAll r pre).1.isInitialised k →
        (performAll r calls).1.isInitialised k)
    ∧ (∀ k, (performAll r calls).1.isInitialised k ↔
        r.isInitialised k ∨ k ∈ (performAll r calls).2)
    ∧ ((performAll r calls).1.entries.map (fun e => e.key)).Nodup := by
  obtain ⟨_, i2, i3, i4, i5⟩ := performAll_inv calls r hn hk
  refine ⟨i3, ?_, ?_, ?_, i2⟩
  · intro k hinit hmem
    exact i4 k hmem ((isInitialised_iff r k).mp hinit)
  · intro pre post hcalls k hinit
    obtain ⟨p1, p2, _, _, _⟩ := performAll_inv pre r hn hk
    obtain ⟨_, _, _, _, q5⟩ := performAll_inv post (performAll r pre).1 p1 p2
    rw [hcalls, performAll_append, isInitialised_iff]
    exact (q5 k).mpr (Or.inl ((isInitialised_iff _ k).mp hinit))
  · intro k
    rw [isInitialised_iff, isInitialised_iff]
    exact i5 k

/-- Claim C24 at a runner with two queued entries, stepped, finished and reset. -/
theorem initialisers_once_witness :
    twoQueued._isDeclarative = false
    ∧ (twoQueued.entries.map (fun e => e.key)).Nodup
    ∧ (performAll twoQueued [Call.step none, Call.finish, Call.reset]).2.Nodup :=
  ⟨rfl, by decide,
    (initialisers_once twoQueued [Call.step none, Call.finish, Call.reset] rfl (by decide)).1⟩

end Runner

end SvgRunner
